import Mathlib

/-!
# Rhythm analysis of `HumdrumFileStructure`, MuseData records and `Tool_bardash`

A shallow embedding of the rhythmic and structural passes of
`src/src/HumdrumFileStructure.cpp` (namespace `minHumdrum`), of the column
access of `src/src/MuseRecordBasic.cpp` and `src/src/MuseRecord-note.cpp`, and
of the barline styling of `src/src/tool-bardash.cpp`.  Lines and tokens are
held in two arenas (lists) and pointers are indices into them.  `HumNum` is the
exact rational number type.
-/

namespace minHumdrum

/-- Modelled from the spec: `HumNum` (class not in the sources at hand) is the
"exact rational duration", every comparison and operation exact. -/
abbrev HumNum := ℚ

/-- A `HumdrumLine`: the classification flags and the text the analysis
passes read, the timing fields they write, the lines whose parameters have
been attached to it by `setParameters` (as line indices), and its tokens (as
token indices, by field). -/
structure HumdrumLine where
  hasSpines : Bool
  isData : Bool
  isBarline : Bool
  isAllRhythmicNull : Bool
  durationFromStart : HumNum
  duration : HumNum
  durationFromBarline : HumNum
  durationToBarline : HumNum
  isAllNull : Bool := false
  isManipulator : Bool := false
  isCommentLocal : Bool := false
  isCommentGlobal : Bool := false
  text : List Char := []
  parameters : List Nat := []
  tokens : List Nat := []
deriving DecidableEq, Inhabited

/-- A `HumdrumToken`: local duration, links to the next and previous tokens,
owning line, the visited marker read by `getState` and advanced by
`incrementState`, the classification flags and the text the parameter passes
and the tools read, the tokens whose parameters have been attached to it by
`setParameters` (as token indices), its track number and the token of the next
field of its line (`getNextFieldToken`, `none` for `NULL`). -/
structure HumdrumToken where
  duration : HumNum
  nextTokens : List Nat
  owner : Nat
  isTerminateInterpretation : Bool
  hasRhythm : Bool
  state : Int
  previousTokens : List Nat := []
  isData : Bool := false
  isNull : Bool := false
  isManipulator : Bool := false
  isCommentLocal : Bool := false
  text : List Char := []
  parameters : List Nat := []
  isInterpretation : Bool := false
  isBarline : Bool := false
  track : Nat := 0
  nextFieldToken : Option Nat := none
deriving DecidableEq, Inhabited

/-- The members of `HumdrumFileBase` used by the analysis passes: `lines`, the
token arena, `trackstarts` (entry `i` is the start token of track `i + 1`; the
reserved first entry of the C++ vector is left out), `barlines` (as line
indices) and `trackends` (entry `i` lists the end tokens of track `i + 1`). -/
structure HumdrumFile where
  lines : List HumdrumLine
  tokens : List HumdrumToken
  trackstarts : List Nat
  barlines : List Nat
  trackends : List (List Nat) := []
deriving DecidableEq, Inhabited

/-- Outcome of a call that may loop: a returned value, a dereference of a
token that does not exist (undefined behaviour in C++), or exhausted fuel. -/
inductive Run (α : Type) where
  | done (a : α)
  | fault
  | outOfFuel
deriving DecidableEq

/-- The call returned, and returned true. -/
def Run.returnedTrue {α : Type} : Run (Bool × α) → Bool
  | .done (true, _) => true
  | _ => false

/-- Dereference a line pointer. -/
def lineAt (lines : List HumdrumLine) (i : Nat) : HumdrumLine :=
  lines.getD i default

/-- Dereference a token pointer. -/
def tokenAt (f : HumdrumFile) (t : Nat) : HumdrumToken :=
  f.tokens.getD t default

/-- Embedding of `HumdrumLine::setDurationFromStart` on `lines[i]`. -/
def setDurationFromStart (lines : List HumdrumLine) (i : Nat) (v : HumNum) :
    List HumdrumLine :=
  lines.set i { lineAt lines i with durationFromStart := v }

/-- Embedding of `HumdrumLine::setDuration` on `lines[i]`. -/
def setDuration (lines : List HumdrumLine) (i : Nat) (v : HumNum) :
    List HumdrumLine :=
  lines.set i { lineAt lines i with duration := v }

/-- Embedding of `HumdrumLine::setDurationFromBarline` on `lines[i]`. -/
def setDurationFromBarline (lines : List HumdrumLine) (i : Nat) (v : HumNum) :
    List HumdrumLine :=
  lines.set i { lineAt lines i with durationFromBarline := v }

/-- Embedding of `HumdrumLine::setDurationToBarline` on `lines[i]`. -/
def setDurationToBarline (lines : List HumdrumLine) (i : Nat) (v : HumNum) :
    List HumdrumLine :=
  lines.set i { lineAt lines i with durationToBarline := v }

/-- Embedding of `HumdrumFileStructure::setLineDurationFromStart(token, dursum)`: the
returned flag and the lines afterwards. -/
def setLineDurationFromStart (f : HumdrumFile) (token : Nat) (dursum : HumNum) :
    Bool × HumdrumFile :=
  let tok := tokenAt f token
  if !tok.isTerminateInterpretation && decide (tok.duration < 0) then
    (true, f)
  else
    let line := tok.owner
    if (lineAt f.lines line).durationFromStart < 0 then
      (true, { f with lines := setDurationFromStart f.lines line dursum })
    else if (lineAt f.lines line).durationFromStart ≠ dursum then
      (false, f)
    else
      (true, f)

/-- The `for` loop of `assignLineDurations`; reading `lines[i]` or
`lines[i+1]` past the end is `none`. -/
def assignLineDurationsLoop : Nat → Nat → List HumdrumLine → Option (List HumdrumLine)
  | 0, _, lines => some lines
  | fuel + 1, i, lines =>
    match lines[i]?, lines[i + 1]? with
    | some li, some lj =>
      assignLineDurationsLoop fuel (i + 1)
        (setDuration lines i (lj.durationFromStart - li.durationFromStart))
    | _, _ => none

/-- The value of `lines.size()-1` for a vector of `n` elements: the
subtraction is done in `size_t` (64 bits, unsigned), so the result is
`2^64 - 1` for `n = 0`. -/
def sizeMinusOne (n : Nat) : Nat :=
  if n = 0 then 2 ^ 64 - 1 else n - 1

/-- Embedding of `HumdrumFileStructure::assignLineDurations`, with the loop bound
`lines.size()-1`. -/
def assignLineDurations (lines : List HumdrumLine) : Option (List HumdrumLine) :=
  (assignLineDurationsLoop (sizeMinusOne lines.length) 0 lines).map fun ls =>
    if 0 < ls.length then setDuration ls (ls.length - 1) 0 else ls

/-- The forward sweep of `analyzeMeter` from line `i`: `sum` is the time since
the last barline, `found` is `foundbarline`. -/
def analyzeMeterForward : Nat → Nat → HumNum → Bool → List HumdrumLine → List Nat →
    List HumdrumLine × List Nat
  | 0, _, _, _, lines, barlines => (lines, barlines)
  | fuel + 1, i, sum, found, lines, barlines =>
    let lines1 := setDurationFromBarline lines i sum
    let sum1 := sum + (lineAt lines1 i).duration
    let isBar := (lineAt lines1 i).isBarline
    let found1 := found || isBar
    let barlines1 := if isBar then barlines ++ [i] else barlines
    let sum2 := if isBar then 0 else sum1
    let barlines2 :=
      if (lineAt lines1 i).isData && !found1 then barlines1 ++ [0] else barlines1
    analyzeMeterForward fuel (i + 1) sum2 found1 lines1 barlines2

/-- The backward sweep of `analyzeMeter`: `analyzeMeterBackward (i + 1)` handles
line `i` and goes on downwards. -/
def analyzeMeterBackward : Nat → HumNum → List HumdrumLine → List HumdrumLine
  | 0, _, lines => lines
  | i + 1, sum, lines =>
    let sum1 := sum + (lineAt lines i).duration
    let lines1 := setDurationToBarline lines i sum1
    analyzeMeterBackward i (if (lineAt lines1 i).isBarline then 0 else sum1) lines1

/-- Embedding of `HumdrumFileStructure::analyzeMeter`: the lines and the barline list
afterwards (the call always returns true). -/
def analyzeMeter (lines : List HumdrumLine) : List HumdrumLine × List Nat :=
  let fw := analyzeMeterForward lines.length 0 0 false lines []
  (analyzeMeterBackward fw.1.length 0 fw.1, fw.2)

/-- The inner loop of `analyzeNullLineRhythms`: entry `j` of `nulllines` gets
`startdur + nulldur * (j+1)`. -/
def assignNullLines : List Nat → Nat → HumNum → HumNum → List HumdrumLine → List HumdrumLine
  | [], _, _, _, lines => lines
  | l :: rest, j, startdur, nulldur, lines =>
    assignNullLines rest (j + 1) startdur nulldur
      (setDurationFromStart lines l (startdur + nulldur * ((j : HumNum) + 1)))

/-- The outer loop of `analyzeNullLineRhythms` from line `i`, with the collected
`nulllines` and the pointer `previous`. -/
def analyzeNullLineRhythmsLoop : Nat → Nat → List HumdrumLine → List Nat → Option Nat →
    Bool × List HumdrumLine
  | 0, _, lines, _, _ => (true, lines)
  | fuel + 1, i, lines, nulllines, previous =>
    if !(lineAt lines i).hasSpines then
      analyzeNullLineRhythmsLoop fuel (i + 1) lines nulllines previous
    else if (lineAt lines i).isAllRhythmicNull then
      if (lineAt lines i).isData then
        analyzeNullLineRhythmsLoop fuel (i + 1) lines (nulllines ++ [i]) previous
      else
        analyzeNullLineRhythmsLoop fuel (i + 1) lines nulllines previous
    else if (lineAt lines i).durationFromStart < 0 then
      if (lineAt lines i).isData then
        (false, lines)
      else
        analyzeNullLineRhythmsLoop fuel (i + 1) lines nulllines previous
    else
      match previous with
      | none => analyzeNullLineRhythmsLoop fuel (i + 1) lines [] (some i)
      | some p =>
        let startdur := (lineAt lines p).durationFromStart
        let enddur := (lineAt lines i).durationFromStart
        let gapdur := enddur - startdur
        let nulldur := gapdur / ((nulllines.length : HumNum) + 1)
        analyzeNullLineRhythmsLoop fuel (i + 1)
          (assignNullLines nulllines 0 startdur nulldur lines) [] (some i)

/-- Embedding of `HumdrumFileStructure::analyzeNullLineRhythms`: the returned flag and the
lines afterwards. -/
def analyzeNullLineRhythms (lines : List HumdrumLine) : Bool × List HumdrumLine :=
  analyzeNullLineRhythmsLoop lines.length 0 lines [] none

/-- The first loop of `fillInNegativeStartTimes`: `fillBackward (i + 1)` handles
line `i` and goes on downwards; returns the final `lastdur` too. -/
def fillBackward : Nat → HumNum → List HumdrumLine → HumNum × List HumdrumLine
  | 0, lastdur, lines => (lastdur, lines)
  | i + 1, lastdur, lines =>
    let dur := (lineAt lines i).durationFromStart
    let lines1 :=
      if dur < 0 ∧ 0 ≤ lastdur then setDurationFromStart lines i lastdur else lines
    fillBackward i (if 0 ≤ dur then dur else lastdur) lines1

/-- The second loop of `fillInNegativeStartTimes` from line `i`. -/
def fillForward : Nat → Nat → HumNum → List HumdrumLine → List HumdrumLine
  | 0, _, _, lines => lines
  | fuel + 1, i, lastdur, lines =>
    let dur := (lineAt lines i).durationFromStart
    if 0 ≤ dur then fillForward fuel (i + 1) dur lines
    else fillForward fuel (i + 1) lastdur (setDurationFromStart lines i lastdur)

/-- Embedding of `HumdrumFileStructure::fillInNegativeStartTimes`. -/
def fillInNegativeStartTimes (lines : List HumdrumLine) : List HumdrumLine :=
  let bw := fillBackward lines.length (-1) lines
  fillForward bw.2.length 0 bw.1 bw.2

/-- Embedding of `HumdrumToken::incrementState` on token `t`. -/
def incrementState (f : HumdrumFile) (t : Nat) : HumdrumFile :=
  { f with tokens := f.tokens.set t { tokenAt f t with state := (tokenAt f t).state + 1 } }

/-- The statement `if (d.isPositive()) dursum += d`. -/
def addPositive (dursum d : HumNum) : HumNum :=
  if 0 < d then dursum + d else dursum

/-- First `while` loop of `prepareDurations` (the primary track) and the
terminator check after it.  `some b` is a `return b` of `prepareDurations`
from inside this part, `none` is falling through to the second part. -/
def primaryWalk : Nat → HumdrumFile → Nat → Int → HumNum → Run (Option Bool × HumdrumFile)
  | 0, _, _, _, _ => .outOfFuel
  | fuel + 1, f, token, state, dursum =>
    match (tokenAt f token).nextTokens with
    | next :: _ =>
      if state ≠ (tokenAt f next).state then .done (some true, f)
      else
        match setLineDurationFromStart (incrementState f next) next dursum with
        | (false, f1) => .done (some false, f1)
        | (true, f1) =>
          primaryWalk fuel f1 next state (addPositive dursum (tokenAt f1 next).duration)
    | [] =>
      if (tokenAt f token).isTerminateInterpretation then
        match setLineDurationFromStart f token dursum with
        | (false, f1) => .done (some false, f1)
        | (true, f1) => .done (none, f1)
      else .done (none, f)

mutual
/-- Embedding of `HumdrumFileStructure::prepareDurations(token, state, startdur)`. -/
def prepareDurations : Nat → HumdrumFile → Nat → Int → HumNum → Run (Bool × HumdrumFile)
  | 0, _, _, _, _ => .outOfFuel
  | fuel + 1, f, token, state, startdur =>
    if state ≠ (tokenAt f token).state then .done (true, f)
    else
      match setLineDurationFromStart (incrementState f token) token startdur with
      | (false, f1) => .done (false, f1)
      | (true, f1) =>
        let dursum := addPositive startdur (tokenAt f1 token).duration
        match primaryWalk fuel f1 token state dursum with
        | .outOfFuel => .outOfFuel
        | .fault => .fault
        | .done (some b, f2) => .done (b, f2)
        | .done (none, f2) =>
          secondaryWalk fuel f2 token state
            (addPositive startdur (tokenAt f2 token).duration)
/-- Second `while` loop of `prepareDurations` (the secondary tracks), standing
at `token` with running sum `dursum`. -/
def secondaryWalk : Nat → HumdrumFile → Nat → Int → HumNum → Run (Bool × HumdrumFile)
  | 0, _, _, _, _ => .outOfFuel
  | fuel + 1, f, token, state, dursum =>
    match (tokenAt f token).nextTokens with
    | [] => .done (true, f)
    | next :: rest =>
      match secondaryChildren fuel f rest state dursum with
      | .done (true, f1) =>
        if state + 1 ≠ (tokenAt f1 next).state then .done (true, f1)
        else secondaryWalk fuel f1 next state (addPositive dursum (tokenAt f1 next).duration)
      | other => other
/-- The `for` loop over `getNextToken(i)`, `i = 1 .. tcount-1`, inside the
second loop of `prepareDurations`. -/
def secondaryChildren : Nat → HumdrumFile → List Nat → Int → HumNum → Run (Bool × HumdrumFile)
  | 0, _, _, _, _ => .outOfFuel
  | _ + 1, f, [], _, _ => .done (true, f)
  | fuel + 1, f, child :: rest, state, dursum =>
    match prepareDurations fuel f child state dursum with
    | .done (true, f1) => secondaryChildren fuel f1 rest state dursum
    | other => other
end

/-- Embedding of `HumdrumFileStructure::assignDurationsToTrack(starttoken, startdur)`. -/
def assignDurationsToTrack (fuel : Nat) (f : HumdrumFile) (starttoken : Nat)
    (startdur : HumNum) : Run (Bool × HumdrumFile) :=
  if !(tokenAt f starttoken).hasRhythm then .done (true, f)
  else prepareDurations fuel f starttoken (tokenAt f starttoken).state startdur

/-- Modelled from the spec: `HumdrumToken::getDurationFromStart` (not in the
sources at hand) is the duration-from-start of the token's owning line. -/
def tokenDurationFromStart (f : HumdrumFile) (t : Nat) : HumNum :=
  (lineAt f.lines (tokenAt f t).owner).durationFromStart

/-- The `while (tcount > 0)` loop of `analyzeRhythmOfFloatingSpine`, entered
with `tcount > 0`; `tcount` is not updated in the loop, so the condition stays
true and the loop is left only by `break`.  Returns `(founddur, dursum)`. -/
def floatingWalk : Nat → HumdrumFile → Nat → HumNum → Run (HumNum × HumNum)
  | 0, _, _, _ => .outOfFuel
  | fuel + 1, f, token, dursum =>
    if 0 ≤ tokenDurationFromStart f token then
      .done (tokenDurationFromStart f token, dursum)
    else
      match (tokenAt f token).nextTokens with
      | [] => .fault
      | next :: _ => floatingWalk fuel f next (addPositive dursum (tokenAt f token).duration)

/-- Embedding of `HumdrumFileStructure::analyzeRhythmOfFloatingSpine(spinestart)`. -/
def analyzeRhythmOfFloatingSpine (fuel : Nat) (f : HumdrumFile) (spinestart : Nat) :
    Run (Bool × HumdrumFile) :=
  let found : Run (HumNum × HumNum) :=
    if 0 ≤ tokenDurationFromStart f spinestart then
      .done (tokenDurationFromStart f spinestart, 0)
    else if 0 < (tokenAt f spinestart).nextTokens.length then
      floatingWalk fuel f spinestart 0
    else .done (0, 0)
  match found with
  | .outOfFuel => .outOfFuel
  | .fault => .fault
  | .done (founddur, dursum) =>
    if founddur = 0 then .done (false, f)
    else assignDurationsToTrack fuel f spinestart (founddur - dursum)

/-- A line the scan of `analyzeNullLineRhythms` takes as known: it has spines,
is not all-rhythmic-null and its duration-from-start is non-negative. -/
def isKnownLine (l : HumdrumLine) : Bool :=
  l.hasSpines && !l.isAllRhythmicNull && decide (0 ≤ l.durationFromStart)

/-- A line the scan collects in `nulllines`: an all-rhythmic-null data line
with spines. -/
def isNullDataLine (l : HumdrumLine) : Bool :=
  l.hasSpines && l.isAllRhythmicNull && l.isData

/-- A line at which the scan returns false: a data line with spines that is
not all-rhythmic-null and has a negative duration-from-start. -/
def isUnexpectedNegative (l : HumdrumLine) : Bool :=
  l.hasSpines && !l.isAllRhythmicNull && decide (l.durationFromStart < 0) && l.isData

/-- The collected null lines strictly between lines `a` and `b`, in line order. -/
def nullLinesBetween (lines : List HumdrumLine) (a b : Nat) : List Nat :=
  (List.range' (a + 1) (b - a - 1)).filter fun t => isNullDataLine (lineAt lines t)

/-- A barline at time 0 whose next line starts at time 1, one data line, and
the next barline at time 2. -/
def c3Lines : List HumdrumLine :=
  [ { hasSpines := true, isData := false, isBarline := true, isAllRhythmicNull := false,
      durationFromStart := 0, duration := 0, durationFromBarline := 0,
      durationToBarline := 0 },
    { hasSpines := true, isData := true, isBarline := false, isAllRhythmicNull := false,
      durationFromStart := 1, duration := 0, durationFromBarline := 0,
      durationToBarline := 0 },
    { hasSpines := true, isData := false, isBarline := true, isAllRhythmicNull := false,
      durationFromStart := 2, duration := 0, durationFromBarline := 0,
      durationToBarline := 0 } ]

/-- The lines of `c3Lines` after `assignLineDurations`. -/
def c3Assigned : List HumdrumLine :=
  (assignLineDurations c3Lines).getD []

/-- The tokens `toks`, in order, form a track without split that ends with the
last of them: each token has the next one as its only next token and the last
one has no next token. -/
def isUnsplitTrack (f : HumdrumFile) : List Nat → Prop
  | [] => False
  | [t] => (tokenAt f t).nextTokens = []
  | t :: u :: rest => (tokenAt f t).nextTokens = [u] ∧ isUnsplitTrack f (u :: rest)

/-- Deciding `isUnsplitTrack`. -/
instance isUnsplitTrack.instDecidable (f : HumdrumFile) :
    (p : List Nat) → Decidable (isUnsplitTrack f p)
  | [] => isFalse (fun h => h)
  | [t] => inferInstanceAs (Decidable ((tokenAt f t).nextTokens = []))
  | t :: u :: rest =>
    have := isUnsplitTrack.instDecidable f (u :: rest)
    inferInstanceAs
      (Decidable ((tokenAt f t).nextTokens = [u] ∧ isUnsplitTrack f (u :: rest)))

/-- The sum of the positive durations of the tokens `toks`. -/
def positiveDurationSum (f : HumdrumFile) (toks : List Nat) : HumNum :=
  (toks.map fun t => addPositive 0 (tokenAt f t).duration).sum

/-- A line without timing information yet. -/
def freshLine (isData : Bool) : HumdrumLine :=
  { hasSpines := true, isData := isData, isBarline := false, isAllRhythmicNull := false,
    durationFromStart := -1, duration := 0, durationFromBarline := 0, durationToBarline := 0 }

/-- A line with spines that is not all-rhythmic-null, with a given
duration-from-start. -/
def timedLine (isData : Bool) (durationFromStart : HumNum) : HumdrumLine :=
  { hasSpines := true, isData := isData, isBarline := false, isAllRhythmicNull := false,
    durationFromStart := durationFromStart, duration := 0, durationFromBarline := 0,
    durationToBarline := 0 }

/-- An all-rhythmic-null data line without timing information yet. -/
def nullLine : HumdrumLine :=
  { hasSpines := true, isData := true, isBarline := false, isAllRhythmicNull := true,
    durationFromStart := -1, duration := 0, durationFromBarline := 0, durationToBarline := 0 }

/-- An unvisited token of a rhythmic spine. -/
def freshToken (duration : HumNum) (nextTokens : List Nat) (owner : Nat)
    (isTerminateInterpretation : Bool) : HumdrumToken :=
  { duration := duration, nextTokens := nextTokens, owner := owner,
    isTerminateInterpretation := isTerminateInterpretation, hasRhythm := true, state := 0 }

/-- Known lines at times 0 and 4 with three null data lines between them. -/
def c1Lines : List HumdrumLine :=
  [timedLine true 0, nullLine, nullLine, nullLine, timedLine true 4]

/-- One unassigned line and one line assigned the time 2, each with a quarter
note on it. -/
def c5File : HumdrumFile :=
  { lines := [freshLine true, timedLine true 2],
    tokens := [freshToken 1 [] 0 false, freshToken 1 [] 1 false],
    trackstarts := [], barlines := [] }

/-- The spine `**kern`, `4c`, `8d`, `*-` on four lines. -/
def c6File : HumdrumFile :=
  { lines := [freshLine false, freshLine true, freshLine true, freshLine false],
    tokens := [freshToken (-1) [1] 0 false, freshToken 1 [2] 1 false,
      freshToken (1 / 2) [3] 2 false, freshToken (-1) [] 3 true],
    trackstarts := [0], barlines := [] }

/-- The file
```
**kern
*^
*     *^
4c    4d    4e
*v    *v    *
4f    4g
*-    *-
```
with tokens numbered line by line, left to right: a split whose second branch
splits again, its first sub-branch merging back into the primary branch. -/
def c7File : HumdrumFile :=
  { lines := [freshLine false, freshLine false, freshLine false, freshLine true,
      freshLine false, freshLine true, freshLine false],
    tokens := [freshToken (-1) [1] 0 false,
      freshToken (-1) [2, 3] 1 false,
      freshToken (-1) [4] 2 false, freshToken (-1) [5, 6] 2 false,
      freshToken 1 [7] 3 false, freshToken 1 [8] 3 false, freshToken 1 [9] 3 false,
      freshToken (-1) [10] 4 false, freshToken (-1) [10] 4 false, freshToken (-1) [11] 4 false,
      freshToken 1 [12] 5 false, freshToken 1 [13] 5 false,
      freshToken (-1) [] 6 true, freshToken (-1) [] 6 true],
    trackstarts := [0], barlines := [] }

/-- The file `c7File` after `assignDurationsToTrack` from its start token. -/
def c7After : HumdrumFile :=
  match assignDurationsToTrack 50 c7File 0 0 with
  | .done (_, f) => f
  | _ => c7File

/-- The tokens reachable from `t` through next-token links in at most `n`
steps. -/
def reachableTokens (f : HumdrumFile) : Nat → Nat → List Nat
  | 0, t => [t]
  | n + 1, t => t :: ((tokenAt f t).nextTokens.map (reachableTokens f n)).flatten

/-- The file
```
**kern
*^
4c    2d
*v    *v
4e
*-
```
with tokens numbered line by line, left to right: the two branches of the split
reach the merged token `4e` with the running sums 1 and 2. -/
def c8File : HumdrumFile :=
  { lines := [freshLine false, freshLine false, freshLine true, freshLine false,
      freshLine true, freshLine false],
    tokens := [freshToken (-1) [1] 0 false,
      freshToken (-1) [2, 3] 1 false,
      freshToken 1 [4] 2 false, freshToken 2 [5] 2 false,
      freshToken (-1) [6] 3 false, freshToken (-1) [6] 3 false,
      freshToken 1 [7] 4 false,
      freshToken (-1) [] 5 true],
    trackstarts := [0], barlines := [] }

/-- The file `c8File` after `assignDurationsToTrack` from its start token. -/
def c8After : HumdrumFile :=
  match assignDurationsToTrack 50 c8File 0 0 with
  | .done (_, f) => f
  | _ => c8File

/-- Following first next-token links from token `t`, the walk passes the tokens
`passed` (`t` first) and then stands at token `a`. -/
def reachesByFirstNext (f : HumdrumFile) : Nat → List Nat → Nat → Prop
  | t, [], a => t = a
  | t, p :: rest, a =>
    p = t ∧
      match (tokenAt f t).nextTokens with
      | [] => False
      | u :: _ => reachesByFirstNext f u rest a

/-- Deciding `reachesByFirstNext`. -/
instance reachesByFirstNext.instDecidable (f : HumdrumFile) :
    (t : Nat) → (passed : List Nat) → (a : Nat) → Decidable (reachesByFirstNext f t passed a)
  | t, [], a => inferInstanceAs (Decidable (t = a))
  | t, p :: rest, a =>
    match h : (tokenAt f t).nextTokens with
    | [] => isFalse (by simp [reachesByFirstNext, h])
    | u :: more =>
      have := reachesByFirstNext.instDecidable f u rest a
      if hp : p = t then
        if hr : reachesByFirstNext f u rest a then isTrue (by simp [reachesByFirstNext, h, hp, hr])
        else isFalse (by simp [reachesByFirstNext, h, hr])
      else isFalse (by simp [reachesByFirstNext, hp])

/-- The file
```
**kern
*+
*     **kern
4c    4d
*-    *-
```
after primary propagation of the first spine (the data line starts at 0, the
terminator line at 1); token 3 is the start token of the floating second spine,
token 5 its `4d`. -/
def c9File : HumdrumFile :=
  { lines := [freshLine false, freshLine false, freshLine false, timedLine true 0,
      timedLine false 1],
    tokens := [{ freshToken (-1) [1] 0 false with state := 1 },
      { freshToken (-1) [2] 1 false with state := 1 },
      { freshToken (-1) [4] 2 false with state := 1 }, freshToken (-1) [5] 2 false,
      { freshToken 1 [6] 3 false with state := 1 }, freshToken 1 [7] 3 false,
      { freshToken (-1) [] 4 true with state := 1 }, freshToken (-1) [] 4 true],
    trackstarts := [0, 3], barlines := [] }

/-- The file
```
**kern
4c
*+
*     **kern
*     *-
4d
*-
```
after primary propagation of the first spine; token 4 is the start token of the
floating second spine, token 6 its terminator, and neither of their lines has a
value. -/
def c10File : HumdrumFile :=
  { lines := [freshLine false, timedLine true 0, freshLine false, freshLine false,
      freshLine false, timedLine true 1, timedLine false 2],
    tokens := [{ freshToken (-1) [1] 0 false with state := 1 },
      { freshToken 1 [2] 1 false with state := 1 },
      { freshToken (-1) [3] 2 false with state := 1 },
      { freshToken (-1) [5] 3 false with state := 1 }, freshToken (-1) [6] 3 false,
      { freshToken (-1) [7] 4 false with state := 1 }, freshToken (-1) [] 4 true,
      { freshToken 1 [8] 5 false with state := 1 },
      { freshToken (-1) [] 6 true with state := 1 }],
    trackstarts := [0, 4], barlines := [] }

/-- First loop of `analyzeRhythm`: the tracks that start on line `startline`
are propagated from zero.  `getLineIndex` of a token is the index of its owning
line. -/
def analyzePrimaryTracks (fuel startline : Nat) :
    List Nat → HumdrumFile → Run (Bool × HumdrumFile)
  | [], f => .done (true, f)
  | t :: rest, f =>
    if !(tokenAt f t).hasRhythm then analyzePrimaryTracks fuel startline rest f
    else if (tokenAt f t).owner = startline then
      match assignDurationsToTrack fuel f t 0 with
      | .done (true, f1) => analyzePrimaryTracks fuel startline rest f1
      | other => other
    else analyzePrimaryTracks fuel startline rest f

/-- Second loop of `analyzeRhythm`: the tracks that start after line
`startline`. -/
def analyzeFloatingTracks (fuel startline : Nat) :
    List Nat → HumdrumFile → Run (Bool × HumdrumFile)
  | [], f => .done (true, f)
  | t :: rest, f =>
    if !(tokenAt f t).hasRhythm then analyzeFloatingTracks fuel startline rest f
    else if startline < (tokenAt f t).owner then
      match analyzeRhythmOfFloatingSpine fuel f t with
      | .done (true, f1) => analyzeFloatingTracks fuel startline rest f1
      | other => other
    else analyzeFloatingTracks fuel startline rest f

/-- The two loops of `analyzeRhythm` over the tracks. -/
def analyzeRhythmTracks (fuel startline : Nat) (f : HumdrumFile) : Run (Bool × HumdrumFile) :=
  match analyzePrimaryTracks fuel startline f.trackstarts f with
  | .done (true, f1) => analyzeFloatingTracks fuel startline f1.trackstarts f1
  | other => other

/-- The part of `analyzeRhythm` after the loops over the tracks.
`analyzeNonNullDataTokens` belongs to `HumdrumFileBase` and is not in the
sources at hand: it is a parameter, and only its result is used. -/
def analyzeRhythmLines (analyzeNonNullDataTokens : HumdrumFile → Bool) (f : HumdrumFile) :
    Run (Bool × HumdrumFile) :=
  match analyzeNullLineRhythms f.lines with
  | (false, l1) => .done (false, { f with lines := l1 })
  | (true, l1) =>
    match assignLineDurations (fillInNegativeStartTimes l1) with
    | none => .fault
    | some l2 =>
      .done (analyzeNonNullDataTokens
          { f with lines := (analyzeMeter l2).1, barlines := (analyzeMeter l2).2 },
        { f with lines := (analyzeMeter l2).1, barlines := (analyzeMeter l2).2 })

/-- Embedding of `HumdrumFileStructure::analyzeRhythm`. -/
def analyzeRhythm (fuel : Nat) (analyzeNonNullDataTokens : HumdrumFile → Bool)
    (f : HumdrumFile) : Run (Bool × HumdrumFile) :=
  match f.trackstarts with
  | [] => .done (true, f)
  | first :: _ =>
    match analyzeRhythmTracks fuel (tokenAt f first).owner f with
    | .done (true, f1) => analyzeRhythmLines analyzeNonNullDataTokens f1
    | other => other

/-- The known duration-from-start values are non-decreasing over line index. -/
def knownMonotone (lines : List HumdrumLine) : Prop :=
  ∀ i j, i < j → j < lines.length →
    0 ≤ (lineAt lines i).durationFromStart → 0 ≤ (lineAt lines j).durationFromStart →
    (lineAt lines i).durationFromStart ≤ (lineAt lines j).durationFromStart

/-- Deciding `knownMonotone`. -/
instance knownMonotone.instDecidable (lines : List HumdrumLine) :
    Decidable (knownMonotone lines) :=
  decidable_of_iff
    (∀ j, j < lines.length → ∀ i, i < j →
      0 ≤ (lineAt lines i).durationFromStart → 0 ≤ (lineAt lines j).durationFromStart →
      (lineAt lines i).durationFromStart ≤ (lineAt lines j).durationFromStart)
    ⟨fun h i j hij hj => h j hj i hij, fun h j hj i hij => h i j hij hj⟩

/-- The file
```
**kern  **kern
4c      2c
.       2d
4d      .
2e      .
*-      *-
```
with tokens numbered spine by spine (0..5 the first spine, 6..11 the second). -/
def c4File : HumdrumFile :=
  { lines := [freshLine false, freshLine true, freshLine true, freshLine true,
      freshLine true, freshLine false],
    tokens := [freshToken (-1) [1] 0 false, freshToken 1 [2] 1 false,
      freshToken (-1) [3] 2 false, freshToken 1 [4] 3 false, freshToken 2 [5] 4 false,
      freshToken (-1) [] 5 true,
      freshToken (-1) [7] 0 false, freshToken 2 [8] 1 false,
      freshToken 2 [9] 2 false, freshToken (-1) [10] 3 false, freshToken (-1) [11] 4 false,
      freshToken (-1) [] 5 true],
    trackstarts := [0, 6], barlines := [] }

/-- The file `c4File` after `analyzeRhythm`. -/
def c4After : HumdrumFile :=
  match analyzeRhythm 20 (fun _ => true) c4File with
  | .done (_, f) => f
  | _ => c4File

/-- The file `c6File` after the loops of `analyzeRhythm` over the tracks. -/
def c6Propagated : HumdrumFile :=
  match analyzeRhythmTracks 10 0 c6File with
  | .done (_, f) => f
  | _ => c6File

/-- The file `c6File` after `analyzeRhythm`. -/
def c6After : HumdrumFile :=
  match analyzeRhythm 10 (fun _ => true) c6File with
  | .done (_, f) => f
  | _ => c6File

/-- The two flags `zero` and `positive` of `cleanDurs` after its loop. -/
def cleanDursLoop : List HumNum → Bool → Bool → Bool × Bool
  | [], zero, positive => (zero, positive)
  | d :: rest, zero, positive =>
    if 0 < d then cleanDursLoop rest zero true
    else if d = 0 then cleanDursLoop rest true positive
    else cleanDursLoop rest zero positive

/-- Embedding of `HumdrumFileStructure::cleanDurs`: false when a grace note
(duration zero) and a regular note (positive duration) are on the same line. -/
def cleanDurs (durs : List HumNum) : Bool :=
  if (cleanDursLoop durs false false).1 && (cleanDursLoop durs false false).2 then false
  else true

/-- Embedding of `HumdrumFileStructure::getTokenDurations(durs, line)`: the
returned flag and the filled vector `durs`. -/
def getTokenDurations (f : HumdrumFile) (line : Nat) : Bool × List HumNum :=
  let durs := (lineAt f.lines line).tokens.map fun t => (tokenAt f t).duration
  if !cleanDurs durs then (false, durs) else (true, durs)

/-- The prefix `!!LO:` of a global layout comment. -/
def globalLayoutPrefix : List Char := ['!', '!', 'L', 'O', ':']

/-- The prefix `!LO:` of a local layout comment. -/
def localLayoutPrefix : List Char := ['!', 'L', 'O', ':']

/-- Modelled from the spec: `HumdrumLine::setParameters(source)` (not in the
sources at hand) attaches the layout parameters of line `source` to the line;
the attachment is recorded as the index of the source line. -/
def setLineParameters (lines : List HumdrumLine) (target source : Nat) : List HumdrumLine :=
  lines.set target
    { lineAt lines target with parameters := (lineAt lines target).parameters ++ [source] }

/-- The loop of `analyzeGlobalParameters`: `analyzeGlobalParametersLoop (i + 1)`
handles line `i` and goes on downwards; `spineline` is the pointer of that
name. -/
def analyzeGlobalParametersLoop : Nat → Option Nat → List HumdrumLine → List HumdrumLine
  | 0, _, lines => lines
  | i + 1, spineline, lines =>
    if (lineAt lines i).hasSpines then
      if (lineAt lines i).isAllNull then analyzeGlobalParametersLoop i spineline lines
      else if (lineAt lines i).isManipulator then analyzeGlobalParametersLoop i spineline lines
      else if (lineAt lines i).isCommentLocal then analyzeGlobalParametersLoop i spineline lines
      else analyzeGlobalParametersLoop i (some i) lines
    else if spineline.isNone then analyzeGlobalParametersLoop i spineline lines
    else if !(lineAt lines i).isCommentGlobal then analyzeGlobalParametersLoop i spineline lines
    else if !globalLayoutPrefix.isPrefixOf (lineAt lines i).text then
      analyzeGlobalParametersLoop i spineline lines
    else
      analyzeGlobalParametersLoop i spineline (setLineParameters lines (spineline.getD 0) i)

/-- Embedding of `HumdrumFileStructure::analyzeGlobalParameters`: the returned
flag and the lines afterwards. -/
def analyzeGlobalParameters (lines : List HumdrumLine) : Bool × List HumdrumLine :=
  (true, analyzeGlobalParametersLoop lines.length none lines)

/-- Modelled from the spec: `HumdrumToken::setParameters(source)` (not in the
sources at hand) attaches the layout parameters of token `source` to the
token; the attachment is recorded as the index of the source token. -/
def setTokenParameters (f : HumdrumFile) (target source : Nat) : HumdrumFile :=
  let tok := tokenAt f target
  { f with tokens := f.tokens.set target { tok with parameters := tok.parameters ++ [source] } }

/-- Embedding of `HumdrumFileStructure::checkForLocalParameters(token, current)`. -/
def checkForLocalParameters (f : HumdrumFile) (token current : Nat) : HumdrumFile :=
  if (tokenAt f token).text.length < 1 then f
  else if !localLayoutPrefix.isPrefixOf (tokenAt f token).text then f
  else setTokenParameters f current token

mutual
/-- Embedding of `processLocalParametersForTrack`: the `while` loop standing at
`token` (at the call, `starttok`) with the pointer `current`. -/
def processLocalParametersForTrack :
    Nat → HumdrumFile → Nat → Nat → Run (Bool × HumdrumFile)
  | 0, _, _, _ => .outOfFuel
  | fuel + 1, f, token, current =>
    match (tokenAt f token).previousTokens with
    | [] => .done (true, f)
    | previous :: others =>
      match processLocalParametersBranches fuel f others current with
      | .done (true, f1) =>
        if !((tokenAt f1 token).isNull && (tokenAt f1 token).isManipulator) then
          if (tokenAt f1 token).isCommentLocal then
            processLocalParametersForTrack fuel (checkForLocalParameters f1 token current)
              previous current
          else processLocalParametersForTrack fuel f1 previous token
        else processLocalParametersForTrack fuel f1 previous current
      | other => other
/-- The `for` loop over `getPreviousToken(i)`, `i = 1 .. tcount-1`, of
`processLocalParametersForTrack`. -/
def processLocalParametersBranches :
    Nat → HumdrumFile → List Nat → Nat → Run (Bool × HumdrumFile)
  | 0, _, _, _ => .outOfFuel
  | _ + 1, f, [], _ => .done (true, f)
  | fuel + 1, f, branch :: rest, current =>
    match processLocalParametersForTrack fuel f branch current with
    | .done (true, f1) => processLocalParametersBranches fuel f1 rest current
    | other => other
end

/-- The inner loop of `analyzeLocalParameters` and of
`analyzeDurationsOfNonRhythmicSpines` over the end tokens of one track, running
`pass end end` on each. -/
def forTrackEnds (pass : HumdrumFile → Nat → Run (Bool × HumdrumFile)) :
    List Nat → HumdrumFile → Run (Bool × HumdrumFile)
  | [], f => .done (true, f)
  | e :: rest, f =>
    match pass f e with
    | .done (true, f1) => forTrackEnds pass rest f1
    | other => other

/-- The outer loop of `analyzeLocalParameters` and of
`analyzeDurationsOfNonRhythmicSpines` over the tracks `i + 1`, `i` in the list. -/
def forTracks (pass : HumdrumFile → Nat → Run (Bool × HumdrumFile)) :
    List Nat → HumdrumFile → Run (Bool × HumdrumFile)
  | [], f => .done (true, f)
  | i :: rest, f =>
    match forTrackEnds pass (f.trackends.getD i []) f with
    | .done (true, f1) => forTracks pass rest f1
    | other => other

/-- Embedding of `HumdrumFileStructure::analyzeLocalParameters`. -/
def analyzeLocalParameters (fuel : Nat) (f : HumdrumFile) : Run (Bool × HumdrumFile) :=
  forTracks (fun g e => processLocalParametersForTrack fuel g e e)
    (List.range f.trackstarts.length) f

/-- `HumdrumToken::setDuration` on token `t`. -/
def setTokenDuration (f : HumdrumFile) (t : Nat) (v : HumNum) : HumdrumFile :=
  { f with tokens := f.tokens.set t { tokenAt f t with duration := v } }

mutual
/-- Embedding of `assignDurationsToNonRhythmicTrack`: the `while` loop standing
at `token` (at the call, `endtoken`) with the pointer `current`. -/
def assignDurationsToNonRhythmicTrack :
    Nat → HumdrumFile → Nat → Nat → Run (Bool × HumdrumFile)
  | 0, _, _, _ => .outOfFuel
  | fuel + 1, f, token, current =>
    match (tokenAt f token).previousTokens with
    | [] => .done (true, f)
    | previous :: others =>
      match assignDurationsToNonRhythmicBranches fuel f others current with
      | .done (true, f1) =>
        if (tokenAt f1 token).isData && !(tokenAt f1 token).isNull then
          assignDurationsToNonRhythmicTrack fuel
            (setTokenDuration f1 token
              (tokenDurationFromStart f1 current - tokenDurationFromStart f1 token))
            previous token
        else assignDurationsToNonRhythmicTrack fuel f1 previous current
      | other => other
/-- The `for` loop over `getPreviousToken(i)`, `i = 1 .. tcount-1`, of
`assignDurationsToNonRhythmicTrack`. -/
def assignDurationsToNonRhythmicBranches :
    Nat → HumdrumFile → List Nat → Nat → Run (Bool × HumdrumFile)
  | 0, _, _, _ => .outOfFuel
  | _ + 1, f, [], _ => .done (true, f)
  | fuel + 1, f, branch :: rest, current =>
    match assignDurationsToNonRhythmicTrack fuel f branch current with
    | .done (true, f1) => assignDurationsToNonRhythmicBranches fuel f1 rest current
    | other => other
end

/-- Embedding of `HumdrumFileStructure::analyzeDurationsOfNonRhythmicSpines`. -/
def analyzeDurationsOfNonRhythmicSpines (fuel : Nat) (f : HumdrumFile) :
    Run (Bool × HumdrumFile) :=
  forTracks (fun g e =>
      if (tokenAt g e).hasRhythm then .done (true, g)
      else assignDurationsToNonRhythmicTrack fuel g e e)
    (List.range f.trackstarts.length) f

/-- Embedding of `HumdrumFileStructure::getScoreDuration`. -/
def getScoreDuration (f : HumdrumFile) : HumNum :=
  if f.lines.length = 0 then 0
  else (lineAt f.lines (f.lines.length - 1)).durationFromStart

/-- Embedding of `HumdrumFileStructure::getBarlineCount`. -/
def getBarlineCount (f : HumdrumFile) : Int :=
  (f.barlines.length : Int)

/-- Embedding of `HumdrumFileStructure::getBarline(index)`: the line index of
the barline, `none` for `NULL`.  The list is taken to have fewer than `2^31`
entries, so that `index += barlines.size()` does not leave the range of `int`. -/
def getBarline (f : HumdrumFile) (index : Int) : Option Nat :=
  let index1 := if index < 0 then index + (f.barlines.length : Int) else index
  if index1 < 0 then none
  else if index1 ≥ (f.barlines.length : Int) then none
  else f.barlines[index1.toNat]?

/-- Embedding of `HumdrumFileStructure::getBarlineDurationFromStart(index)`. -/
def getBarlineDurationFromStart (f : HumdrumFile) (index : Int) : HumNum :=
  let index1 := if index < 0 then index + (f.barlines.length : Int) else index
  if index1 < 0 then 0
  else if index1 ≥ (f.barlines.length : Int) then getScoreDuration f
  else (lineAt f.lines (f.barlines.getD index1.toNat 0)).durationFromStart

/-- Embedding of `HumdrumFileStructure::getBarlineDuration(index)`.  Where the
test `index + 1 < barlines.size() - 1` is reached the list is not empty, so the
unsigned subtraction does not wrap. -/
def getBarlineDuration (f : HumdrumFile) (index : Int) : HumNum :=
  let index1 := if index < 0 then index + (f.barlines.length : Int) else index
  if index1 < 0 then 0
  else if index1 ≥ (f.barlines.length : Int) then 0
  else
    let startdur := (lineAt f.lines (f.barlines.getD index1.toNat 0)).durationFromStart
    let enddur :=
      if index1 + 1 < (f.barlines.length : Int) - 1 then
        (lineAt f.lines (f.barlines.getD (index1 + 1).toNat 0)).durationFromStart
      else getScoreDuration f
    enddur - startdur

/-- The phases of `analyzeStructure`. -/
inductive Phase where
  | globalParameters
  | localParameters
  | tokenDurations
  | rhythm
  | nonRhythmicDurations
deriving DecidableEq

/-- The five member functions called by `analyzeStructure`, each as a function
from the state of the file object to its outcome and the state afterwards. -/
structure AnalysisPhases (σ : Type) where
  analyzeGlobalParameters : σ → Run (Bool × σ)
  analyzeLocalParameters : σ → Run (Bool × σ)
  analyzeTokenDurations : σ → Run (Bool × σ)
  analyzeRhythm : σ → Run (Bool × σ)
  analyzeDurationsOfNonRhythmicSpines : σ → Run (Bool × σ)

/-- Embedding of `HumdrumFileStructure::analyzeStructure`: its outcome, and the
phases it has called, in the order of the calls. -/
def analyzeStructure {σ : Type} (ph : AnalysisPhases σ) (s : σ) :
    Run (Bool × σ) × List Phase :=
  match ph.analyzeGlobalParameters s with
  | .done (true, s1) =>
    match ph.analyzeLocalParameters s1 with
    | .done (true, s2) =>
      match ph.analyzeTokenDurations s2 with
      | .done (true, s3) =>
        match ph.analyzeRhythm s3 with
        | .done (true, s4) =>
          (ph.analyzeDurationsOfNonRhythmicSpines s4,
            [.globalParameters, .localParameters, .tokenDurations, .rhythm,
              .nonRhythmicDurations])
        | other => (other, [.globalParameters, .localParameters, .tokenDurations, .rhythm])
      | other => (other, [.globalParameters, .localParameters, .tokenDurations])
    | other => (other, [.globalParameters, .localParameters])
  | other => (other, [.globalParameters])

/-- Embedding of `HumdrumFileStructure::read` (the three overloads have the
same body): `readNoRhythm` is the parse of `HumdrumFileBase`, not in the
sources at hand, given as its result and the state it leaves. -/
def read {ι σ : Type} (readNoRhythm : ι → Bool × σ) (ph : AnalysisPhases σ) (infile : ι) :
    Run (Bool × σ) × List Phase :=
  if !(readNoRhythm infile).1 then (.done (false, (readNoRhythm infile).2), [])
  else analyzeStructure ph (readNoRhythm infile).2

/-- Embedding of `HumdrumFileStructure::readString` (both overloads):
`baseReadString` is `HumdrumFileBase::readString`. -/
def readString {ι σ : Type} (baseReadString : ι → Bool × σ) (ph : AnalysisPhases σ)
    (contents : ι) : Run (Bool × σ) × List Phase :=
  if !(baseReadString contents).1 then (.done (false, (baseReadString contents).2), [])
  else analyzeStructure ph (baseReadString contents).2

/-- The phases of `analyzeStructure` on the embedded file.
`analyzeTokenDurations` runs `HumdrumLine::analyzeTokenDurations`, and
`analyzeRhythm` runs `analyzeNonNullDataTokens`; both are not in the sources at
hand and are parameters. -/
def humdrumPhases (fuel : Nat) (tokenDurations : HumdrumFile → Bool × HumdrumFile)
    (analyzeNonNullDataTokens : HumdrumFile → Bool) : AnalysisPhases HumdrumFile :=
  { analyzeGlobalParameters := fun f =>
      .done ((analyzeGlobalParameters f.lines).1,
        { f with lines := (analyzeGlobalParameters f.lines).2 })
    analyzeLocalParameters := analyzeLocalParameters fuel
    analyzeTokenDurations := fun f => .done (tokenDurations f)
    analyzeRhythm := analyzeRhythm fuel analyzeNonNullDataTokens
    analyzeDurationsOfNonRhythmicSpines := analyzeDurationsOfNonRhythmicSpines fuel }

/-- Two data lines before the first barline: a pickup measure. -/
def c15Lines : List HumdrumLine :=
  [timedLine true 0, timedLine true 1,
    { timedLine false 2 with isBarline := true }]

/-- The file of `c15Lines` after `analyzeMeter`. -/
def c15After : HumdrumFile :=
  { lines := (analyzeMeter c15Lines).1, tokens := [], trackstarts := [],
    barlines := (analyzeMeter c15Lines).2 }

/-- A barline at time 0, a barline at time 4, and the score going on to time 8
after it. -/
def c16File : HumdrumFile :=
  { lines := [{ timedLine false 0 with isBarline := true }, timedLine true 0,
      { timedLine false 4 with isBarline := true }, timedLine true 4, timedLine false 8],
    tokens := [], trackstarts := [], barlines := [0, 2] }

/-- Parse-independent phases on the embedded file: `analyzeTokenDurations` and
`analyzeNonNullDataTokens` succeed and change nothing. -/
def plainPhases : AnalysisPhases HumdrumFile :=
  humdrumPhases 10 (fun f => (true, f)) (fun _ => true)

/-- Phases that count their calls in the state; the rhythm phase fails. -/
def countingPhases : AnalysisPhases Nat :=
  { analyzeGlobalParameters := fun n => .done (true, n + 1)
    analyzeLocalParameters := fun n => .done (true, n + 1)
    analyzeTokenDurations := fun n => .done (true, n + 1)
    analyzeRhythm := fun n => .done (false, n + 1)
    analyzeDurationsOfNonRhythmicSpines := fun n => .done (true, n + 1) }

/-- Phases that count their calls in the state and all succeed. -/
def succeedingPhases : AnalysisPhases Nat :=
  { countingPhases with analyzeRhythm := fun n => .done (true, n + 1) }

/-- A parse that fails or succeeds as its input says and leaves the state 0. -/
def flagParse (ok : Bool) : Bool × Nat := (ok, 0)

/-- The file
```
**kern  **kern
4c      4d
qe      4f
4g      .
*-      *-
```
with the tokens of the first spine numbered 0 to 4 and those of the second
5 to 9: on line 2 a grace note stands beside a quarter note. -/
def c11File : HumdrumFile :=
  { lines := [{ freshLine false with tokens := [0, 5] }, { freshLine true with tokens := [1, 6] },
      { freshLine true with tokens := [2, 7] }, { freshLine true with tokens := [3, 8] },
      { freshLine false with tokens := [4, 9] }],
    tokens := [freshToken (-1) [1] 0 false, freshToken 1 [2] 1 false, freshToken 0 [3] 2 false,
      freshToken 1 [4] 3 false, freshToken (-1) [] 4 true,
      freshToken (-1) [6] 0 false, freshToken 1 [7] 1 false, freshToken 1 [8] 2 false,
      freshToken (-1) [9] 3 false, freshToken (-1) [] 4 true],
    trackstarts := [0, 5], barlines := [], trackends := [[4], [9]] }

/-- The file `c11File` after `analyzeRhythm`. -/
def c11After : HumdrumFile :=
  match analyzeRhythm 20 (fun _ => true) c11File with
  | .done (_, f) => f
  | _ => c11File

/-- A token of the track of `c14File` with its previous tokens. -/
def paramToken (owner : Nat) (previousTokens : List Nat) : HumdrumToken :=
  { duration := -1, nextTokens := [owner + 1], owner := owner, isTerminateInterpretation := false,
    hasRhythm := true, state := 0, previousTokens := previousTokens }

/-- The single spine
```
**kern
!LO:N
.
4c
!LO:T
*-
```
with token `i` on line `i`. -/
def c14File : HumdrumFile :=
  { lines := [freshLine false, freshLine false, freshLine true, freshLine true,
      freshLine false, freshLine false],
    tokens := [{ paramToken 0 [] with isManipulator := true },
      { paramToken 1 [0] with isCommentLocal := true, text := ['!', 'L', 'O', ':', 'N'] },
      { paramToken 2 [1] with isData := true, isNull := true, text := ['.'] },
      { paramToken 3 [2] with isData := true, duration := 1, text := ['4', 'c'] },
      { paramToken 4 [3] with isCommentLocal := true, text := ['!', 'L', 'O', ':', 'T'] },
      { paramToken 5 [4] with isManipulator := true, text := ['*', '-'] }],
    trackstarts := [0], barlines := [], trackends := [[5]] }

/-- The file `c14File` after `analyzeLocalParameters`. -/
def c14After : HumdrumFile :=
  match analyzeLocalParameters 10 c14File with
  | .done (_, f) => f
  | _ => c14File

/-- A line that can take global parameters: it carries spines, is not all-null,
is not a manipulator line and is not a local-comment line. -/
def isParameterTarget (l : HumdrumLine) : Bool :=
  l.hasSpines && !l.isAllNull && !l.isManipulator && !l.isCommentLocal

/-- A global layout comment: a line without spines that is a global comment and
whose text begins with `!!LO:`. -/
def isGlobalLayout (l : HumdrumLine) : Bool :=
  !l.hasSpines && l.isCommentGlobal && globalLayoutPrefix.isPrefixOf l.text

/-- Line `i` is a global layout comment and `j` is the smallest index greater
than `i` of a line that can take global parameters. -/
def attachesTo (lines : List HumdrumLine) (i j : Nat) : Prop :=
  isGlobalLayout (lineAt lines i) = true ∧ i < j ∧ j < lines.length ∧
  isParameterTarget (lineAt lines j) = true ∧
  ∀ k, i < k → k < j → isParameterTarget (lineAt lines k) = false

/-- The value of the pointer `spineline` when the loop of
`analyzeGlobalParameters` has handled the lines from `i` on: the first line at
or after `i` that can take global parameters, if there is one. -/
def nearestTarget (lines : List HumdrumLine) (i : Nat) : Option Nat → Prop
  | none => ∀ k, i ≤ k → k < lines.length → isParameterTarget (lineAt lines k) = false
  | some t => i ≤ t ∧ t < lines.length ∧ isParameterTarget (lineAt lines t) = true ∧
      ∀ k, i ≤ k → k < t → isParameterTarget (lineAt lines k) = false

/-- The lines
```
!!LO:TX
!! remark
*
!!LO:REF
=1
!!LO:N
```
the third being a null interpretation line. -/
def c13Lines : List HumdrumLine :=
  [{ freshLine false with hasSpines := false, isCommentGlobal := true, text := ['!', '!', 'L', 'O', ':', 'T', 'X'] },
    { freshLine false with hasSpines := false, isCommentGlobal := true, text := ['!', '!', ' ', 'r'] },
    { freshLine false with isAllNull := true, text := ['*'] },
    { freshLine false with hasSpines := false, isCommentGlobal := true, text := ['!', '!', 'L', 'O', ':', 'R'] },
    { freshLine false with isBarline := true, text := ['=', '1'] },
    { freshLine false with hasSpines := false, isCommentGlobal := true, text := ['!', '!', 'L', 'O', ':', 'N'] }]

/-- Deciding `attachesTo`. -/
instance attachesTo.instDecidable (lines : List HumdrumLine) (i j : Nat) :
    Decidable (attachesTo lines i j) :=
  decidable_of_iff
    (isGlobalLayout (lineAt lines i) = true ∧ i < j ∧ j < lines.length ∧
      isParameterTarget (lineAt lines j) = true ∧
      ∀ k, k < j → i < k → isParameterTarget (lineAt lines k) = false)
    ⟨fun h => ⟨h.1, h.2.1, h.2.2.1, h.2.2.2.1, fun k h1 h2 => h.2.2.2.2 k h2 h1⟩,
      fun h => ⟨h.1, h.2.1, h.2.2.1, h.2.2.2.1, fun k h1 h2 => h.2.2.2.2 k h2 h1⟩⟩

/-- A non-null data token. -/
def isNonNullData (f : HumdrumFile) (t : Nat) : Bool :=
  (tokenAt f t).isData && !(tokenAt f t).isNull

/-- A non-branching track, listed from its end token back to its start token:
every token has the one after it in the list as its only previous token, and
the last one, the start of the track, has none. -/
def isBackwardChain (f : HumdrumFile) : List Nat → Bool
  | [] => false
  | [w] => decide ((tokenAt f w).previousTokens = [])
  | w :: v :: rest =>
    decide ((tokenAt f w).previousTokens = [v]) && isBackwardChain f (v :: rest)

/-- The next non-null data token after the token at position `k` of a track
listed from its end backwards, and `last` where there is none. -/
def nextNonNullData (f : HumdrumFile) (W : List Nat) (k last : Nat) : Nat :=
  ((W.take k).reverse.find? (isNonNullData f)).getD last

/-- A token of a spine without rhythm. -/
def textToken (owner : Nat) (previousTokens : List Nat) (isData isNull : Bool) : HumdrumToken :=
  { duration := 0, nextTokens := [owner + 1], owner := owner, isTerminateInterpretation := false,
    hasRhythm := false, state := 0, previousTokens := previousTokens, isData := isData,
    isNull := isNull }

/-- The spine `**text`, `a`, `.`, `b`, `*-` with token `i` on line `i`, the
lines at the times 0, 0, 1, 3, 4. -/
def c12File : HumdrumFile :=
  { lines := [timedLine false 0, timedLine true 0, timedLine true 1, timedLine true 3,
      timedLine false 4],
    tokens := [textToken 0 [] false false, textToken 1 [0] true false,
      textToken 2 [1] true true, textToken 3 [2] true false, textToken 4 [3] false false],
    trackstarts := [0], barlines := [], trackends := [[4]] }

/-- The file `c12File` after `analyzeDurationsOfNonRhythmicSpines`. -/
def c12After : HumdrumFile :=
  match analyzeDurationsOfNonRhythmicSpines 10 c12File with
  | .done (_, f) => f
  | _ => c12File

/-- The `for` loop of `decrementDurStates` from field `i`, with `n` fields to
go.  The token of field `i` is `lines[line]->token(i)`; a field the line does
not have is a dereference outside the line. -/
def decrementDurStatesLoop (f : HumdrumFile) (line : Nat) (linedur : HumNum) :
    Nat → Nat → List HumNum → Run (Bool × List HumNum)
  | 0, _, durs => .done (true, durs)
  | n + 1, i, durs =>
    match (lineAt f.lines line).tokens[i]? with
    | none => .fault
    | some t =>
      if !(tokenAt f t).hasRhythm then decrementDurStatesLoop f line linedur n (i + 1) durs
      else if durs.getD i 0 - linedur < 0 then .done (false, durs.set i (durs.getD i 0 - linedur))
      else decrementDurStatesLoop f line linedur n (i + 1) (durs.set i (durs.getD i 0 - linedur))

/-- Embedding of `HumdrumFileStructure::decrementDurStates(durs, linedur, line)`:
the returned flag and the vector `durs` afterwards. -/
def decrementDurStates (f : HumdrumFile) (durs : List HumNum) (linedur : HumNum) (line : Nat) :
    Run (Bool × List HumNum) :=
  if linedur = 0 then .done (true, durs)
  else decrementDurStatesLoop f line linedur durs.length 0 durs

/-- The token of field `i` of a line has rhythm. -/
def fieldHasRhythm (f : HumdrumFile) (line i : Nat) : Bool :=
  match (lineAt f.lines line).tokens[i]? with
  | none => false
  | some t => (tokenAt f t).hasRhythm

/-- One data line with a quarter note in its first field and a token of a
spine without rhythm in its second field. -/
def c28File : HumdrumFile :=
  { lines := [{ freshLine true with tokens := [0, 1] }],
    tokens := [freshToken 1 [] 0 false, textToken 0 [] true false],
    trackstarts := [0, 1], barlines := [] }

/-- Known data lines at the times 0 and 2 with a barline without value, and no
null data line, between them. -/
def c29Lines : List HumdrumLine :=
  [timedLine true 0, { freshLine false with isBarline := true }, timedLine true 2]

/-- Outcome of a call on a MuseData record: a returned value, undefined
behaviour (a write outside a `std::string`), or a call of `exit`. -/
inductive Outcome (α : Type) where
  | value (a : α)
  | undefined
  | exited (code : Int)
deriving DecidableEq

/-- The record types `getNoteField` tells apart: `E_muserec_note_regular`,
`E_muserec_note_chord`, `E_muserec_note_cue`, `E_muserec_note_grace`, and any
other type (the values of the constants are not in the sources at hand). -/
inductive MuseRecordType where
  | note_regular
  | note_chord
  | note_cue
  | note_grace
  | other
deriving DecidableEq

/-- A `MuseRecordBasic`: the members `recordString` and `type`. -/
structure MuseRecordBasic where
  recordString : List Char
  type : MuseRecordType
deriving DecidableEq

/-- Embedding of `MuseRecordBasic::getLength`. -/
def getLength (r : MuseRecordBasic) : Int :=
  (r.recordString.length : Int)

/-- Embedding of `MuseRecordBasic::getColumn(columnNumber)`: the character
referred to and the record afterwards (a column beyond the end of the record
extends the record with spaces). -/
def getColumn (r : MuseRecordBasic) (columnNumber : Int) : Outcome (Char × MuseRecordBasic) :=
  let realindex := columnNumber - 1
  if realindex < 0 ∨ realindex ≥ 180 then .exited 1
  else if realindex ≥ (r.recordString.length : Int) then
    let padding := List.replicate (realindex.toNat + 1 - r.recordString.length) ' '
    .value (' ', { r with recordString := r.recordString ++ padding })
  else .value (r.recordString.getD realindex.toNat ' ', r)

/-- The statement `output[i] += c` on a `std::string`: inside the string the
character is increased by `c` (modulo 256); at the end of the string or beyond
it is a modification outside the string, `none`. -/
def addAt (output : List Char) (i : Nat) (c : Char) : Option (List Char) :=
  if i < output.length then
    some (output.set i (Char.ofNat (((output.getD i ' ').toNat + c.toNat) % 256)))
  else none

/-- The `for` loop of `MuseRecordBasic::extract` with `n` rounds to go, at the
index `i`. -/
def extractLoop : Nat → Int → Int → MuseRecordBasic → List Char →
    Outcome (List Char × MuseRecordBasic)
  | 0, _, _, r, output => .value (output, r)
  | n + 1, i, start, r, output =>
    match (if i + start ≤ getLength r then getColumn r (i + start) else .value (' ', r)) with
    | .value (c, r1) =>
      match addAt output i.toNat c with
      | some output1 => extractLoop n (i + 1) start r1 output1
      | none => .undefined
    | .undefined => .undefined
    | .exited code => .exited code

/-- Embedding of `MuseRecordBasic::extract(start, end)`: the returned string
and the record afterwards.  The local `output` starts as the empty string. -/
def extract (r : MuseRecordBasic) (start endcol : Int) : Outcome (List Char × MuseRecordBasic) :=
  extractLoop (endcol - start + 1).toNat 0 start r []

/-- Embedding of `MuseRecord::getNoteField`. -/
def getNoteField (r : MuseRecordBasic) : Outcome (List Char × MuseRecordBasic) :=
  match r.type with
  | .note_regular => extract r 1 4
  | .note_chord => extract r 2 5
  | .note_cue => extract r 2 5
  | .note_grace => extract r 2 5
  | .other => .value ([], r)

/-- The loop `while ((index < size) && !isdigit(recordInfo[index])) index++` of
`getOctave` and `getOctaveString`, with `n` rounds to go. -/
def skipNonDigits (recordInfo : List Char) : Nat → Nat → Nat
  | 0, index => index
  | n + 1, index =>
    if index < recordInfo.length ∧ (recordInfo.getD index ' ').isDigit = false then
      skipNonDigits recordInfo n (index + 1)
    else index

/-- The body of `MuseRecord::getOctave` after the call of `getNoteField`. -/
def octaveOfField (recordInfo : List Char) : Int :=
  let index := skipNonDigits recordInfo recordInfo.length 0
  if index ≥ recordInfo.length then 0
  else ((recordInfo.getD index ' ').toNat : Int) - (('0' : Char).toNat : Int)

/-- The body of `MuseRecord::getOctaveString` after the call of `getNoteField`. -/
def octaveStringOfField (recordInfo : List Char) : List Char :=
  let index := skipNonDigits recordInfo recordInfo.length 0
  if index ≥ recordInfo.length then []
  else [recordInfo.getD index ' ']

/-- Embedding of `MuseRecord::getOctave`. -/
def getOctave (r : MuseRecordBasic) : Outcome (Int × MuseRecordBasic) :=
  match getNoteField r with
  | .value (recordInfo, r1) => .value (octaveOfField recordInfo, r1)
  | .undefined => .undefined
  | .exited code => .exited code

/-- Embedding of `MuseRecord::getOctaveString`. -/
def getOctaveString (r : MuseRecordBasic) : Outcome (List Char × MuseRecordBasic) :=
  match getNoteField r with
  | .value (recordInfo, r1) => .value (octaveStringOfField recordInfo, r1)
  | .undefined => .undefined
  | .exited code => .exited code

/-- The regular note record `C4`, a quarter note (the pitch C in octave 4 in
columns 1 and 2). -/
def c23Record : MuseRecordBasic :=
  { recordString := ['C', '4', ' ', ' ', ' ', ' ', ' ', ' ', '1', ' ', ' ', ' ', ' ', 'q'],
    type := .note_regular }

/-- The regular expressions `Tool_bardash` searches a token for:
`bar` is `^\*bar:`, `stop` is `stop`, `dash` is `^\*bar:.*dash=(\d+)`,
`dot` is `^\*bar:.*dot=(\d+)` and `invis` is `^\*bar:.*invis=(\d+)`. -/
inductive BarPattern where
  | bar
  | stop
  | dash
  | dot
  | invis
deriving DecidableEq

/-- The calls of `HumRegex` (class not in the sources at hand) made by
`Tool_bardash`, as functions of the text searched: `search(token, pattern)`,
`getMatchInt(1)` after the search of that pattern in that text, and
`replaceDestructive(text, "", p, "g")` for the one-character patterns `p`. -/
structure HumRegex where
  search : List Char → BarPattern → Bool
  getMatchInt : List Char → BarPattern → Int
  replaceDestructive : List Char → Char → List Char

/-- The locals `activeQ`, `dashQ`, `dotQ`, `invisQ`, `dash`, `dot`, `invis` and
`counter` of `applyBarStylings`.  The numbers are taken to stay in the range of
`int`. -/
structure BarState where
  activeQ : Bool
  dashQ : Bool
  dotQ : Bool
  invisQ : Bool
  dash : Int
  dot : Int
  invis : Int
  counter : Int
deriving DecidableEq

/-- The locals of `applyBarStylings` at the start of the loop. -/
def BarState.start : BarState :=
  { activeQ := false, dashQ := false, dotQ := false, invisQ := false,
    dash := 0, dot := 0, invis := 0, counter := 0 }

/-- What `applyBarStylings` does to its locals at an interpretation token with
the given text. -/
def applyDirective (re : HumRegex) (text : List Char) (st : BarState) : BarState :=
  if re.search text .bar then
    if re.search text .stop then
      { activeQ := false, dashQ := false, dotQ := false, invisQ := false,
        dash := 0, dot := 0, invis := 0, counter := st.counter }
    else if re.search text .dash then
      { activeQ := true, dashQ := true, dotQ := false, invisQ := false,
        dash := re.getMatchInt text .dash, dot := st.dot, invis := st.invis, counter := 0 }
    else if re.search text .dot then
      { activeQ := true, dashQ := false, dotQ := true, invisQ := false,
        dash := st.dash, dot := re.getMatchInt text .dot, invis := st.invis, counter := 0 }
    else if re.search text .invis then
      { activeQ := true, dashQ := false, dotQ := false, invisQ := true,
        dash := st.dash, dot := st.dot, invis := re.getMatchInt text .invis, counter := 0 }
    else
      { activeQ := true, dashQ := st.dashQ, dotQ := st.dotQ, invisQ := st.invisQ,
        dash := st.dash, dot := st.dot, invis := st.invis, counter := st.counter }
  else st

/-- Modelled from the spec: `HumdrumToken::setText(text)` (not in the sources
at hand) replaces the text of token `t`; the classification of the token, its
track and its links are fields of their own and stay as they are. -/
def setText (f : HumdrumFile) (t : Nat) (text : List Char) : HumdrumFile :=
  { f with tokens := f.tokens.set t { tokenAt f t with text := text } }

/-- The text of a barline after styling with the character `c`: one `c` is
appended unless the text has a `c` already. -/
def styledText (c : Char) (text : List Char) : List Char :=
  if c ∈ text then text else text ++ [c]

/-- The inner `while (rcurrent)` loop of `applyBarStylings`: the tokens of the
line from `rcurrent` on, as long as they are of the track `track`, are styled
with the character `c`. -/
def styleRow : Nat → HumdrumFile → Nat → Char → Option Nat → Run HumdrumFile
  | _, f, _, _, none => .done f
  | 0, _, _, _, some _ => .outOfFuel
  | fuel + 1, f, track, c, some rcurrent =>
    if track ≠ (tokenAt f rcurrent).track then .done f
    else if c ∈ (tokenAt f rcurrent).text then
      styleRow fuel f track c (tokenAt f rcurrent).nextFieldToken
    else
      styleRow fuel (setText f rcurrent ((tokenAt f rcurrent).text ++ [c])) track c
        (tokenAt (setText f rcurrent ((tokenAt f rcurrent).text ++ [c]))
          rcurrent).nextFieldToken

/-- The styling of the barline `current` in `applyBarStylings`, with the locals
`st`. -/
def styleBarline (fuel : Nat) (f : HumdrumFile) (current : Nat) (st : BarState) :
    Run HumdrumFile :=
  if st.dashQ ∧ st.dash > 0 then
    if st.counter % st.dash ≠ 0 then styleRow fuel f (tokenAt f current).track ':' (some current)
    else .done f
  else if st.dotQ ∧ st.dot > 0 then
    if st.counter % st.dot ≠ 0 then styleRow fuel f (tokenAt f current).track '.' (some current)
    else .done f
  else if st.invisQ ∧ st.invis > 0 then
    if st.counter % st.invis ≠ 0 then styleRow fuel f (tokenAt f current).track '-' (some current)
    else .done f
  else .done f

/-- The `while (current)` loop of `applyBarStylings(HTp spine)`.
`getNextToken()` (not in the sources at hand) is taken as the first next token
and `NULL`, here `none`, where the token has no next token, which is what ends
the loop. -/
def applyBarStylingsLoop (re : HumRegex) :
    Nat → HumdrumFile → Option Nat → BarState → Run HumdrumFile
  | _, f, none, _ => .done f
  | 0, _, some _, _ => .outOfFuel
  | fuel + 1, f, some current, st =>
    if (tokenAt f current).isInterpretation then
      applyBarStylingsLoop re fuel f (tokenAt f current).nextTokens.head?
        (applyDirective re (tokenAt f current).text st)
    else if !(tokenAt f current).isBarline then
      applyBarStylingsLoop re fuel f (tokenAt f current).nextTokens.head? st
    else if !st.activeQ then
      applyBarStylingsLoop re fuel f (tokenAt f current).nextTokens.head? st
    else
      match styleBarline fuel f current st with
      | .done f1 =>
        applyBarStylingsLoop re fuel f1 (tokenAt f1 current).nextTokens.head?
          { st with counter := st.counter + 1 }
      | other => other

/-- Embedding of `Tool_bardash::applyBarStylings(HTp spine)`. -/
def applyBarStylings (re : HumRegex) (fuel : Nat) (f : HumdrumFile) (spine : Nat) :
    Run HumdrumFile :=
  applyBarStylingsLoop re fuel f (tokenAt f spine).nextTokens.head? BarState.start

/-- The locals `activeQ`, `dashQ`, `dotQ` and `invisQ` of `removeBarStylings`. -/
structure BarFlags where
  activeQ : Bool
  dashQ : Bool
  dotQ : Bool
  invisQ : Bool
deriving DecidableEq

/-- What `removeBarStylings` does to its locals at an interpretation token
with the given text. -/
def removeDirective (re : HumRegex) (text : List Char) (st : BarFlags) : BarFlags :=
  if re.search text .bar then
    if re.search text .stop then
      { activeQ := false, dashQ := false, dotQ := false, invisQ := false }
    else if re.search text .dash then
      { activeQ := true, dashQ := true, dotQ := false, invisQ := false }
    else if re.search text .dot then
      { activeQ := true, dashQ := false, dotQ := true, invisQ := false }
    else if re.search text .invis then
      { activeQ := true, dashQ := false, dotQ := false, invisQ := true }
    else { activeQ := true, dashQ := st.dashQ, dotQ := st.dotQ, invisQ := st.invisQ }
  else st

/-- The text of a token after the replacements of the inner loop of
`removeBarStylings`. -/
def unstyledText (re : HumRegex) (st : BarFlags) (text : List Char) : List Char :=
  if st.dashQ then re.replaceDestructive text ':'
  else if st.dotQ then re.replaceDestructive text '.'
  else if st.invisQ then re.replaceDestructive text '-'
  else text

/-- The inner `while (rcurrent)` loop of `removeBarStylings`. -/
def unstyleRow (re : HumRegex) (st : BarFlags) :
    Nat → HumdrumFile → Nat → Option Nat → Run HumdrumFile
  | _, f, _, none => .done f
  | 0, _, _, some _ => .outOfFuel
  | fuel + 1, f, track, some rcurrent =>
    if track ≠ (tokenAt f rcurrent).track then .done f
    else if (tokenAt f rcurrent).text.length >
        (unstyledText re st (tokenAt f rcurrent).text).length then
      unstyleRow re st fuel
        (setText f rcurrent (unstyledText re st (tokenAt f rcurrent).text)) track
        (tokenAt (setText f rcurrent (unstyledText re st (tokenAt f rcurrent).text))
          rcurrent).nextFieldToken
    else unstyleRow re st fuel f track (tokenAt f rcurrent).nextFieldToken

/-- The locals of `removeBarStylings` after the test
`if (current->isInterpretation())` at the token `current`. -/
def removeFlagsAt (re : HumRegex) (f : HumdrumFile) (current : Nat) (st : BarFlags) : BarFlags :=
  if (tokenAt f current).isInterpretation then removeDirective re (tokenAt f current).text st
  else st

/-- The `while (current)` loop of `removeBarStylings(HTp spine)`.  At a token
that is not a barline, and at a barline while `activeQ` is false, the function
executes `return`. -/
def removeBarStylingsLoop (re : HumRegex) :
    Nat → HumdrumFile → Option Nat → BarFlags → Run HumdrumFile
  | _, f, none, _ => .done f
  | 0, _, some _, _ => .outOfFuel
  | fuel + 1, f, some current, st =>
    if !(tokenAt f current).isBarline then .done f
    else if !(removeFlagsAt re f current st).activeQ then .done f
    else
      match unstyleRow re (removeFlagsAt re f current st) fuel f (tokenAt f current).track
          (some current) with
      | .done f1 =>
        removeBarStylingsLoop re fuel f1 (tokenAt f1 current).nextTokens.head?
          (removeFlagsAt re f current st)
      | other => other

/-- Embedding of `Tool_bardash::removeBarStylings(HTp spine)`. -/
def removeBarStylings (re : HumRegex) (fuel : Nat) (f : HumdrumFile) (spine : Nat) :
    Run HumdrumFile :=
  removeBarStylingsLoop re fuel f (tokenAt f spine).nextTokens.head?
    { activeQ := false, dashQ := false, dotQ := false, invisQ := false }

/-- The loop of `applyBarStylings(HumdrumFile&)` and of
`removeBarStylings(HumdrumFile&)` over the kern spine starts `kstarts`
(`getKernSpineStartList` is not in the sources at hand; the list is given). -/
def forSpines (pass : HumdrumFile → Nat → Run HumdrumFile) :
    List Nat → HumdrumFile → Run HumdrumFile
  | [], f => .done f
  | spine :: rest, f =>
    match pass f spine with
    | .done f1 => forSpines pass rest f1
    | other => other

/-- Embedding of `Tool_bardash::processFile` up to the printing of the file:
`removeQ` is the option `remove`. -/
def processFile (re : HumRegex) (fuel : Nat) (removeQ : Bool) (kstarts : List Nat)
    (f : HumdrumFile) : Run HumdrumFile :=
  if removeQ then forSpines (removeBarStylings re fuel) kstarts f
  else forSpines (applyBarStylings re fuel) kstarts f

/-- The first of the lists in `suffixes` that `p` is a prefix of. -/
def firstWithPrefix (p : List Char) (suffixes : List (List Char)) : Option (List Char) :=
  suffixes.find? fun t => p.isPrefixOf t

/-- The number written by the leading decimal digits of a text. -/
def digitsValue (text : List Char) : Int :=
  (text.takeWhile Char.isDigit).foldl (fun n c => n * 10 + ((c.toNat : Int) - 48)) 0

/-- The match of `^\*bar:.*key=(\d+)` in a text: the digits after the last
`key=` that is followed by a digit, in a text that begins with `*bar:`. -/
def styleDigits (key text : List Char) : Option (List Char) :=
  if ['*', 'b', 'a', 'r', ':'].isPrefixOf text then
    ((((text.drop 5).tails.reverse.filter fun t => (key ++ ['=']).isPrefixOf t).map
      fun t => t.drop (key.length + 1)).find? fun t => t.head?.any Char.isDigit)
  else none

/-- The key of a style pattern. -/
def BarPattern.key : BarPattern → List Char
  | .dash => ['d', 'a', 's', 'h']
  | .dot => ['d', 'o', 't']
  | .invis => ['i', 'n', 'v', 'i', 's']
  | _ => []

/-- An instance of the searches for the examples, reading the five patterns as
regular expressions; in a replacement the pattern `.` matches every character
but the line feed. -/
def exampleRegex : HumRegex :=
  { search := fun text p =>
      match p with
      | .bar => ['*', 'b', 'a', 'r', ':'].isPrefixOf text
      | .stop => (firstWithPrefix ['s', 't', 'o', 'p'] text.tails).isSome
      | q => (styleDigits q.key text).isSome
    getMatchInt := fun text p => digitsValue ((styleDigits p.key text).getD [])
    replaceDestructive := fun text c =>
      if c = '.' then text.filter (fun x => x = '\n') else text.filter (fun x => x ≠ c) }

/-- An interpretation token of track 1 on line `owner` with the token of the
next line as its next token. -/
def spineInterpretation (owner : Nat) (text : List Char) : HumdrumToken :=
  { duration := -1, nextTokens := [owner + 1], owner := owner, isTerminateInterpretation := false,
    hasRhythm := true, state := 0, text := text, isInterpretation := true, track := 1 }

/-- A barline token of track 1 on line `owner` with the token of the next line
as its next token. -/
def spineBarline (owner : Nat) (text : List Char) : HumdrumToken :=
  { duration := -1, nextTokens := [owner + 1], owner := owner, isTerminateInterpretation := false,
    hasRhythm := true, state := 0, text := text, isBarline := true, track := 1 }

/-- The spine
```
**kern
*bar:dash=2
=1
=2:
=3
*-
```
with token `i` on line `i`. -/
def c26File : HumdrumFile :=
  { lines := [freshLine false, freshLine false, freshLine false, freshLine false,
      freshLine false, freshLine false],
    tokens := [spineInterpretation 0 ['*', '*', 'k', 'e', 'r', 'n'],
      spineInterpretation 1 ['*', 'b', 'a', 'r', ':', 'd', 'a', 's', 'h', '=', '2'],
      spineBarline 2 ['=', '1'], spineBarline 3 ['=', '2', ':'], spineBarline 4 ['=', '3'],
      { spineInterpretation 5 ['*', '-'] with nextTokens := [] }],
    trackstarts := [0], barlines := [] }

/-- File `g` differs from file `f` in the texts of tokens only. -/
def TextOnly (f g : HumdrumFile) : Prop :=
  g.lines = f.lines ∧ g.tokens.length = f.tokens.length ∧
  ∀ t, ∃ x, tokenAt g t = { tokenAt f t with text := x }

/-- The links to the next field are those of a file: the next field token of a
token is a token of the file further on in the arena, on the same line. -/
def rowsWellFormed (f : HumdrumFile) : Bool :=
  (List.range f.tokens.length).all fun t =>
    match (tokenAt f t).nextFieldToken with
    | none => true
    | some u =>
      decide ((tokenAt f u).owner = (tokenAt f t).owner) && decide (t < u) &&
        decide (u < f.tokens.length)

/-- The walk of the `while (current)` loops of the tool, from `current` on,
visits the tokens of the list, in this order, and then ends. -/
def isSpineWalk (f : HumdrumFile) : Option Nat → List Nat → Bool
  | current, [] => current.isNone
  | current, s :: rest =>
    decide (current = some s) && isSpineWalk f (tokenAt f s).nextTokens.head? rest

/-- A barline token that the loop of `applyBarStylings` treats as a barline. -/
def isPlainBarline (f : HumdrumFile) (t : Nat) : Bool :=
  !(tokenAt f t).isInterpretation && (tokenAt f t).isBarline

/-- The locals of `applyBarStylings` after the round of the loop at token `s`. -/
def stepState (re : HumRegex) (f : HumdrumFile) (st : BarState) (s : Nat) : BarState :=
  if (tokenAt f s).isInterpretation then applyDirective re (tokenAt f s).text st
  else if !(tokenAt f s).isBarline then st
  else if !st.activeQ then st
  else { st with counter := st.counter + 1 }

/-- The text of token `s` after the round of the loop of `applyBarStylings` at
it, entered with the locals `st`. -/
def expectedText (f : HumdrumFile) (st : BarState) (s : Nat) : List Char :=
  if (tokenAt f s).isInterpretation then (tokenAt f s).text
  else if !(tokenAt f s).isBarline then (tokenAt f s).text
  else if !st.activeQ then (tokenAt f s).text
  else if st.dashQ ∧ st.dash > 0 then
    if st.counter % st.dash ≠ 0 then styledText ':' (tokenAt f s).text else (tokenAt f s).text
  else if st.dotQ ∧ st.dot > 0 then
    if st.counter % st.dot ≠ 0 then styledText '.' (tokenAt f s).text else (tokenAt f s).text
  else if st.invisQ ∧ st.invis > 0 then
    if st.counter % st.invis ≠ 0 then styledText '-' (tokenAt f s).text else (tokenAt f s).text
  else (tokenAt f s).text

/-- The style directive a text is for `applyBarStylings`: the styling
character and the number `N` of `*bar:dash=N` (`:`), `*bar:dot=N` (`.`) and
`*bar:invis=N` (`-`); none for a text with `stop` and for other texts. -/
def styleDirective (re : HumRegex) (text : List Char) : Option (Char × Int) :=
  if re.search text .bar && !re.search text .stop then
    if re.search text .dash then some (':', re.getMatchInt text .dash)
    else if re.search text .dot then some ('.', re.getMatchInt text .dot)
    else if re.search text .invis then some ('-', re.getMatchInt text .invis)
    else none
  else none

/-- A token that is neither a `*bar:` directive with `stop` nor a style
directive. -/
def keepsStyle (re : HumRegex) (f : HumdrumFile) (t : Nat) : Bool :=
  !(tokenAt f t).isInterpretation ||
    !(re.search (tokenAt f t).text .bar &&
      (re.search (tokenAt f t).text .stop || re.search (tokenAt f t).text .dash ||
        re.search (tokenAt f t).text .dot || re.search (tokenAt f t).text .invis))

/-- The locals of `applyBarStylings` hold the style `c` with the number `n`,
`k` barlines after the directive. -/
def holdsStyle (c : Char) (n k : Int) (st : BarState) : Prop :=
  st.activeQ = true ∧ st.counter = k ∧
  ((c = ':' ∧ st.dashQ = true ∧ st.dash = n) ∨
    (c = '.' ∧ st.dashQ = false ∧ st.dotQ = true ∧ st.dot = n) ∨
    (c = '-' ∧ st.dashQ = false ∧ st.dotQ = false ∧ st.invisQ = true ∧ st.invis = n))

/-- The locals of `applyBarStylings` before the round of the loop at entry `i`
of the walk `S`, entered with the locals `st`. -/
def stateBefore (re : HumRegex) (f : HumdrumFile) (st : BarState) (S : List Nat) (i : Nat) :
    BarState :=
  (S.take i).foldl (stepState re f) st

/-- The spine
```
**kern
*bar:dash=2
*^
=1     =1
=2     =2
*v     *v
=3
*-
```
with the tokens numbered line by line, left to right. -/
def c25File : HumdrumFile :=
  { lines := [freshLine false, freshLine false, freshLine false, freshLine false,
      freshLine false, freshLine false, freshLine false, freshLine false],
    tokens := [spineInterpretation 0 ['*', '*', 'k', 'e', 'r', 'n'],
      spineInterpretation 1 ['*', 'b', 'a', 'r', ':', 'd', 'a', 's', 'h', '=', '2'],
      { spineInterpretation 2 ['*', '^'] with nextTokens := [3, 4] },
      { spineBarline 3 ['=', '1'] with nextTokens := [5], nextFieldToken := some 4 },
      { spineBarline 3 ['=', '1'] with nextTokens := [6] },
      { spineBarline 4 ['=', '2'] with nextTokens := [7], nextFieldToken := some 6 },
      { spineBarline 4 ['=', '2'] with nextTokens := [8] },
      { spineInterpretation 5 ['*', 'v'] with nextTokens := [9], nextFieldToken := some 8 },
      { spineInterpretation 5 ['*', 'v'] with nextTokens := [9] },
      { spineBarline 6 ['=', '3'] with nextTokens := [10] },
      { spineInterpretation 7 ['*', '-'] with nextTokens := [] }],
    trackstarts := [0], barlines := [] }

/-- The file `c25File` after `applyBarStylings` on its spine. -/
def c25After : HumdrumFile :=
  match applyBarStylings exampleRegex 30 c25File 0 with
  | .done f => f
  | _ => c25File

/-- Lines with the values -1, 2, -1, 5, -1: known lines at the times 2 and 5,
the lines around them without value. -/
def c31Lines : List HumdrumLine :=
  [freshLine false, timedLine true 2, freshLine false, timedLine true 5, freshLine false]

/-- The lines of `c31Lines` after `fillInNegativeStartTimes` and
`assignLineDurations`. -/
def c33Assigned : List HumdrumLine :=
  (assignLineDurations (fillInNegativeStartTimes c31Lines)).getD []

/-- A file with the lines of `c31Lines` after `fillInNegativeStartTimes`. -/
def c33File : HumdrumFile :=
  { lines := fillInNegativeStartTimes c31Lines, tokens := [], trackstarts := [], barlines := [] }

/-- A known data line at time 0, a spineless line and a barline without value,
and a data line that is not all-rhythmic-null and has no value. -/
def c35Lines : List HumdrumLine :=
  [timedLine true 0, { freshLine false with hasSpines := false },
    { freshLine false with isBarline := true }, freshLine true]

/-- The file
```
**kern  **kern
4c      2d
4e      4f
*-      *-
```
as it is read, with tokens numbered spine by spine (0..3 the first spine, 4..7
the second): the two tracks meet on the third line with the running sums 1
and 2. -/
def c8Tracks : HumdrumFile :=
  { lines := [freshLine false, freshLine true, freshLine true, freshLine false],
    tokens := [freshToken (-1) [1] 0 false, freshToken 1 [2] 1 false,
      freshToken 1 [3] 2 false, freshToken (-1) [] 3 true,
      freshToken (-1) [5] 0 false, freshToken 2 [6] 1 false,
      freshToken 1 [7] 2 false, freshToken (-1) [] 3 true],
    trackstarts := [0, 4], barlines := [] }

/-- The file `c8Tracks` after `assignDurationsToTrack` from the start token of
its first track. -/
def c8TracksFirst : HumdrumFile :=
  match assignDurationsToTrack 50 c8Tracks 0 0 with
  | .done (_, f) => f
  | _ => c8Tracks

/-- The file `c8Tracks` after `analyzeRhythm`. -/
def c8TracksAfter : HumdrumFile :=
  match analyzeRhythm 50 (fun _ => true) c8Tracks with
  | .done (_, f) => f
  | _ => c8Tracks

/-- The file of `c9File` as it is read: no token visited, no line with a
duration-from-start. -/
def c9Read : HumdrumFile :=
  { lines := [freshLine false, freshLine false, freshLine false, freshLine true,
      freshLine false],
    tokens := [freshToken (-1) [1] 0 false, freshToken (-1) [2] 1 false,
      freshToken (-1) [4] 2 false, freshToken (-1) [5] 2 false,
      freshToken 1 [6] 3 false, freshToken 1 [7] 3 false,
      freshToken (-1) [] 4 true, freshToken (-1) [] 4 true],
    trackstarts := [0, 3], barlines := [] }

/-- The file `c9File` after `assignDurationsToTrack` from the start token of
the floating spine with the offset `0 - 0`. -/
def c9Linked : HumdrumFile :=
  match assignDurationsToTrack 10 c9File 3 (0 - 0) with
  | .done (_, f) => f
  | _ => c9File

/-! ## Theorems -/

theorem lineAt_set (lines : List HumdrumLine) (i t : Nat) (l : HumdrumLine) :
    lineAt (lines.set i l) t = if t = i ∧ i < lines.length then l else lineAt lines t := by
  unfold lineAt
  by_cases h : t = i
  · subst h
    by_cases h2 : t < lines.length
    · simp [h2, List.getD_eq_getElem?_getD]
    · have h3 : lines.length ≤ t := Nat.le_of_not_lt h2
      simp [h2, List.getD_eq_getElem?_getD, List.getElem?_eq_none h3, List.getElem?_set]
  · have h' : i ≠ t := fun e => h e.symm
    simp [h, h', List.getD_eq_getElem?_getD, List.getElem?_set_ne]

theorem lineAt_of_getElem? {lines : List HumdrumLine} {i : Nat} {l : HumdrumLine}
    (h : lines[i]? = some l) : lineAt lines i = l := by
  simp [lineAt, List.getD_eq_getElem?_getD, h]

theorem lineAt_setDuration (lines : List HumdrumLine) (i t : Nat) (v : HumNum) :
    lineAt (setDuration lines i v) t =
      if t = i ∧ i < lines.length then { lineAt lines i with duration := v }
      else lineAt lines t := by
  simp [setDuration, lineAt_set]

theorem length_setDuration (lines : List HumdrumLine) (i : Nat) (v : HumNum) :
    (setDuration lines i v).length = lines.length := by
  simp [setDuration]

theorem lineAt_setDurationFromStart (lines : List HumdrumLine) (i t : Nat) (v : HumNum) :
    lineAt (setDurationFromStart lines i v) t =
      if t = i ∧ i < lines.length then { lineAt lines i with durationFromStart := v }
      else lineAt lines t := by
  simp [setDurationFromStart, lineAt_set]

theorem length_setDurationFromStart (lines : List HumdrumLine) (i : Nat) (v : HumNum) :
    (setDurationFromStart lines i v).length = lines.length := by
  simp [setDurationFromStart]

theorem setLineDurationFromStart_of_rhythmic (f : HumdrumFile) (token : Nat)
    (dursum : HumNum)
    (hc : (tokenAt f token).isTerminateInterpretation = true ∨ 0 ≤ (tokenAt f token).duration) :
    setLineDurationFromStart f token dursum =
      if (lineAt f.lines (tokenAt f token).owner).durationFromStart < 0 then
        (true, { f with lines := setDurationFromStart f.lines (tokenAt f token).owner dursum })
      else if (lineAt f.lines (tokenAt f token).owner).durationFromStart ≠ dursum then
        (false, f)
      else (true, f) := by
  have h1 : ¬ ((!(tokenAt f token).isTerminateInterpretation &&
      decide ((tokenAt f token).duration < 0)) = true) := by
    rcases hc with hc | hc
    · simp [hc]
    · simp [not_lt.mpr hc]
  unfold setLineDurationFromStart
  simp only []
  rw [if_neg h1]

theorem setLineDurationFromStart_of_undefined (f : HumdrumFile) (token : Nat)
    (dursum : HumNum)
    (h1 : (tokenAt f token).isTerminateInterpretation = false)
    (h2 : (tokenAt f token).duration < 0) :
    setLineDurationFromStart f token dursum = (true, f) := by
  unfold setLineDurationFromStart
  simp [h1, h2]

/-- C5: `setLineDurationFromStart(token, dursum)` never changes a line's
duration-from-start that is already non-negative; for a token that is a
terminator or has a non-negative duration, on a line whose value is known, it
returns true exactly when the known value equals `dursum` and leaves the file
as it is; on a line whose value is negative it sets the value to `dursum` and
returns true. -/
theorem setLineDurationFromStart_assigned_immutable (f : HumdrumFile) (token : Nat)
    (dursum : HumNum) :
    (∀ l, 0 ≤ (lineAt f.lines l).durationFromStart →
      (lineAt (setLineDurationFromStart f token dursum).2.lines l).durationFromStart
        = (lineAt f.lines l).durationFromStart) ∧
    ((tokenAt f token).isTerminateInterpretation = true ∨ 0 ≤ (tokenAt f token).duration →
      0 ≤ (lineAt f.lines (tokenAt f token).owner).durationFromStart →
      ((setLineDurationFromStart f token dursum).1 = true ↔
          (lineAt f.lines (tokenAt f token).owner).durationFromStart = dursum) ∧
        (setLineDurationFromStart f token dursum).2 = f) ∧
    ((tokenAt f token).isTerminateInterpretation = true ∨ 0 ≤ (tokenAt f token).duration →
      (lineAt f.lines (tokenAt f token).owner).durationFromStart < 0 →
      (tokenAt f token).owner < f.lines.length →
      (setLineDurationFromStart f token dursum).1 = true ∧
        (lineAt (setLineDurationFromStart f token dursum).2.lines
          (tokenAt f token).owner).durationFromStart = dursum) := by
  refine ⟨?_, ?_, ?_⟩
  · intro l hl
    unfold setLineDurationFromStart
    simp only []
    split_ifs with h1 h2 h3
    · rfl
    · simp only [lineAt_setDurationFromStart]
      split_ifs with h4
      · obtain ⟨rfl, _⟩ := h4
        exact absurd hl (not_le.mpr h2)
      · rfl
    · rfl
    · rfl
  · intro hc hk
    rw [setLineDurationFromStart_of_rhythmic f token dursum hc, if_neg (not_lt.mpr hk)]
    by_cases h3 : (lineAt f.lines (tokenAt f token).owner).durationFromStart = dursum
    · simp [h3]
    · simp [h3]
  · intro hc hn hr
    rw [setLineDurationFromStart_of_rhythmic f token dursum hc, if_pos hn]
    simp [lineAt_setDurationFromStart, hr]

/-- Token 1 of `c5File` lies on a line with the value 2: running sum 2 is
accepted, running sum 3 is refused, the file stays as it is; token 0 lies on a
line without value, which is set to the running sum 3. -/
theorem setLineDurationFromStart_assigned_immutable_witness :
    0 ≤ (tokenAt c5File 1).duration ∧
    0 ≤ (lineAt c5File.lines (tokenAt c5File 1).owner).durationFromStart ∧
    (((setLineDurationFromStart c5File 1 3).1 = true ↔
        (lineAt c5File.lines (tokenAt c5File 1).owner).durationFromStart = 3) ∧
      (setLineDurationFromStart c5File 1 3).2 = c5File) ∧
    (lineAt c5File.lines (tokenAt c5File 0).owner).durationFromStart < 0 ∧
    ((setLineDurationFromStart c5File 0 3).1 = true ∧
      (lineAt (setLineDurationFromStart c5File 0 3).2.lines
        (tokenAt c5File 0).owner).durationFromStart = 3) :=
  ⟨by decide!, by decide!,
    (setLineDurationFromStart_assigned_immutable c5File 1 3).2.1
      (Or.inr (by decide!)) (by decide!),
    by decide!,
    (setLineDurationFromStart_assigned_immutable c5File 0 3).2.2
      (Or.inr (by decide!)) (by decide!) (by decide!)⟩

theorem getElem?_eq_some_lineAt {lines : List HumdrumLine} {i : Nat} (h : i < lines.length) :
    lines[i]? = some (lineAt lines i) := by
  simp [lineAt, List.getD_eq_getElem?_getD, List.getElem?_eq_getElem h]

theorem assignLineDurationsLoop_spec (fuel : Nat) :
    ∀ (i : Nat) (lines : List HumdrumLine), i + fuel < lines.length →
      ∃ ls, assignLineDurationsLoop fuel i lines = some ls ∧ ls.length = lines.length ∧
        (∀ t, i ≤ t → t < i + fuel →
          lineAt ls t = { lineAt lines t with
            duration := (lineAt lines (t + 1)).durationFromStart
              - (lineAt lines t).durationFromStart }) ∧
        (∀ t, t < i ∨ i + fuel ≤ t → lineAt ls t = lineAt lines t) := by
  induction fuel with
  | zero =>
    intro i lines _
    exact ⟨lines, rfl, rfl, fun t h1 h2 => absurd h2 (by omega), fun t _ => rfl⟩
  | succ n ih =>
    intro i lines h
    have hi : i < lines.length := by omega
    have hi1 : i + 1 < lines.length := by omega
    obtain ⟨ls, hls, hlen, hin, hout⟩ := ih (i + 1)
      (setDuration lines i
        ((lineAt lines (i + 1)).durationFromStart - (lineAt lines i).durationFromStart))
      (by rw [length_setDuration]; omega)
    refine ⟨ls, ?_, ?_, ?_, ?_⟩
    · simp only [assignLineDurationsLoop, getElem?_eq_some_lineAt hi,
        getElem?_eq_some_lineAt hi1]
      exact hls
    · rw [hlen, length_setDuration]
    · intro t h1 h2
      by_cases ht : t = i
      · subst ht
        rw [hout t (Or.inl (by omega)), lineAt_setDuration]
        simp [hi]
      · rw [hin t (by omega) (by omega)]
        have ht1 : t + 1 ≠ i := by omega
        simp [lineAt_setDuration, ht, ht1]
    · intro t ht
      rw [hout t (by omega), lineAt_setDuration]
      have : t ≠ i := by omega
      simp [this]

theorem sizeMinusOne_of_pos (n : Nat) (hpos : 0 < n) :
    sizeMinusOne n = n - 1 := by
  unfold sizeMinusOne
  rw [if_neg (by omega)]

/-- Complete description of `assignLineDurations` on a non-empty file: only
the `duration` fields change. -/
theorem assignLineDurations_result (lines : List HumdrumLine)
    (hpos : 0 < lines.length) :
    ∃ ls, assignLineDurations lines = some ls ∧ ls.length = lines.length ∧
      ∀ t, lineAt ls t = { lineAt lines t with
        duration :=
          if t + 1 < lines.length then
            (lineAt lines (t + 1)).durationFromStart - (lineAt lines t).durationFromStart
          else if t + 1 = lines.length then 0
          else (lineAt lines t).duration } := by
  have hb : sizeMinusOne lines.length = lines.length - 1 :=
    sizeMinusOne_of_pos lines.length hpos
  obtain ⟨ls, hls, hlen, hin, hout⟩ :=
    assignLineDurationsLoop_spec (lines.length - 1) 0 lines (by omega)
  refine ⟨setDuration ls (ls.length - 1) 0, ?_, ?_, ?_⟩
  · unfold assignLineDurations
    rw [hb, hls]
    have hp : 0 < ls.length := by omega
    simp only [Option.map_some', hp, if_true]
  · rw [length_setDuration, hlen]
  · intro t
    rw [lineAt_setDuration]
    by_cases h1 : t + 1 < lines.length
    · have h2 : t ≠ ls.length - 1 := by omega
      simp [h1, h2, hin t (Nat.zero_le _) (by omega)]
    · by_cases h2 : t + 1 = lines.length
      · have h3 : t = ls.length - 1 := by omega
        have h4 : ls.length - 1 < ls.length := by omega
        have h5 : ¬ (ls.length - 1 + 1 < lines.length) := by omega
        have h6 : ls.length - 1 + 1 = lines.length := by omega
        subst h3
        simp [h4, h5, h6, hout (ls.length - 1) (Or.inr (by omega))]
      · have h3 : t ≠ ls.length - 1 := by omega
        simp [h1, h2, h3, hout t (Or.inr (by omega))]

/-- C2: on a file with at least one line `assignLineDurations` returns; every
line but the last gets the duration-from-start of the next line minus its own
as duration, the last line gets duration zero, and no duration-from-start is
changed. -/
theorem assignLineDurations_spec (lines : List HumdrumLine)
    (hpos : 0 < lines.length) :
    ∃ ls, assignLineDurations lines = some ls ∧ ls.length = lines.length ∧
      (∀ i, i + 1 < lines.length →
        (lineAt ls i).duration =
          (lineAt ls (i + 1)).durationFromStart - (lineAt ls i).durationFromStart) ∧
      (lineAt ls (lines.length - 1)).duration = 0 ∧
      (∀ i, (lineAt ls i).durationFromStart = (lineAt lines i).durationFromStart) := by
  obtain ⟨ls, h1, h2, h3⟩ := assignLineDurations_result lines hpos
  refine ⟨ls, h1, h2, ?_, ?_, ?_⟩
  · intro i hi
    rw [h3 i, h3 (i + 1)]
    simp [hi]
  · rw [h3]
    have h5 : ¬ (lines.length - 1 + 1 < lines.length) := by omega
    have h6 : lines.length - 1 + 1 = lines.length := by omega
    simp [h5, h6]
  · intro i
    rw [h3 i]

theorem assignLineDurations_spec_witness :
    0 < c3Lines.length ∧
    ∃ ls, assignLineDurations c3Lines = some ls ∧ ls.length = c3Lines.length ∧
      (∀ i, i + 1 < c3Lines.length →
        (lineAt ls i).duration =
          (lineAt ls (i + 1)).durationFromStart - (lineAt ls i).durationFromStart) ∧
      (lineAt ls (c3Lines.length - 1)).duration = 0 ∧
      (∀ i, (lineAt ls i).durationFromStart = (lineAt c3Lines i).durationFromStart) :=
  ⟨by decide, assignLineDurations_spec c3Lines (by decide)⟩

theorem lineAt_setDurationToBarline (lines : List HumdrumLine) (i t : Nat) (v : HumNum) :
    lineAt (setDurationToBarline lines i v) t =
      if t = i ∧ i < lines.length then { lineAt lines i with durationToBarline := v }
      else lineAt lines t := by
  simp [setDurationToBarline, lineAt_set]

theorem length_setDurationToBarline (lines : List HumdrumLine) (i : Nat) (v : HumNum) :
    (setDurationToBarline lines i v).length = lines.length := by
  simp [setDurationToBarline]

theorem lineAt_setDurationFromBarline (lines : List HumdrumLine) (i t : Nat) (v : HumNum) :
    lineAt (setDurationFromBarline lines i v) t =
      if t = i ∧ i < lines.length then { lineAt lines i with durationFromBarline := v }
      else lineAt lines t := by
  simp [setDurationFromBarline, lineAt_set]

theorem length_setDurationFromBarline (lines : List HumdrumLine) (i : Nat) (v : HumNum) :
    (setDurationFromBarline lines i v).length = lines.length := by
  simp [setDurationFromBarline]

/-- One write of `durationToBarline` leaves the other fields of every line. -/
theorem setDurationToBarline_fields (lines : List HumdrumLine) (i t : Nat) (v : HumNum) :
    ∃ w, lineAt (setDurationToBarline lines i v) t =
      { lineAt lines t with durationToBarline := w } := by
  rw [lineAt_setDurationToBarline]
  split_ifs with h
  · exact ⟨v, by rw [h.1]⟩
  · exact ⟨(lineAt lines t).durationToBarline, rfl⟩

theorem setDurationFromBarline_fields (lines : List HumdrumLine) (i t : Nat) (v : HumNum) :
    ∃ w, lineAt (setDurationFromBarline lines i v) t =
      { lineAt lines t with durationFromBarline := w } := by
  rw [lineAt_setDurationFromBarline]
  split_ifs with h
  · exact ⟨v, by rw [h.1]⟩
  · exact ⟨(lineAt lines t).durationFromBarline, rfl⟩

theorem analyzeMeterBackward_length (i : Nat) :
    ∀ (sum : HumNum) (lines : List HumdrumLine),
      (analyzeMeterBackward i sum lines).length = lines.length := by
  induction i with
  | zero => intro sum lines; rfl
  | succ n ih =>
    intro sum lines
    simp only [analyzeMeterBackward]
    rw [ih, length_setDurationToBarline]

theorem analyzeMeterBackward_fields (i : Nat) :
    ∀ (sum : HumNum) (lines : List HumdrumLine) (t : Nat),
      ∃ w, lineAt (analyzeMeterBackward i sum lines) t =
        { lineAt lines t with durationToBarline := w } := by
  induction i with
  | zero => intro sum lines t; exact ⟨(lineAt lines t).durationToBarline, rfl⟩
  | succ n ih =>
    intro sum lines t
    simp only [analyzeMeterBackward]
    obtain ⟨w, hw⟩ := ih
      (if (lineAt (setDurationToBarline lines n (sum + (lineAt lines n).duration)) n).isBarline
        = true then 0 else sum + (lineAt lines n).duration)
      (setDurationToBarline lines n (sum + (lineAt lines n).duration)) t
    obtain ⟨w2, hw2⟩ :=
      setDurationToBarline_fields lines n t (sum + (lineAt lines n).duration)
    exact ⟨w, by rw [hw, hw2]⟩

theorem analyzeMeterBackward_frame (i : Nat) :
    ∀ (sum : HumNum) (lines : List HumdrumLine) (t : Nat), i ≤ t →
      lineAt (analyzeMeterBackward i sum lines) t = lineAt lines t := by
  induction i with
  | zero => intro sum lines t _; rfl
  | succ n ih =>
    intro sum lines t ht
    simp only [analyzeMeterBackward]
    rw [ih _ _ t (by omega), lineAt_setDurationToBarline]
    have : t ≠ n := by omega
    simp [this]

/-- Below a stretch without barline the backward sweep stores the running sum
plus the durations of the lines from `j` on. -/
theorem analyzeMeterBackward_toBarline (i : Nat) :
    ∀ (sum : HumNum) (lines : List HumdrumLine) (j : Nat), j < i → i ≤ lines.length →
      (∀ t, j < t → t < i → (lineAt lines t).isBarline = false) →
      (lineAt (analyzeMeterBackward i sum lines) j).durationToBarline =
        sum + ∑ t in Finset.Ico j i, (lineAt lines t).duration := by
  induction i with
  | zero => intro sum lines j h; omega
  | succ n ih =>
    intro sum lines j hj hlen hnb
    simp only [analyzeMeterBackward]
    have hn : n < lines.length := by omega
    by_cases hjn : j = n
    · subst hjn
      rw [analyzeMeterBackward_frame j _ _ j (le_refl _), lineAt_setDurationToBarline]
      simp [hn]
    · have hjn' : j < n := by omega
      have hb : (lineAt (setDurationToBarline lines n (sum + (lineAt lines n).duration))
          n).isBarline = false := by
        obtain ⟨w, hw⟩ :=
          setDurationToBarline_fields lines n n (sum + (lineAt lines n).duration)
        rw [hw]
        exact hnb n hjn' (by omega)
      rw [hb]
      simp only [Bool.false_eq_true, if_false]
      rw [ih _ _ j hjn' (by rw [length_setDurationToBarline]; omega)]
      · rw [Finset.sum_Ico_succ_top (by omega : j ≤ n)]
        have hs : ∀ t, (lineAt (setDurationToBarline lines n
            (sum + (lineAt lines n).duration)) t).duration = (lineAt lines t).duration := by
          intro t
          obtain ⟨w, hw⟩ :=
            setDurationToBarline_fields lines n t (sum + (lineAt lines n).duration)
          rw [hw]
        simp only [hs]
        ring
      · intro t h1 h2
        obtain ⟨w, hw⟩ :=
          setDurationToBarline_fields lines n t (sum + (lineAt lines n).duration)
        rw [hw]
        exact hnb t h1 (by omega)

/-- When the backward sweep passes a barline `k` it goes on below `k` with the
running sum reset to zero. -/
theorem analyzeMeterBackward_reset (i : Nat) :
    ∀ (sum : HumNum) (lines : List HumdrumLine) (k : Nat), k < i → i ≤ lines.length →
      (lineAt lines k).isBarline = true →
      ∃ lines', analyzeMeterBackward i sum lines = analyzeMeterBackward k 0 lines' ∧
        lines'.length = lines.length ∧
        ∀ t, ∃ w, lineAt lines' t = { lineAt lines t with durationToBarline := w } := by
  induction i with
  | zero => intro sum lines k h; omega
  | succ n ih =>
    intro sum lines k hk hlen hbar
    simp only [analyzeMeterBackward]
    have hfields := setDurationToBarline_fields lines n
    by_cases hkn : k = n
    · subst hkn
      have hb : (lineAt (setDurationToBarline lines k (sum + (lineAt lines k).duration))
          k).isBarline = true := by
        obtain ⟨w, hw⟩ := hfields k (sum + (lineAt lines k).duration)
        rw [hw]; exact hbar
      rw [hb]
      exact ⟨_, rfl, length_setDurationToBarline _ _ _, fun t => hfields t _⟩
    · obtain ⟨lines', h1, h2, h3⟩ := ih
        (if (lineAt (setDurationToBarline lines n (sum + (lineAt lines n).duration))
          n).isBarline = true then 0 else sum + (lineAt lines n).duration)
        (setDurationToBarline lines n (sum + (lineAt lines n).duration)) k (by omega)
        (by rw [length_setDurationToBarline]; omega)
        (by
          obtain ⟨w, hw⟩ := hfields k (sum + (lineAt lines n).duration)
          rw [hw]; exact hbar)
      refine ⟨lines', h1, by rw [h2, length_setDurationToBarline], fun t => ?_⟩
      obtain ⟨w, hw⟩ := h3 t
      obtain ⟨w2, hw2⟩ := hfields t (sum + (lineAt lines n).duration)
      exact ⟨w, by rw [hw, hw2]⟩

theorem analyzeMeterForward_fields (fuel : Nat) :
    ∀ (i : Nat) (sum : HumNum) (found : Bool) (lines : List HumdrumLine) (bl : List Nat),
      (analyzeMeterForward fuel i sum found lines bl).1.length = lines.length ∧
      ∀ t, ∃ w, lineAt (analyzeMeterForward fuel i sum found lines bl).1 t =
        { lineAt lines t with durationFromBarline := w } := by
  induction fuel with
  | zero =>
    intro i sum found lines bl
    exact ⟨rfl, fun t => ⟨(lineAt lines t).durationFromBarline, rfl⟩⟩
  | succ n ih =>
    intro i sum found lines bl
    simp only [analyzeMeterForward]
    constructor
    · rw [(ih _ _ _ _ _).1, length_setDurationFromBarline]
    · intro t
      obtain ⟨w, hw⟩ := (ih (i + 1)
        (if (lineAt (setDurationFromBarline lines i sum) i).isBarline = true then 0
          else sum + (lineAt (setDurationFromBarline lines i sum) i).duration)
        (found || (lineAt (setDurationFromBarline lines i sum) i).isBarline)
        (setDurationFromBarline lines i sum)
        (if ((lineAt (setDurationFromBarline lines i sum) i).isData &&
              !(found || (lineAt (setDurationFromBarline lines i sum) i).isBarline)) = true
          then (if (lineAt (setDurationFromBarline lines i sum) i).isBarline = true
            then bl ++ [i] else bl) ++ [0]
          else (if (lineAt (setDurationFromBarline lines i sum) i).isBarline = true
            then bl ++ [i] else bl))).2 t
      obtain ⟨w2, hw2⟩ := setDurationFromBarline_fields lines i t sum
      exact ⟨w, by rw [hw, hw2]⟩

theorem analyzeMeter_fields (lines : List HumdrumLine) (t : Nat) :
    ∃ v w, lineAt (analyzeMeter lines).1 t =
      { lineAt lines t with durationFromBarline := v, durationToBarline := w } := by
  unfold analyzeMeter
  simp only []
  obtain ⟨w, hw⟩ := analyzeMeterBackward_fields
    (analyzeMeterForward lines.length 0 0 false lines []).1.length 0
    (analyzeMeterForward lines.length 0 0 false lines []).1 t
  obtain ⟨v, hv⟩ := (analyzeMeterForward_fields lines.length 0 0 false lines []).2 t
  exact ⟨v, w, by rw [hw, hv]⟩

theorem assignLineDurations_nil : assignLineDurations [] = none := by
  decide!

theorem assignLineDurations_some_pos {lines ls : List HumdrumLine}
    (h : assignLineDurations lines = some ls) : 0 < lines.length := by
  cases lines with
  | nil => rw [assignLineDurations_nil] at h; cases h
  | cons l rest => simp

theorem setDurationFromStart_fields (lines : List HumdrumLine) (i t : Nat) (v : HumNum) :
    ∃ w, lineAt (setDurationFromStart lines i v) t =
      { lineAt lines t with durationFromStart := w } := by
  rw [lineAt_setDurationFromStart]
  split_ifs with h
  · exact ⟨v, by rw [h.1]⟩
  · exact ⟨(lineAt lines t).durationFromStart, rfl⟩

theorem assignNullLines_length (nl : List Nat) :
    ∀ (j : Nat) (s d : HumNum) (lines : List HumdrumLine),
      (assignNullLines nl j s d lines).length = lines.length := by
  induction nl with
  | nil => intro j s d lines; rfl
  | cons l rest ih =>
    intro j s d lines
    simp only [assignNullLines]
    rw [ih, length_setDurationFromStart]

theorem assignNullLines_frame (nl : List Nat) :
    ∀ (j : Nat) (s d : HumNum) (lines : List HumdrumLine) (t : Nat), t ∉ nl →
      lineAt (assignNullLines nl j s d lines) t = lineAt lines t := by
  induction nl with
  | nil => intro j s d lines t _; rfl
  | cons l rest ih =>
    intro j s d lines t ht
    simp only [assignNullLines]
    have h1 : t ≠ l := fun e => ht (by simp [e])
    have h2 : t ∉ rest := fun e => ht (by simp [e])
    rw [ih _ _ _ _ t h2, lineAt_setDurationFromStart]
    simp [h1]

theorem assignNullLines_fields (nl : List Nat) :
    ∀ (j : Nat) (s d : HumNum) (lines : List HumdrumLine) (t : Nat),
      ∃ w, lineAt (assignNullLines nl j s d lines) t =
        { lineAt lines t with durationFromStart := w } := by
  induction nl with
  | nil => intro j s d lines t; exact ⟨(lineAt lines t).durationFromStart, rfl⟩
  | cons l rest ih =>
    intro j s d lines t
    simp only [assignNullLines]
    obtain ⟨w, hw⟩ := ih (j + 1) s d
      (setDurationFromStart lines l (s + d * ((j : HumNum) + 1))) t
    obtain ⟨w2, hw2⟩ := setDurationFromStart_fields lines l t (s + d * ((j : HumNum) + 1))
    exact ⟨w, by rw [hw, hw2]⟩

/-- Entry `k` of the null-line list receives `s + d * (j + k + 1)`. -/
theorem assignNullLines_value (nl : List Nat) :
    ∀ (j : Nat) (s d : HumNum) (lines : List HumdrumLine), nl.Nodup →
      (∀ x ∈ nl, x < lines.length) → ∀ (k : Nat) (hk : k < nl.length),
      (lineAt (assignNullLines nl j s d lines) (nl.get ⟨k, hk⟩)).durationFromStart =
        s + d * ((j : HumNum) + (k : HumNum) + 1) := by
  induction nl with
  | nil => intro j s d lines _ _ k hk; simp at hk
  | cons l rest ih =>
    intro j s d lines hnd hlt k hk
    simp only [assignNullLines]
    have hl : l ∉ rest := (List.nodup_cons.mp hnd).1
    have hr : rest.Nodup := (List.nodup_cons.mp hnd).2
    cases k with
    | zero =>
      show (lineAt _ l).durationFromStart = _
      rw [assignNullLines_frame rest _ _ _ _ l hl, lineAt_setDurationFromStart]
      have : l < lines.length := hlt l (by simp)
      simp [this]
    | succ k =>
      show (lineAt _ (rest.get ⟨k, Nat.lt_of_succ_lt_succ hk⟩)).durationFromStart = _
      rw [ih (j + 1) s d _ hr
        (fun x hx => by rw [length_setDurationFromStart]; exact hlt x (by simp [hx])) k]
      push_cast
      ring

/-- What the scan does at a line that is neither known nor a failure: it
collects the line if it is a null data line and goes on. -/
theorem analyzeNullLineRhythmsLoop_skip (fuel i : Nat) (lines : List HumdrumLine)
    (nl : List Nat) (prev : Option Nat)
    (h1 : isKnownLine (lineAt lines i) = false)
    (h2 : isUnexpectedNegative (lineAt lines i) = false) :
    analyzeNullLineRhythmsLoop (fuel + 1) i lines nl prev =
      analyzeNullLineRhythmsLoop fuel (i + 1) lines
        (if isNullDataLine (lineAt lines i) then nl ++ [i] else nl) prev := by
  unfold isKnownLine at h1
  unfold isUnexpectedNegative at h2
  unfold isNullDataLine
  cases prev <;>
    cases hs : (lineAt lines i).hasSpines <;>
    cases hn : (lineAt lines i).isAllRhythmicNull <;>
    cases hd : (lineAt lines i).isData <;>
    by_cases hneg : (lineAt lines i).durationFromStart < 0 <;>
    simp_all [analyzeNullLineRhythmsLoop, not_le.mpr]

/-- What the scan does at a known line. -/
theorem analyzeNullLineRhythmsLoop_known (fuel i : Nat) (lines : List HumdrumLine)
    (nl : List Nat) (prev : Option Nat)
    (h1 : isKnownLine (lineAt lines i) = true) :
    analyzeNullLineRhythmsLoop (fuel + 1) i lines nl prev =
      analyzeNullLineRhythmsLoop fuel (i + 1)
        (match prev with
          | none => lines
          | some p =>
            assignNullLines nl 0 (lineAt lines p).durationFromStart
              (((lineAt lines i).durationFromStart - (lineAt lines p).durationFromStart)
                / ((nl.length : HumNum) + 1)) lines)
        [] (some i) := by
  unfold isKnownLine at h1
  simp only [Bool.and_eq_true, Bool.not_eq_true', decide_eq_true_eq] at h1
  obtain ⟨⟨hs, hn⟩, hk⟩ := h1
  cases prev <;> simp [analyzeNullLineRhythmsLoop, hs, hn, not_lt.mpr hk]

/-- The scan never writes below the current line except at collected lines. -/
theorem analyzeNullLineRhythmsLoop_frame (fuel : Nat) :
    ∀ (i : Nat) (lines : List HumdrumLine) (nl : List Nat) (prev : Option Nat) (t : Nat),
      t < i → t ∉ nl →
      lineAt (analyzeNullLineRhythmsLoop fuel i lines nl prev).2 t = lineAt lines t := by
  induction fuel with
  | zero => intro i lines nl prev t _ _; rfl
  | succ n ih =>
    intro i lines nl prev t hti htn
    by_cases hk : isKnownLine (lineAt lines i) = true
    · rw [analyzeNullLineRhythmsLoop_known n i lines nl prev hk,
        ih (i + 1) _ [] (some i) t (by omega) (by simp)]
      cases prev with
      | none => rfl
      | some p => exact assignNullLines_frame nl _ _ _ _ t htn
    · have hk' : isKnownLine (lineAt lines i) = false := by simpa using hk
      by_cases hb : isUnexpectedNegative (lineAt lines i) = true
      · have : analyzeNullLineRhythmsLoop (n + 1) i lines nl prev = (false, lines) := by
          unfold isUnexpectedNegative at hb
          simp only [Bool.and_eq_true, Bool.not_eq_true', decide_eq_true_eq] at hb
          obtain ⟨⟨⟨hs, hn⟩, hneg⟩, hd⟩ := hb
          cases prev <;> simp [analyzeNullLineRhythmsLoop, hs, hn, hneg, hd]
        rw [this]
      · have hb' : isUnexpectedNegative (lineAt lines i) = false := by simpa using hb
        rw [analyzeNullLineRhythmsLoop_skip n i lines nl prev hk' hb']
        apply ih (i + 1) lines _ prev t (by omega)
        split_ifs
        · simp only [List.mem_append, List.mem_singleton, not_or]
          exact ⟨htn, by omega⟩
        · exact htn

/-- The scan gets through `m` lines without failure line; it has then written
only below the line it stands at. -/
theorem analyzeNullLineRhythmsLoop_progress (m : Nat) :
    ∀ (fuel i : Nat) (lines : List HumdrumLine) (nl : List Nat) (prev : Option Nat),
      (∀ x ∈ nl, x < i) →
      (∀ t, i ≤ t → t < i + m → isUnexpectedNegative (lineAt lines t) = false) →
      ∃ lines' nl' prev',
        analyzeNullLineRhythmsLoop (m + fuel) i lines nl prev =
          analyzeNullLineRhythmsLoop fuel (i + m) lines' nl' prev' ∧
        (∀ x ∈ nl', x < i + m) ∧
        (∀ t, i + m ≤ t → lineAt lines' t = lineAt lines t) ∧
        lines'.length = lines.length := by
  induction m with
  | zero =>
    intro fuel i lines nl prev hnl _
    exact ⟨lines, nl, prev, by simp, by simpa using hnl, fun t _ => rfl, rfl⟩
  | succ m ih =>
    intro fuel i lines nl prev hnl hok
    have hf : m + 1 + fuel = (m + fuel) + 1 := by omega
    rw [hf]
    by_cases hk : isKnownLine (lineAt lines i) = true
    · rw [analyzeNullLineRhythmsLoop_known (m + fuel) i lines nl prev hk]
      generalize hL : (match prev with
          | none => lines
          | some p =>
            assignNullLines nl 0 (lineAt lines p).durationFromStart
              (((lineAt lines i).durationFromStart - (lineAt lines p).durationFromStart)
                / ((nl.length : HumNum) + 1)) lines) = lines1
      have hagree : ∀ t, i ≤ t → lineAt lines1 t = lineAt lines t := by
        intro t ht
        rw [← hL]
        cases prev with
        | none => rfl
        | some p =>
          exact assignNullLines_frame nl _ _ _ _ t (fun hmem => by have := hnl t hmem; omega)
      have hlen : lines1.length = lines.length := by
        rw [← hL]
        cases prev with
        | none => rfl
        | some p => exact assignNullLines_length nl _ _ _ _
      obtain ⟨l', nl', p', h1, h2, h3, h4⟩ := ih fuel (i + 1) lines1 [] (some i)
        (by simp)
        (fun t ht1 ht2 => by rw [hagree t (by omega)]; exact hok t (by omega) (by omega))
      refine ⟨l', nl', p', ?_, ?_, ?_, ?_⟩
      · rw [h1]; congr 1; omega
      · intro x hx; have := h2 x hx; omega
      · intro t ht; rw [h3 t (by omega), hagree t (by omega)]
      · rw [h4, hlen]
    · have hk' : isKnownLine (lineAt lines i) = false := by simpa using hk
      rw [analyzeNullLineRhythmsLoop_skip (m + fuel) i lines nl prev hk'
        (hok i (le_refl _) (by omega))]
      obtain ⟨l', nl', p', h1, h2, h3, h4⟩ := ih fuel (i + 1) lines
        (if isNullDataLine (lineAt lines i) then nl ++ [i] else nl) prev
        (by
          intro x hx
          split_ifs at hx
          · rcases List.mem_append.mp hx with hx | hx
            · have := hnl x hx; omega
            · simp at hx; omega
          · have := hnl x hx; omega)
        (fun t ht1 ht2 => hok t (by omega) (by omega))
      refine ⟨l', nl', p', ?_, ?_, ?_, h4⟩
      · rw [h1]; congr 1; omega
      · intro x hx; have := h2 x hx; omega
      · intro t ht; exact h3 t (by omega)

/-- Between two known lines the scan only collects the null data lines. -/
theorem analyzeNullLineRhythmsLoop_collect (m : Nat) :
    ∀ (fuel i : Nat) (lines : List HumdrumLine) (nl : List Nat) (prev : Option Nat),
      (∀ t, i ≤ t → t < i + m → isKnownLine (lineAt lines t) = false) →
      (∀ t, i ≤ t → t < i + m → isUnexpectedNegative (lineAt lines t) = false) →
      analyzeNullLineRhythmsLoop (m + fuel) i lines nl prev =
        analyzeNullLineRhythmsLoop fuel (i + m) lines
          (nl ++ (List.range' i m).filter fun t => isNullDataLine (lineAt lines t)) prev := by
  induction m with
  | zero => intro fuel i lines nl prev _ _; simp
  | succ m ih =>
    intro fuel i lines nl prev hnk hok
    have hf : m + 1 + fuel = (m + fuel) + 1 := by omega
    rw [hf, analyzeNullLineRhythmsLoop_skip (m + fuel) i lines nl prev
      (hnk i (le_refl _) (by omega)) (hok i (le_refl _) (by omega)),
      ih fuel (i + 1) lines _ prev (fun t h1 h2 => hnk t (by omega) (by omega))
        (fun t h1 h2 => hok t (by omega) (by omega))]
    have hr : List.range' i (m + 1) = i :: List.range' (i + 1) m := by
      simp [List.range'_succ]
    rw [hr, List.filter_cons]
    have hi : i + 1 + m = i + (m + 1) := by omega
    rw [hi]
    split_ifs <;> simp

theorem nullLinesBetween_mem {lines : List HumdrumLine} {a b x : Nat}
    (hx : x ∈ nullLinesBetween lines a b) : a < x ∧ x < b := by
  unfold nullLinesBetween at hx
  have := (List.mem_filter.mp hx).1
  rw [List.mem_range'_1] at this
  omega

theorem nullLinesBetween_nodup (lines : List HumdrumLine) (a b : Nat) :
    (nullLinesBetween lines a b).Nodup := by
  unfold nullLinesBetween
  exact (List.nodup_range' _ _).filter _

/-- The state of the scan just after a known line `a` that it reaches. -/
theorem analyzeNullLineRhythms_reach (lines : List HumdrumLine) (a : Nat) (fuel : Nat)
    (hlen : lines.length = a + (fuel + 1))
    (hka : isKnownLine (lineAt lines a) = true)
    (hok : ∀ t, t < a → isUnexpectedNegative (lineAt lines t) = false) :
    ∃ lines2, analyzeNullLineRhythms lines =
        analyzeNullLineRhythmsLoop fuel (a + 1) lines2 [] (some a) ∧
      (∀ t, a ≤ t → lineAt lines2 t = lineAt lines t) ∧ lines2.length = lines.length := by
  have hstart : analyzeNullLineRhythms lines =
      analyzeNullLineRhythmsLoop (a + (fuel + 1)) 0 lines [] none := by
    unfold analyzeNullLineRhythms
    rw [hlen]
  rw [hstart]
  obtain ⟨l1, nl1, p1, h1, h2, h3, h4⟩ :=
    analyzeNullLineRhythmsLoop_progress a (fuel + 1) 0 lines [] none (by simp)
      (fun t _ ht => hok t (by omega))
  rw [h1, Nat.zero_add]
  have hka1 : isKnownLine (lineAt l1 a) = true := by rw [h3 a (by omega)]; exact hka
  rw [analyzeNullLineRhythmsLoop_known fuel a l1 nl1 p1 hka1]
  refine ⟨_, rfl, ?_, ?_⟩
  · intro t ht
    cases p1 with
    | none => exact h3 t (by omega)
    | some p =>
      show lineAt (assignNullLines nl1 0 _ _ l1) t = _
      rw [assignNullLines_frame nl1 _ _ _ _ t
        (fun hmem => by have := h2 t hmem; omega)]
      exact h3 t (by omega)
  · cases p1 with
    | none => exact h4
    | some p =>
      show (assignNullLines nl1 0 _ _ l1).length = _
      rw [assignNullLines_length]; exact h4

/-- C1: let lines `a < b` be successive known lines (lines with spines that
are not all-rhythmic-null and have a non-negative duration-from-start `s`,
`e`), the scan reaching `b` without failure.  Then entry `k` (counted from 0)
of the `n` null data lines between them is assigned `s + (e - s) * (k + 1) / (n + 1)`. -/
theorem analyzeNullLineRhythms_interpolates (lines : List HumdrumLine) (a b : Nat)
    (hab : a < b) (hb : b < lines.length)
    (hka : isKnownLine (lineAt lines a) = true)
    (hkb : isKnownLine (lineAt lines b) = true)
    (hmid : ∀ t, a < t → t < b → isKnownLine (lineAt lines t) = false)
    (hok : ∀ t, t < b → isUnexpectedNegative (lineAt lines t) = false)
    (k : Nat) (hk : k < (nullLinesBetween lines a b).length) :
    (lineAt (analyzeNullLineRhythms lines).2
        ((nullLinesBetween lines a b).get ⟨k, hk⟩)).durationFromStart =
      (lineAt lines a).durationFromStart +
        ((lineAt lines b).durationFromStart - (lineAt lines a).durationFromStart)
          * ((k : HumNum) + 1) / (((nullLinesBetween lines a b).length : HumNum) + 1) := by
  obtain ⟨r, hr⟩ : ∃ r, lines.length = a + (((b - a - 1) + (r + 1)) + 1) :=
    ⟨lines.length - b - 1, by omega⟩
  obtain ⟨l2, h1, hag, hl2⟩ := analyzeNullLineRhythms_reach lines a _ hr hka
    (fun t ht => hok t (by omega))
  rw [h1, analyzeNullLineRhythmsLoop_collect (b - a - 1) (r + 1) (a + 1) l2 [] (some a)
    (fun t ht1 ht2 => by rw [hag t (by omega)]; exact hmid t (by omega) (by omega))
    (fun t ht1 ht2 => by rw [hag t (by omega)]; exact hok t (by omega))]
  have hnl : ([] ++ (List.range' (a + 1) (b - a - 1)).filter
      fun t => isNullDataLine (lineAt l2 t)) = nullLinesBetween lines a b := by
    unfold nullLinesBetween
    rw [List.nil_append]
    apply List.filter_congr
    intro x hx
    rw [List.mem_range'_1] at hx
    rw [hag x (by omega)]
  have hidx : a + 1 + (b - a - 1) = b := by omega
  rw [hnl, hidx]
  have hkb2 : isKnownLine (lineAt l2 b) = true := by rw [hag b (by omega)]; exact hkb
  rw [analyzeNullLineRhythmsLoop_known r b l2 _ (some a) hkb2]
  have hx := nullLinesBetween_mem (List.get_mem (nullLinesBetween lines a b) k hk)
  rw [analyzeNullLineRhythmsLoop_frame r (b + 1) _ [] (some b) _ (by omega) (by simp)]
  simp only []
  rw [assignNullLines_value _ 0 _ _ l2 (nullLinesBetween_nodup lines a b)
    (fun x hx => by have := nullLinesBetween_mem hx; omega) k hk,
    hag a (le_refl _), hag b (by omega)]
  push_cast
  ring

/-- The example of the specification: known lines at 0 and 4 with three null
lines between them; the null lines get 1, 2 and 3. -/
theorem analyzeNullLineRhythms_interpolates_witness :
    isKnownLine (lineAt c1Lines 0) = true ∧ isKnownLine (lineAt c1Lines 4) = true ∧
    nullLinesBetween c1Lines 0 4 = [1, 2, 3] ∧
    (lineAt (analyzeNullLineRhythms c1Lines).2
        ((nullLinesBetween c1Lines 0 4).get ⟨1, by decide!⟩)).durationFromStart =
      (lineAt c1Lines 0).durationFromStart +
        ((lineAt c1Lines 4).durationFromStart - (lineAt c1Lines 0).durationFromStart)
          * (((1 : Nat) : HumNum) + 1) / (((nullLinesBetween c1Lines 0 4).length : HumNum) + 1) ∧
    (analyzeNullLineRhythms c1Lines).2.map (fun l => l.durationFromStart) = [0, 1, 2, 3, 4] :=
  ⟨by decide!, by decide!, by decide!,
    analyzeNullLineRhythms_interpolates c1Lines 0 4 (by decide) (by decide!) (by decide!)
      (by decide!)
      (fun t h1 h2 => by
        have ht : t = 1 ∨ t = 2 ∨ t = 3 := by omega
        rcases ht with rfl | rfl | rfl <;> decide!)
      (fun t h => by
        have ht : t = 0 ∨ t = 1 ∨ t = 2 ∨ t = 3 := by omega
        rcases ht with rfl | rfl | rfl | rfl <;> decide!)
      1 (by decide!),
    by decide!⟩

theorem tokenAt_incrementState (f : HumdrumFile) (t x : Nat) :
    tokenAt (incrementState f t) x =
      if x = t ∧ t < f.tokens.length then
        { tokenAt f t with state := (tokenAt f t).state + 1 }
      else tokenAt f x := by
  unfold incrementState tokenAt
  simp only []
  by_cases h : x = t
  · subst h
    by_cases h2 : x < f.tokens.length
    · simp [h2, List.getD_eq_getElem?_getD]
    · have h3 : f.tokens.length ≤ x := Nat.le_of_not_lt h2
      simp [h2, List.getD_eq_getElem?_getD, List.getElem?_eq_none h3, List.getElem?_set]
  · have h' : t ≠ x := fun e => h e.symm
    simp [h, h', List.getD_eq_getElem?_getD, List.getElem?_set_ne]

/-- Function `incrementState` changes nothing but the visited marker. -/
theorem tokenAt_incrementState_fields (f : HumdrumFile) (t x : Nat) :
    ∃ s, tokenAt (incrementState f t) x = { tokenAt f x with state := s } := by
  rw [tokenAt_incrementState]
  split_ifs with h
  · exact ⟨(tokenAt f t).state + 1, by rw [h.1]⟩
  · exact ⟨(tokenAt f x).state, rfl⟩

theorem setLineDurationFromStart_tokens (f : HumdrumFile) (t : Nat) (d : HumNum) :
    (setLineDurationFromStart f t d).2.tokens = f.tokens := by
  unfold setLineDurationFromStart
  simp only []
  split_ifs <;> rfl

theorem tokenAt_setLineDurationFromStart (f : HumdrumFile) (t x : Nat) (d : HumNum) :
    tokenAt (setLineDurationFromStart f t d).2 x = tokenAt f x := by
  unfold tokenAt
  rw [setLineDurationFromStart_tokens]

/-- The file after `incrementState` and `setLineDurationFromStart` on `u`. -/
theorem visit_tokenAt (f : HumdrumFile) (u x : Nat) (d : HumNum) :
    tokenAt (setLineDurationFromStart (incrementState f u) u d).2 x =
      if x = u ∧ u < f.tokens.length then
        { tokenAt f u with state := (tokenAt f u).state + 1 }
      else tokenAt f x := by
  rw [tokenAt_setLineDurationFromStart, tokenAt_incrementState]

theorem visit_fields (f : HumdrumFile) (u x : Nat) (d : HumNum) :
    ∃ s, tokenAt (setLineDurationFromStart (incrementState f u) u d).2 x =
      { tokenAt f x with state := s } := by
  rw [tokenAt_setLineDurationFromStart]
  exact tokenAt_incrementState_fields f u x

theorem visit_state_of_ne (f : HumdrumFile) (u x : Nat) (d : HumNum) (h : x ≠ u) :
    (tokenAt (setLineDurationFromStart (incrementState f u) u d).2 x).state =
      (tokenAt f x).state := by
  rw [visit_tokenAt]
  simp [h]

/-- Visiting a token whose line has no value yet succeeds, and writes the
running sum on that line when the token is rhythmic or a terminator. -/
theorem visit_of_negative (f : HumdrumFile) (u : Nat) (d : HumNum)
    (hneg : (lineAt f.lines (tokenAt f u).owner).durationFromStart < 0) :
    (setLineDurationFromStart (incrementState f u) u d).1 = true ∧
    ∀ l, lineAt (setLineDurationFromStart (incrementState f u) u d).2.lines l =
      if l = (tokenAt f u).owner ∧ (tokenAt f u).owner < f.lines.length ∧
          ((tokenAt f u).isTerminateInterpretation = true ∨ 0 ≤ (tokenAt f u).duration) then
        { lineAt f.lines l with durationFromStart := d }
      else lineAt f.lines l := by
  obtain ⟨s, hs⟩ := tokenAt_incrementState_fields f u u
  have hl : (incrementState f u).lines = f.lines := rfl
  by_cases hc : (tokenAt f u).isTerminateInterpretation = true ∨ 0 ≤ (tokenAt f u).duration
  · have hc' : (tokenAt (incrementState f u) u).isTerminateInterpretation = true ∨
        0 ≤ (tokenAt (incrementState f u) u).duration := by rw [hs]; exact hc
    rw [setLineDurationFromStart_of_rhythmic _ u d hc']
    have hneg' : (lineAt (incrementState f u).lines
        (tokenAt (incrementState f u) u).owner).durationFromStart < 0 := by
      rw [hs, hl]; exact hneg
    rw [if_pos hneg']
    refine ⟨rfl, fun l => ?_⟩
    show lineAt (setDurationFromStart (incrementState f u).lines
      (tokenAt (incrementState f u) u).owner d) l = _
    rw [hs, hl, lineAt_setDurationFromStart]
    by_cases h1 : l = (tokenAt f u).owner
    · subst h1
      by_cases h2 : (tokenAt f u).owner < f.lines.length
      · simp [h2, hc]
      · simp [h2]
    · simp [h1]
  · have h1 : (tokenAt (incrementState f u) u).isTerminateInterpretation = false := by
      rw [hs]
      cases h : (tokenAt f u).isTerminateInterpretation
      · rfl
      · exact absurd (Or.inl h) hc
    have h2 : (tokenAt (incrementState f u) u).duration < 0 := by
      rw [hs]
      exact not_le.mp (fun h => hc (Or.inr h))
    rw [setLineDurationFromStart_of_undefined _ u d h1 h2]
    refine ⟨rfl, fun l => ?_⟩
    rw [if_neg (fun h => hc h.2.2)]
    rfl

theorem addPositive_eq (d x : HumNum) : addPositive d x = d + addPositive 0 x := by
  unfold addPositive
  split_ifs <;> simp

theorem addPositive_nonneg (d x : HumNum) (h : 0 ≤ d) : 0 ≤ addPositive d x := by
  unfold addPositive
  split_ifs with h1
  · exact add_nonneg h (le_of_lt h1)
  · exact h

theorem addPositive_of_nonpos (d x : HumNum) (h : x ≤ 0) : addPositive d x = d := by
  unfold addPositive
  rw [if_neg (not_lt.mpr h)]

theorem isUnsplitTrack_congr (f g : HumdrumFile)
    (h : ∀ x, (tokenAt g x).nextTokens = (tokenAt f x).nextTokens) :
    ∀ p : List Nat, isUnsplitTrack g p ↔ isUnsplitTrack f p := by
  intro p
  induction p with
  | nil => simp [isUnsplitTrack]
  | cons t rest ih =>
    cases rest with
    | nil => simp [isUnsplitTrack, h]
    | cons u rest' => simp only [isUnsplitTrack, h, ih]

theorem visit_lines_length (f : HumdrumFile) (u : Nat) (d : HumNum) :
    (setLineDurationFromStart (incrementState f u) u d).2.lines.length = f.lines.length := by
  unfold setLineDurationFromStart
  simp only []
  split_ifs <;> simp [incrementState, length_setDurationFromStart]

/-- First loop of `prepareDurations` on a track without split whose remaining
lines have no value: it falls through to the second loop, and every remaining
token that is rhythmic or a terminator has its line set to the running sum. -/
theorem primaryWalk_unsplit (rest : List Nat) :
    ∀ (t : Nat) (f : HumdrumFile) (s : Int) (d : HumNum) (fuel : Nat),
      rest.length + 1 ≤ fuel →
      isUnsplitTrack f (t :: rest) →
      (∀ u ∈ rest, (tokenAt f u).state = s) →
      (∀ u ∈ rest, (lineAt f.lines (tokenAt f u).owner).durationFromStart < 0 ∧
        (tokenAt f u).owner < f.lines.length) →
      ((t :: rest).map fun u => (tokenAt f u).owner).Nodup →
      (∀ u ∈ t :: rest, (tokenAt f u).isTerminateInterpretation = true →
        (tokenAt f u).duration ≤ 0) →
      0 ≤ d →
      ((tokenAt f t).isTerminateInterpretation = true →
        (lineAt f.lines (tokenAt f t).owner).durationFromStart = d) →
      ∃ f', primaryWalk fuel f t s d = .done (none, f') ∧
        (∀ x, ∃ s', tokenAt f' x = { tokenAt f x with state := s' }) ∧
        f'.lines.length = f.lines.length ∧
        (∀ l, l ∉ rest.map (fun u => (tokenAt f u).owner) →
          lineAt f'.lines l = lineAt f.lines l) ∧
        (∀ (i : Nat) (hi : i < rest.length),
          ((tokenAt f (rest.get ⟨i, hi⟩)).isTerminateInterpretation = true ∨
            0 ≤ (tokenAt f (rest.get ⟨i, hi⟩)).duration) →
          (lineAt f'.lines (tokenAt f (rest.get ⟨i, hi⟩)).owner).durationFromStart =
            d + positiveDurationSum f (rest.take i)) := by
  induction rest with
  | nil =>
    intro t f s d fuel hfuel hchain _ _ _ _ hd hterm
    obtain ⟨n, rfl⟩ : ∃ n, fuel = n + 1 := ⟨fuel - 1, by simp at hfuel; omega⟩
    have hnext : (tokenAt f t).nextTokens = [] := hchain
    refine ⟨f, ?_, fun x => ⟨(tokenAt f x).state, rfl⟩, rfl, fun l _ => rfl,
      fun i hi => absurd hi (by simp)⟩
    simp only [primaryWalk, hnext]
    by_cases hT : (tokenAt f t).isTerminateInterpretation = true
    · rw [if_pos hT, setLineDurationFromStart_of_rhythmic f t d (Or.inl hT)]
      have h1 := hterm hT
      rw [if_neg (by rw [h1]; exact not_lt.mpr hd), if_neg (by simp [h1])]
    · rw [if_neg hT]
  | cons u rest' ih =>
    intro t f s d fuel hfuel hchain hstate hlines hnd hdur hd _
    obtain ⟨n, rfl⟩ : ∃ n, fuel = n + 1 := ⟨fuel - 1, by simp at hfuel; omega⟩
    obtain ⟨hnext, hchain'⟩ : (tokenAt f t).nextTokens = [u] ∧ isUnsplitTrack f (u :: rest') :=
      hchain
    have hsu : (tokenAt f u).state = s := hstate u (by simp)
    obtain ⟨hneg, hvalid⟩ := hlines u (by simp)
    obtain ⟨hv1, hv2⟩ := visit_of_negative f u d hneg
    -- the file after the visit of `u`
    generalize hf1 : setLineDurationFromStart (incrementState f u) u d = r at hv1 hv2
    obtain ⟨b, f1⟩ := r
    simp only at hv1 hv2
    subst hv1
    have hfld : ∀ x, ∃ s', tokenAt f1 x = { tokenAt f x with state := s' } := by
      intro x
      have := visit_fields f u x d
      rw [hf1] at this
      exact this
    have hO : ∀ x, (tokenAt f1 x).owner = (tokenAt f x).owner := by
      intro x; obtain ⟨s', h⟩ := hfld x; rw [h]
    have hD : ∀ x, (tokenAt f1 x).duration = (tokenAt f x).duration := by
      intro x; obtain ⟨s', h⟩ := hfld x; rw [h]
    have hT : ∀ x, (tokenAt f1 x).isTerminateInterpretation =
        (tokenAt f x).isTerminateInterpretation := by
      intro x; obtain ⟨s', h⟩ := hfld x; rw [h]
    have hN : ∀ x, (tokenAt f1 x).nextTokens = (tokenAt f x).nextTokens := by
      intro x; obtain ⟨s', h⟩ := hfld x; rw [h]
    have hlen1 : f1.lines.length = f.lines.length := by
      have := visit_lines_length f u d
      rw [hf1] at this
      exact this
    have hnd' : ((u :: rest').map fun x => (tokenAt f x).owner).Nodup :=
      (List.nodup_cons.mp hnd).2
    have hne_owner : ∀ x ∈ rest', (tokenAt f x).owner ≠ (tokenAt f u).owner := by
      intro x hx heq
      have h1 := (List.nodup_cons.mp hnd').1
      exact h1 (List.mem_map.mpr ⟨x, hx, heq⟩)
    have hne : ∀ x ∈ rest', x ≠ u := fun x hx heq => hne_owner x hx (by rw [heq])
    have hsum_pos : 0 ≤ addPositive d (tokenAt f1 u).duration := addPositive_nonneg _ _ hd
    obtain ⟨f', h1, h2, h3, h4, h5⟩ := ih u f1 s (addPositive d (tokenAt f1 u).duration) n
      (by simp at hfuel ⊢; omega)
      ((isUnsplitTrack_congr f f1 hN _).mpr hchain')
      (fun x hx => by
        have := visit_state_of_ne f u x d (hne x hx)
        rw [hf1] at this
        rw [this]; exact hstate x (by simp [hx]))
      (fun x hx => by
        rw [hO, hlen1, hv2, if_neg (fun h => hne_owner x hx h.1)]
        exact hlines x (by simp [hx]))
      (by simp only [hO]; exact hnd')
      (fun x hx => by rw [hT, hD]; exact hdur x (by simp [List.mem_cons] at hx ⊢; tauto))
      hsum_pos
      (fun hterm => by
        rw [hT] at hterm
        rw [hO, hD, hv2, if_pos ⟨rfl, hvalid, Or.inl hterm⟩,
          addPositive_of_nonpos _ _ (hdur u (by simp) hterm)])
    refine ⟨f', ?_, ?_, ?_, ?_, ?_⟩
    · simp only [primaryWalk, hnext, hsu, ne_eq, not_true_eq_false, if_false, hf1]
      exact h1
    · intro x
      obtain ⟨s1, e1⟩ := h2 x
      obtain ⟨s2, e2⟩ := hfld x
      exact ⟨s1, by rw [e1, e2]⟩
    · rw [h3, hlen1]
    · intro l hl
      simp only [List.map_cons, List.mem_cons, not_or] at hl
      rw [h4 l (by simp only [hO]; exact hl.2), hv2, if_neg (fun h => hl.1 h.1)]
    · intro i hi hc
      cases i with
      | zero =>
        show (lineAt f'.lines (tokenAt f u).owner).durationFromStart = _
        rw [h4 _ (by simp only [hO]; exact (List.nodup_cons.mp hnd').1), hv2,
          if_pos ⟨rfl, hvalid, hc⟩]
        simp [positiveDurationSum]
      | succ i' =>
        have hi' : i' < rest'.length := by simpa using hi
        show (lineAt f'.lines (tokenAt f (rest'.get ⟨i', hi'⟩)).owner).durationFromStart = _
        have h6 := h5 i' hi' (by rw [hT, hD]; exact hc)
        rw [hO] at h6
        rw [h6, hD, addPositive_eq]
        simp only [positiveDurationSum, hD, List.take_succ_cons, List.map_cons, List.sum_cons]
        ring

/-- Second loop of `prepareDurations` on a track without split: there is no
secondary track to enter, the loop returns true and leaves the file as it is. -/
theorem secondaryWalk_unsplit (rest : List Nat) :
    ∀ (t : Nat) (f : HumdrumFile) (s : Int) (d : HumNum) (fuel : Nat),
      rest.length + 1 ≤ fuel → isUnsplitTrack f (t :: rest) →
      secondaryWalk fuel f t s d = .done (true, f) := by
  induction rest with
  | nil =>
    intro t f s d fuel hfuel hchain
    obtain ⟨n, rfl⟩ : ∃ n, fuel = n + 1 := ⟨fuel - 1, by simp at hfuel; omega⟩
    have hnext : (tokenAt f t).nextTokens = [] := hchain
    simp only [secondaryWalk, hnext]
  | cons u rest' ih =>
    intro t f s d fuel hfuel hchain
    obtain ⟨n, rfl⟩ : ∃ n, fuel = n + 2 := ⟨fuel - 2, by simp at hfuel; omega⟩
    obtain ⟨hnext, hchain'⟩ : (tokenAt f t).nextTokens = [u] ∧ isUnsplitTrack f (u :: rest') :=
      hchain
    simp only [secondaryWalk, hnext, secondaryChildren]
    split_ifs with h
    · rfl
    · exact ih u f s _ (n + 1) (by simp at hfuel ⊢; omega) hchain'

/-- Propagation along a track without split whose lines have no value yet,
from any non-negative offset. -/
theorem assignDurationsToTrack_unsplit_from (f : HumdrumFile) (start : Nat)
    (rest : List Nat) (startdur : HumNum) (fuel : Nat)
    (hfuel : rest.length + 2 ≤ fuel)
    (hstart : 0 ≤ startdur)
    (htrack : isUnsplitTrack f (start :: rest))
    (hstate : ∀ t ∈ rest, (tokenAt f t).state = (tokenAt f start).state)
    (hlines : ∀ t ∈ start :: rest,
      (lineAt f.lines (tokenAt f t).owner).durationFromStart < 0 ∧
        (tokenAt f t).owner < f.lines.length)
    (hdistinct : ((start :: rest).map fun t => (tokenAt f t).owner).Nodup)
    (hterm : ∀ t ∈ start :: rest, (tokenAt f t).isTerminateInterpretation = true →
      (tokenAt f t).duration ≤ 0) :
    ∃ f', prepareDurations fuel f start (tokenAt f start).state startdur = .done (true, f') ∧
      ∀ (i : Nat) (hi : i < (start :: rest).length),
        ((tokenAt f ((start :: rest).get ⟨i, hi⟩)).isTerminateInterpretation = true ∨
          0 ≤ (tokenAt f ((start :: rest).get ⟨i, hi⟩)).duration) →
        (lineAt f'.lines (tokenAt f ((start :: rest).get ⟨i, hi⟩)).owner).durationFromStart =
          startdur + positiveDurationSum f ((start :: rest).take i) := by
  obtain ⟨n, rfl⟩ : ∃ n, fuel = n + 1 := ⟨fuel - 1, by omega⟩
  obtain ⟨hneg, hvalid⟩ := hlines start (by simp)
  obtain ⟨hv1, hv2⟩ := visit_of_negative f start startdur hneg
  generalize hf1 : setLineDurationFromStart (incrementState f start) start startdur = r
    at hv1 hv2
  obtain ⟨b, f1⟩ := r
  simp only at hv1 hv2
  subst hv1
  have hfld : ∀ x, ∃ s', tokenAt f1 x = { tokenAt f x with state := s' } := by
    intro x
    have := visit_fields f start x startdur
    rw [hf1] at this
    exact this
  have hO : ∀ x, (tokenAt f1 x).owner = (tokenAt f x).owner := by
    intro x; obtain ⟨s', h⟩ := hfld x; rw [h]
  have hD : ∀ x, (tokenAt f1 x).duration = (tokenAt f x).duration := by
    intro x; obtain ⟨s', h⟩ := hfld x; rw [h]
  have hT : ∀ x, (tokenAt f1 x).isTerminateInterpretation =
      (tokenAt f x).isTerminateInterpretation := by
    intro x; obtain ⟨s', h⟩ := hfld x; rw [h]
  have hN : ∀ x, (tokenAt f1 x).nextTokens = (tokenAt f x).nextTokens := by
    intro x; obtain ⟨s', h⟩ := hfld x; rw [h]
  have hlen1 : f1.lines.length = f.lines.length := by
    have := visit_lines_length f start startdur
    rw [hf1] at this
    exact this
  have hne_owner : ∀ x ∈ rest, (tokenAt f x).owner ≠ (tokenAt f start).owner := by
    intro x hx heq
    exact (List.nodup_cons.mp hdistinct).1 (List.mem_map.mpr ⟨x, hx, heq⟩)
  have hne : ∀ x ∈ rest, x ≠ start := fun x hx heq => hne_owner x hx (by rw [heq])
  obtain ⟨f2, h1, h2, h3, h4, h5⟩ := primaryWalk_unsplit rest start f1 (tokenAt f start).state
    (addPositive startdur (tokenAt f1 start).duration) n (by omega)
    ((isUnsplitTrack_congr f f1 hN _).mpr htrack)
    (fun x hx => by
      have := visit_state_of_ne f start x startdur (hne x hx)
      rw [hf1] at this
      rw [this]; exact hstate x hx)
    (fun x hx => by
      rw [hO, hlen1, hv2, if_neg (fun h => hne_owner x hx h.1)]
      exact hlines x (by simp [hx]))
    (by simp only [hO]; exact hdistinct)
    (fun x hx => by rw [hT, hD]; exact hterm x hx)
    (addPositive_nonneg _ _ hstart)
    (fun ht => by
      rw [hT] at ht
      rw [hO, hD, hv2, if_pos ⟨rfl, hvalid, Or.inl ht⟩,
        addPositive_of_nonpos _ _ (hterm start (by simp) ht)])
  have hN2 : ∀ x, (tokenAt f2 x).nextTokens = (tokenAt f x).nextTokens := by
    intro x; obtain ⟨s', h⟩ := h2 x; rw [h, hN]
  refine ⟨f2, ?_, ?_⟩
  · simp only [prepareDurations, ne_eq, not_true_eq_false, if_false, hf1, h1]
    exact secondaryWalk_unsplit rest start f2 _ _ n (by omega)
      ((isUnsplitTrack_congr f f2 hN2 _).mpr htrack)
  · intro i hi hc
    cases i with
    | zero =>
      show (lineAt f2.lines (tokenAt f start).owner).durationFromStart = _
      rw [h4 _ (by simp only [hO]; exact (List.nodup_cons.mp hdistinct).1), hv2,
        if_pos ⟨rfl, hvalid, hc⟩]
      simp [positiveDurationSum]
    | succ i' =>
      have hi' : i' < rest.length := by simpa using hi
      show (lineAt f2.lines (tokenAt f (rest.get ⟨i', hi'⟩)).owner).durationFromStart = _
      have h6 := h5 i' hi' (by rw [hT, hD]; exact hc)
      rw [hO] at h6
      rw [h6, hD, addPositive_eq]
      simp only [positiveDurationSum, hD, List.take_succ_cons, List.map_cons, List.sum_cons]
      ring

/-- C6: primary propagation on a rhythmic track without split, none of whose
lines has a start time yet and all of whose tokens are unvisited: with enough
fuel `assignDurationsToTrack(start, 0)` returns true, and the line of every
token of the track that has a non-negative duration or is a terminator gets
the sum of the positive durations of the tokens before it. -/
theorem assignDurationsToTrack_unsplit (f : HumdrumFile) (start : Nat)
    (rest : List Nat) (fuel : Nat)
    (hfuel : rest.length + 2 ≤ fuel)
    (hrhythm : (tokenAt f start).hasRhythm = true)
    (htrack : isUnsplitTrack f (start :: rest))
    (hstate : ∀ t ∈ rest, (tokenAt f t).state = (tokenAt f start).state)
    (hlines : ∀ t ∈ start :: rest,
      (lineAt f.lines (tokenAt f t).owner).durationFromStart < 0 ∧
        (tokenAt f t).owner < f.lines.length)
    (hdistinct : ((start :: rest).map fun t => (tokenAt f t).owner).Nodup)
    (hterm : ∀ t ∈ start :: rest, (tokenAt f t).isTerminateInterpretation = true →
      (tokenAt f t).duration ≤ 0) :
    ∃ f', assignDurationsToTrack fuel f start 0 = .done (true, f') ∧
      ∀ (i : Nat) (hi : i < (start :: rest).length),
        ((tokenAt f ((start :: rest).get ⟨i, hi⟩)).isTerminateInterpretation = true ∨
          0 ≤ (tokenAt f ((start :: rest).get ⟨i, hi⟩)).duration) →
        (lineAt f'.lines (tokenAt f ((start :: rest).get ⟨i, hi⟩)).owner).durationFromStart =
          positiveDurationSum f ((start :: rest).take i) := by
  obtain ⟨f', h1, h2⟩ := assignDurationsToTrack_unsplit_from f start rest 0 fuel hfuel
    (le_refl _) htrack hstate hlines hdistinct hterm
  refine ⟨f', ?_, fun i hi hc => ?_⟩
  · unfold assignDurationsToTrack
    simp only [hrhythm, Bool.not_true, Bool.false_eq_true, if_false]
    exact h1
  · rw [h2 i hi hc, zero_add]

/-- On `**kern`, `4c`, `8d`, `*-` the lines get the times 0, 1 and 3/2. -/
theorem assignDurationsToTrack_unsplit_witness :
    isUnsplitTrack c6File [0, 1, 2, 3] ∧
    ∃ f', assignDurationsToTrack 5 c6File 0 0 = .done (true, f') ∧
      ∀ (i : Nat) (hi : i < [0, 1, 2, 3].length),
        ((tokenAt c6File ([0, 1, 2, 3].get ⟨i, hi⟩)).isTerminateInterpretation = true ∨
          0 ≤ (tokenAt c6File ([0, 1, 2, 3].get ⟨i, hi⟩)).duration) →
        (lineAt f'.lines (tokenAt c6File ([0, 1, 2, 3].get ⟨i, hi⟩)).owner).durationFromStart =
          positiveDurationSum c6File ([0, 1, 2, 3].take i) :=
  ⟨by decide!,
    assignDurationsToTrack_unsplit c6File 0 [1, 2, 3] 5 (by decide) (by decide!) (by decide!)
      (by decide!) (by decide!) (by decide!) (by decide!)⟩

/-- C7 fails on `c7File`: propagation from the start token returns true, token 6
(`4e`) is reachable from the start token and was unvisited, and its visited
marker has not been advanced. -/
theorem assignDurationsToTrack_skips_nested_branch :
    (tokenAt c7File 0).hasRhythm = true ∧
    (∀ t ∈ reachableTokens c7File 6 0, (tokenAt c7File t).state = (tokenAt c7File 0).state) ∧
    assignDurationsToTrack 50 c7File 0 0 = .done (true, c7After) ∧
    6 ∈ reachableTokens c7File 6 0 ∧
    (tokenAt c7After 6).state = (tokenAt c7File 6).state ∧
    (tokenAt c7After 5).state = (tokenAt c7File 5).state + 1 := by
  decide!

/-- A token whose visited marker differs from the state of the run ends the
walk with `return true` and the file is left as it is, whatever the running
sum is; on the first visit of a token that is a terminator or has a
non-negative duration, on a line whose known value differs from the running
sum, propagation returns false. -/
theorem prepareDurations_revisit_accepted (f : HumdrumFile) (state : Int) (d : HumNum)
    (fuel : Nat) :
    (∀ token, state ≠ (tokenAt f token).state →
      prepareDurations (fuel + 1) f token state d = .done (true, f)) ∧
    (∀ token next others, (tokenAt f token).nextTokens = next :: others →
      state ≠ (tokenAt f next).state →
      primaryWalk (fuel + 1) f token state d = .done (some true, f)) ∧
    (∀ token, state = (tokenAt f token).state →
      ((tokenAt f token).isTerminateInterpretation = true ∨ 0 ≤ (tokenAt f token).duration) →
      0 ≤ (lineAt f.lines (tokenAt f token).owner).durationFromStart →
      (lineAt f.lines (tokenAt f token).owner).durationFromStart ≠ d →
      prepareDurations (fuel + 1) f token state d = .done (false, incrementState f token)) ∧
    (∀ token next others, (tokenAt f token).nextTokens = next :: others →
      state = (tokenAt f next).state →
      ((tokenAt f next).isTerminateInterpretation = true ∨ 0 ≤ (tokenAt f next).duration) →
      0 ≤ (lineAt f.lines (tokenAt f next).owner).durationFromStart →
      (lineAt f.lines (tokenAt f next).owner).durationFromStart ≠ d →
      primaryWalk (fuel + 1) f token state d = .done (some false, incrementState f next)) := by
  have hmis : ∀ t, ((tokenAt f t).isTerminateInterpretation = true ∨ 0 ≤ (tokenAt f t).duration) →
      0 ≤ (lineAt f.lines (tokenAt f t).owner).durationFromStart →
      (lineAt f.lines (tokenAt f t).owner).durationFromStart ≠ d →
      setLineDurationFromStart (incrementState f t) t d = (false, incrementState f t) := by
    intro t hc hk hne
    obtain ⟨s, hs⟩ := tokenAt_incrementState_fields f t t
    have hl : (incrementState f t).lines = f.lines := rfl
    rw [setLineDurationFromStart_of_rhythmic _ t d (by rw [hs]; exact hc), hs, hl,
      if_neg (not_lt.mpr hk), if_pos hne]
  refine ⟨?_, ?_, ?_, ?_⟩
  · intro token h
    simp only [prepareDurations, h, ne_eq, not_false_eq_true, if_true]
  · intro token next others hn h
    simp only [primaryWalk, hn, h, ne_eq, not_false_eq_true, if_true]
  · intro token h hc hk hne
    simp only [prepareDurations, h, ne_eq, not_true_eq_false, if_false, hmis token hc hk hne]
  · intro token next others hn h hc hk hne
    simp only [primaryWalk, hn, h, ne_eq, not_true_eq_false, if_false, hmis next hc hk hne]

/-- The search loop of `analyzeRhythmOfFloatingSpine` along tokens on lines
without value, up to a token on a known line. -/
theorem floatingWalk_reaches (f : HumdrumFile) (a : Nat) (passed : List Nat) :
    ∀ (t : Nat) (d : HumNum) (fuel : Nat), passed.length < fuel →
      reachesByFirstNext f t passed a →
      (∀ p ∈ passed, tokenDurationFromStart f p < 0) →
      0 ≤ tokenDurationFromStart f a →
      floatingWalk fuel f t d =
        .done (tokenDurationFromStart f a, d + positiveDurationSum f passed) := by
  induction passed with
  | nil =>
    intro t d fuel hfuel hreach _ hknown
    obtain ⟨n, rfl⟩ : ∃ n, fuel = n + 1 := ⟨fuel - 1, by simp at hfuel; omega⟩
    have hta : t = a := hreach
    subst hta
    simp [floatingWalk, hknown, positiveDurationSum]
  | cons p rest ih =>
    intro t d fuel hfuel hreach hunknown hknown
    obtain ⟨n, rfl⟩ : ∃ n, fuel = n + 1 := ⟨fuel - 1, by simp at hfuel; omega⟩
    obtain ⟨hp, hrest⟩ := hreach
    subst hp
    have hneg : ¬ 0 ≤ tokenDurationFromStart f p := not_le.mpr (hunknown p (by simp))
    cases hn : (tokenAt f p).nextTokens with
    | nil => rw [hn] at hrest; exact absurd hrest (by simp)
    | cons u more =>
      rw [hn] at hrest
      simp only [floatingWalk, hneg, if_false, hn]
      rw [ih u _ n (by simp at hfuel; omega) hrest
        (fun q hq => hunknown q (by simp [hq])) hknown, addPositive_eq]
      simp only [positiveDurationSum, List.map_cons, List.sum_cons]
      congr 2
      ring

/-- When the walk from the start token of a floating track along first
next-token links passes the tokens `passed`, all on lines without value, and
reaches a token on a line with the known value `v`, and `v` is not zero, the
call is the propagation of the track from the offset `v - a`, `a` being the
sum of the positive durations of the tokens passed. -/
theorem analyzeRhythmOfFloatingSpine_offset (f : HumdrumFile) (spinestart anchor : Nat)
    (passed : List Nat) (fuel : Nat)
    (hfuel : passed.length < fuel)
    (hreach : reachesByFirstNext f spinestart passed anchor)
    (hunknown : ∀ p ∈ passed, tokenDurationFromStart f p < 0)
    (hknown : 0 ≤ tokenDurationFromStart f anchor)
    (hnonzero : tokenDurationFromStart f anchor ≠ 0) :
    analyzeRhythmOfFloatingSpine fuel f spinestart =
      assignDurationsToTrack fuel f spinestart
        (tokenDurationFromStart f anchor - positiveDurationSum f passed) := by
  unfold analyzeRhythmOfFloatingSpine
  cases passed with
  | nil =>
    have hsa : spinestart = anchor := hreach
    subst hsa
    simp [hknown, hnonzero, positiveDurationSum]
  | cons p rest =>
    have hw := floatingWalk_reaches f anchor (p :: rest) spinestart 0 fuel hfuel hreach
      hunknown hknown
    obtain ⟨hp, hrest⟩ := hreach
    subst hp
    have hneg : ¬ 0 ≤ tokenDurationFromStart f p := not_le.mpr (hunknown p (by simp))
    have hcount : 0 < (tokenAt f p).nextTokens.length := by
      cases hn : (tokenAt f p).nextTokens with
      | nil => rw [hn] at hrest; exact absurd hrest (by simp)
      | cons u more => simp
    simp only [hneg, if_false, hcount, if_true, hw, hnonzero, zero_add]

/-- The search loop runs off the end of a track none of whose tokens lies on a
known line: the token after the last one is dereferenced. -/
theorem floatingWalk_fault (f : HumdrumFile) (last : Nat) (passed : List Nat) :
    ∀ (t : Nat) (d : HumNum) (fuel : Nat), passed.length < fuel →
      reachesByFirstNext f t passed last →
      (∀ p ∈ passed, tokenDurationFromStart f p < 0) →
      tokenDurationFromStart f last < 0 → (tokenAt f last).nextTokens = [] →
      floatingWalk fuel f t d = .fault := by
  induction passed with
  | nil =>
    intro t d fuel hfuel hreach _ hneg hend
    obtain ⟨n, rfl⟩ : ∃ n, fuel = n + 1 := ⟨fuel - 1, by simp at hfuel; omega⟩
    have hta : t = last := hreach
    subst hta
    simp [floatingWalk, not_le.mpr hneg, hend]
  | cons p rest ih =>
    intro t d fuel hfuel hreach hunknown hneg hend
    obtain ⟨n, rfl⟩ : ∃ n, fuel = n + 1 := ⟨fuel - 1, by simp at hfuel; omega⟩
    obtain ⟨hp, hrest⟩ := hreach
    subst hp
    have hneg' : ¬ 0 ≤ tokenDurationFromStart f p := not_le.mpr (hunknown p (by simp))
    cases hn : (tokenAt f p).nextTokens with
    | nil => rw [hn] at hrest; exact absurd hrest (by simp)
    | cons u more =>
      rw [hn] at hrest
      simp only [floatingWalk, hneg', if_false, hn]
      exact ih u _ n (by simp at hfuel; omega) hrest
        (fun q hq => hunknown q (by simp [hq])) hneg hend

/-- A floating track with at least two tokens, none of them on a known line:
`analyzeRhythmOfFloatingSpine` does not return (with enough fuel the outcome is
the dereference of a missing token). -/
theorem analyzeRhythmOfFloatingSpine_runs_off_end (f : HumdrumFile)
    (spinestart last : Nat) (passed : List Nat) (fuel : Nat)
    (hfuel : passed.length < fuel)
    (hne : passed ≠ [])
    (hreach : reachesByFirstNext f spinestart passed last)
    (hunknown : ∀ p ∈ passed, tokenDurationFromStart f p < 0)
    (hlast : tokenDurationFromStart f last < 0)
    (hend : (tokenAt f last).nextTokens = []) :
    analyzeRhythmOfFloatingSpine fuel f spinestart = .fault := by
  have hw := floatingWalk_fault f last passed spinestart 0 fuel hfuel hreach hunknown hlast hend
  unfold analyzeRhythmOfFloatingSpine
  cases passed with
  | nil => exact absurd rfl hne
  | cons p rest =>
    obtain ⟨hp, hrest⟩ := hreach
    subst hp
    have hneg : ¬ 0 ≤ tokenDurationFromStart f p := not_le.mpr (hunknown p (by simp))
    have hcount : 0 < (tokenAt f p).nextTokens.length := by
      cases hn : (tokenAt f p).nextTokens with
      | nil => rw [hn] at hrest; exact absurd hrest (by simp)
      | cons u more => simp
    simp only [hneg, if_false, hcount, if_true, hw]

/-- C10 fails on `c10File`: the floating track is token 4 followed by its
terminator 6, neither on a line with a value; whatever the fuel, the call does
not return false: from fuel 2 on it dereferences the missing token after the
terminator. -/
theorem analyzeRhythmOfFloatingSpine_no_anchor_fault :
    reachesByFirstNext c10File 4 [4] 6 ∧ (tokenAt c10File 6).nextTokens = [] ∧
    tokenDurationFromStart c10File 4 < 0 ∧ tokenDurationFromStart c10File 6 < 0 ∧
    (∀ fuel, analyzeRhythmOfFloatingSpine (fuel + 2) c10File 4 = .fault) ∧
    (∀ fuel r, analyzeRhythmOfFloatingSpine fuel c10File 4 ≠ .done r) := by
  have h : ∀ fuel, analyzeRhythmOfFloatingSpine (fuel + 2) c10File 4 = .fault :=
    fun fuel => analyzeRhythmOfFloatingSpine_runs_off_end c10File 4 6 [4] (fuel + 2)
      (by simp) (by simp) (by decide!) (by decide!) (by decide!) (by decide!)
  refine ⟨by decide!, by decide!, by decide!, by decide!, h, fun fuel r => ?_⟩
  have h0 : analyzeRhythmOfFloatingSpine 0 c10File 4 = .outOfFuel := by decide!
  have h1 : analyzeRhythmOfFloatingSpine 1 c10File 4 = .outOfFuel := by decide!
  match fuel with
  | 0 => rw [h0]; exact fun e => Run.noConfusion e
  | 1 => rw [h1]; exact fun e => Run.noConfusion e
  | n + 2 => rw [h n]; exact fun e => Run.noConfusion e

/-- C4 as stated fails on `c4File`: `analyzeRhythm` returns true, and line 2
gets the duration-from-start 2 while line 3 gets 1. -/
theorem c4_counterexample :
    analyzeRhythm 20 (fun _ => true) c4File = .done (true, c4After) ∧
    c4After.lines.map (fun l => l.durationFromStart) = [0, 0, 2, 1, 2, 4] ∧
    ¬ ((lineAt c4After.lines 2).durationFromStart ≤ (lineAt c4After.lines 3).durationFromStart) := by
  decide!

/-- The step of the backward loop of `fillInNegativeStartTimes` at line `i`
changes at most the duration-from-start of line `i`. -/
theorem fillBackward_step_value (lines : List HumdrumLine) (i : Nat) (lastdur : HumNum)
    (hi : i < lines.length) (t : Nat) :
    (lineAt (if (lineAt lines i).durationFromStart < 0 ∧ 0 ≤ lastdur then
        setDurationFromStart lines i lastdur else lines) t).durationFromStart =
      if t = i then
        (if (lineAt lines i).durationFromStart < 0 ∧ 0 ≤ lastdur then lastdur
          else (lineAt lines i).durationFromStart)
      else (lineAt lines t).durationFromStart := by
  by_cases hc : (lineAt lines i).durationFromStart < 0 ∧ 0 ≤ lastdur
  · rw [if_pos hc, if_pos hc, lineAt_setDurationFromStart]
    by_cases ht : t = i
    · subst ht; simp [hi]
    · simp [ht]
  · rw [if_neg hc, if_neg hc]
    by_cases ht : t = i
    · subst ht; simp
    · simp [ht]

theorem fillBackward_step_length (lines : List HumdrumLine) (i : Nat) (lastdur : HumNum) :
    (if (lineAt lines i).durationFromStart < 0 ∧ 0 ≤ lastdur then
        setDurationFromStart lines i lastdur else lines).length = lines.length := by
  split_ifs
  · exact length_setDurationFromStart _ _ _
  · rfl

/-- The backward loop of `fillInNegativeStartTimes`, started on lines whose
known values are non-decreasing, leaves lines that are non-negative up to some
line and negative after it, the non-negative values non-decreasing. -/
theorem fillBackward_inv (orig : List HumdrumLine) (hmono : knownMonotone orig) :
    ∀ (i : Nat) (lastdur : HumNum) (lines : List HumdrumLine),
      i ≤ orig.length → lines.length = orig.length →
      (∀ t, t < i → (lineAt lines t).durationFromStart = (lineAt orig t).durationFromStart) →
      (∀ t u, i ≤ t → t < u → u < orig.length →
        0 ≤ (lineAt lines t).durationFromStart → 0 ≤ (lineAt lines u).durationFromStart →
        (lineAt lines t).durationFromStart ≤ (lineAt lines u).durationFromStart) →
      (∀ t u, i ≤ t → t ≤ u → u < orig.length →
        0 ≤ (lineAt lines u).durationFromStart → 0 ≤ (lineAt lines t).durationFromStart) →
      (∀ t u, i ≤ t → t < orig.length → u < i →
        0 ≤ (lineAt lines t).durationFromStart → 0 ≤ (lineAt orig u).durationFromStart →
        (lineAt orig u).durationFromStart ≤ (lineAt lines t).durationFromStart) →
      (0 ≤ lastdur → ∀ u, u < i → 0 ≤ (lineAt orig u).durationFromStart →
        (lineAt orig u).durationFromStart ≤ lastdur) →
      (0 ≤ lastdur → ∀ t, i ≤ t → t < orig.length →
        0 ≤ (lineAt lines t).durationFromStart → lastdur ≤ (lineAt lines t).durationFromStart) →
      (∀ u, i ≤ u → u < orig.length → 0 ≤ (lineAt lines u).durationFromStart → 0 ≤ lastdur) →
      (fillBackward i lastdur lines).2.length = orig.length ∧
      (∀ t u, t < u → u < orig.length →
        0 ≤ (lineAt (fillBackward i lastdur lines).2 t).durationFromStart →
        0 ≤ (lineAt (fillBackward i lastdur lines).2 u).durationFromStart →
        (lineAt (fillBackward i lastdur lines).2 t).durationFromStart ≤
          (lineAt (fillBackward i lastdur lines).2 u).durationFromStart) ∧
      (∀ t u, t ≤ u → u < orig.length →
        0 ≤ (lineAt (fillBackward i lastdur lines).2 u).durationFromStart →
        0 ≤ (lineAt (fillBackward i lastdur lines).2 t).durationFromStart) := by
  intro i
  induction i with
  | zero =>
    intro lastdur lines _ hlen _ hS1 hS2 _ _ _ _
    exact ⟨hlen, fun t u htu hu => hS1 t u (Nat.zero_le _) htu hu,
      fun t u htu hu => hS2 t u (Nat.zero_le _) htu hu⟩
  | succ i ih =>
    intro lastdur lines hi hlen hpre hS1 hS2 hS3 hL1 hL2 hL3
    have hil : i < lines.length := by omega
    have hio : i < orig.length := by omega
    have hoi : (lineAt lines i).durationFromStart = (lineAt orig i).durationFromStart :=
      hpre i (by omega)
    simp only [fillBackward]
    have hval := fillBackward_step_value lines i lastdur hil
    have hlen1 := fillBackward_step_length lines i lastdur
    generalize (if (lineAt lines i).durationFromStart < 0 ∧ 0 ≤ lastdur then
        setDurationFromStart lines i lastdur else lines) = lines1 at hval hlen1
    -- the value now on line `i`
    have hvi : (lineAt lines1 i).durationFromStart =
        if (lineAt orig i).durationFromStart < 0 ∧ 0 ≤ lastdur then lastdur
        else (lineAt orig i).durationFromStart := by
      rw [hval i, if_pos rfl, hoi]
    have hvt : ∀ t, t ≠ i →
        (lineAt lines1 t).durationFromStart = (lineAt lines t).durationFromStart := by
      intro t ht; rw [hval t, if_neg ht]
    rw [hoi]
    apply ih _ lines1 (by omega) (by rw [hlen1, hlen])
    · intro t ht
      rw [hvt t (by omega)]
      exact hpre t (by omega)
    · -- S1
      intro t u hit htu hu h0t h0u
      rw [hvt u (by omega)] at h0u ⊢
      by_cases hti : t = i
      · subst hti
        rw [hvi] at h0t ⊢
        split_ifs at h0t ⊢ with hc
        · exact hL2 hc.2 u (by omega) hu h0u
        · exact hS3 u t (by omega) hu (by omega) h0u h0t
      · rw [hvt t hti] at h0t ⊢
        exact hS1 t u (by omega) htu hu h0t h0u
    · -- S2
      intro t u hit htu hu h0u
      by_cases hti : t = i
      · subst hti
        rw [hvi]
        by_cases hut : u = t
        · subst hut; rw [hvi] at h0u; exact h0u
        · rw [hvt u hut] at h0u
          have hl := hL3 u (by omega) hu h0u
          split_ifs with hc
          · exact hl
          · by_contra hneg
            exact hc ⟨not_le.mp hneg, hl⟩
      · rw [hvt t hti]
        rw [hvt u (by omega)] at h0u
        exact hS2 t u (by omega) htu hu h0u
    · -- S3
      intro t u hit ht hui h0t h0u
      by_cases hti : t = i
      · subst hti
        rw [hvi] at h0t ⊢
        split_ifs at h0t ⊢ with hc
        · exact hL1 hc.2 u (by omega) h0u
        · exact hmono u t hui hio h0u h0t
      · rw [hvt t hti] at h0t ⊢
        exact hS3 t u (by omega) ht (by omega) h0t h0u
    · -- L1
      intro hl u hui h0u
      split_ifs at hl ⊢ with hc
      · exact hmono u i hui hio h0u hc
      · exact hL1 hl u (by omega) h0u
    · -- L2
      intro hl t hit ht h0t
      by_cases hti : t = i
      · subst hti
        rw [hvi] at h0t ⊢
        split_ifs at hl h0t ⊢ with h1 h2 h2
        · exact absurd h1 (not_le.mpr h2.1)
        · exact le_refl _
        · exact le_refl _
        · exact absurd h0t h1
      · rw [hvt t hti] at h0t ⊢
        split_ifs at hl ⊢ with h1
        · exact hS3 t i (by omega) ht (by omega) h0t h1
        · exact hL2 hl t (by omega) ht h0t
    · -- L3
      intro u hiu hu h0u
      split_ifs with h1
      · exact h1
      · by_cases hui : u = i
        · subst hui
          rw [hvi] at h0u
          split_ifs at h0u with hc
          · exact hc.2
          · exact absurd h0u h1
        · rw [hvt u hui] at h0u
          exact hL3 u (by omega) hu h0u

/-- The forward loop of `fillInNegativeStartTimes`, started on lines that are
non-negative up to some line and negative after it, with non-decreasing
non-negative values, ends with non-decreasing values on all lines. -/
theorem fillForward_inv (n : Nat) :
    ∀ (fuel i : Nat) (lastdur : HumNum) (lines : List HumdrumLine),
      i + fuel = n → lines.length = n →
      (∀ t u, t < u → u < i →
        (lineAt lines t).durationFromStart ≤ (lineAt lines u).durationFromStart) →
      (∀ t, t < i → (lineAt lines t).durationFromStart ≤ lastdur) →
      (∀ t u, t < i → i ≤ u → u < n → 0 ≤ (lineAt lines u).durationFromStart →
        (lineAt lines t).durationFromStart ≤ (lineAt lines u).durationFromStart) →
      (∀ t u, i ≤ t → t < u → u < n →
        0 ≤ (lineAt lines t).durationFromStart → 0 ≤ (lineAt lines u).durationFromStart →
        (lineAt lines t).durationFromStart ≤ (lineAt lines u).durationFromStart) →
      (∀ t u, i ≤ t → t ≤ u → u < n →
        0 ≤ (lineAt lines u).durationFromStart → 0 ≤ (lineAt lines t).durationFromStart) →
      (fillForward fuel i lastdur lines).length = n ∧
      ∀ t u, t < u → u < n →
        (lineAt (fillForward fuel i lastdur lines) t).durationFromStart ≤
          (lineAt (fillForward fuel i lastdur lines) u).durationFromStart := by
  intro fuel
  induction fuel with
  | zero =>
    intro i lastdur lines hi hlen hG1 _ _ _ _
    exact ⟨hlen, fun t u htu hu => hG1 t u htu (by omega)⟩
  | succ fuel ih =>
    intro i lastdur lines hi hlen hG1 hG2 hG3 hG4 hG5
    have hil : i < lines.length := by omega
    simp only [fillForward]
    by_cases h0 : 0 ≤ (lineAt lines i).durationFromStart
    · rw [if_pos h0]
      apply ih (i + 1) _ lines (by omega) hlen
      · intro t u htu hu
        by_cases hui : u = i
        · subst hui; exact hG3 t u htu (le_refl _) (by omega) h0
        · exact hG1 t u htu (by omega)
      · intro t ht
        by_cases hti : t = i
        · subst hti; exact le_refl _
        · exact hG3 t i (by omega) (le_refl _) (by omega) h0
      · intro t u ht hu hun h0u
        by_cases hti : t = i
        · subst hti; exact hG4 t u (le_refl _) (by omega) hun h0 h0u
        · exact hG3 t u (by omega) (by omega) hun h0u
      · intro t u ht htu hu
        exact hG4 t u (by omega) htu hu
      · intro t u ht htu hu
        exact hG5 t u (by omega) htu hu
    · rw [if_neg h0]
      have hval : ∀ t, (lineAt (setDurationFromStart lines i lastdur) t).durationFromStart =
          if t = i then lastdur else (lineAt lines t).durationFromStart := by
        intro t
        rw [lineAt_setDurationFromStart]
        by_cases hti : t = i
        · subst hti; simp [hil]
        · simp [hti]
      have hneg_after : ∀ u, i ≤ u → u < n → ¬ 0 ≤ (lineAt lines u).durationFromStart :=
        fun u hiu hu h0u => h0 (hG5 i u (le_refl _) hiu hu h0u)
      apply ih (i + 1) _ _ (by omega) (by rw [length_setDurationFromStart, hlen])
      · intro t u htu hu
        rw [hval t, hval u, if_neg (by omega)]
        by_cases hui : u = i
        · rw [if_pos hui]; exact hG2 t (by omega)
        · rw [if_neg hui]; exact hG1 t u htu (by omega)
      · intro t ht
        rw [hval t]
        by_cases hti : t = i
        · rw [if_pos hti]
        · rw [if_neg hti]; exact hG2 t (by omega)
      · intro t u ht hu hun h0u
        rw [hval u, if_neg (by omega)] at h0u
        exact absurd h0u (hneg_after u (by omega) hun)
      · intro t u ht htu hu h0t
        rw [hval t, if_neg (by omega)] at h0t
        exact absurd h0t (hneg_after t (by omega) (by omega))
      · intro t u ht htu hu h0u
        rw [hval u, if_neg (by omega)] at h0u
        exact absurd h0u (hneg_after u (by omega) hu)

/-- After `fillInNegativeStartTimes` the duration-from-start values are
non-decreasing over all lines, when the known values were non-decreasing
before. -/
theorem fillInNegativeStartTimes_monotone (lines : List HumdrumLine)
    (hmono : knownMonotone lines) :
    (fillInNegativeStartTimes lines).length = lines.length ∧
    ∀ t u, t < u → u < lines.length →
      (lineAt (fillInNegativeStartTimes lines) t).durationFromStart ≤
        (lineAt (fillInNegativeStartTimes lines) u).durationFromStart := by
  obtain ⟨hlen, hS1, hS2⟩ := fillBackward_inv lines hmono lines.length (-1) lines
    (le_refl _) rfl (fun t _ => rfl)
    (fun t u hit htu hu => absurd hu (by omega))
    (fun t u hit htu hu => absurd hu (by omega))
    (fun t u hit ht => absurd ht (by omega))
    (fun h => absurd h (by norm_num))
    (fun h => absurd h (by norm_num))
    (fun u hiu hu => absurd hu (by omega))
  unfold fillInNegativeStartTimes
  simp only []
  rw [hlen]
  exact fillForward_inv lines.length lines.length 0 _ _ (by omega) hlen
    (fun t u _ hu => absurd hu (by omega))
    (fun t ht => absurd ht (by omega))
    (fun t u ht => absurd ht (by omega))
    (fun t u _ htu hu => hS1 t u htu hu)
    (fun t u _ htu hu => hS2 t u htu hu)

theorem knownMonotone_setDurationFromStart (lines : List HumdrumLine) (l : Nat) (v : HumNum)
    (hmono : knownMonotone lines)
    (hlo : ∀ t, t < l → 0 ≤ (lineAt lines t).durationFromStart →
      (lineAt lines t).durationFromStart ≤ v)
    (hhi : ∀ u, l < u → u < lines.length → 0 ≤ (lineAt lines u).durationFromStart →
      v ≤ (lineAt lines u).durationFromStart) :
    knownMonotone (setDurationFromStart lines l v) := by
  have hval : ∀ t, t ≠ l → (lineAt (setDurationFromStart lines l v) t).durationFromStart =
      (lineAt lines t).durationFromStart := by
    intro t ht
    rw [lineAt_setDurationFromStart]
    simp [ht]
  intro t u htu hu h0t h0u
  rw [length_setDurationFromStart] at hu
  by_cases hl : l < lines.length
  · have hvl : (lineAt (setDurationFromStart lines l v) l).durationFromStart = v := by
      rw [lineAt_setDurationFromStart]
      simp [hl]
    by_cases htl : t = l
    · subst htl
      rw [hvl]
      rw [hval u (by omega)] at h0u ⊢
      exact hhi u htu hu h0u
    · rw [hval t htl] at h0t ⊢
      by_cases hul : u = l
      · subst hul
        rw [hvl]
        exact hlo t htu h0t
      · rw [hval u hul] at h0u ⊢
        exact hmono t u htu hu h0t h0u
  · rw [hval t (by omega)] at h0t ⊢
    rw [hval u (by omega)] at h0u ⊢
    exact hmono t u htu hu h0t h0u

/-- The inner loop of `analyzeNullLineRhythms` keeps the known values
non-decreasing when it fills unset lines, in ascending order, with values that
rise in steps of `d ≥ 0` from above the known values before them to below the
known values after them. -/
theorem assignNullLines_knownMonotone (s d : HumNum) (hd : 0 ≤ d) (nl : List Nat) :
    ∀ (j : Nat) (lines : List HumdrumLine),
      nl.Pairwise (· < ·) → knownMonotone lines →
      (∀ x ∈ nl, (lineAt lines x).durationFromStart < 0) →
      (∀ x ∈ nl, ∀ t, t < x → 0 ≤ (lineAt lines t).durationFromStart →
        (lineAt lines t).durationFromStart ≤ s + d * (j : HumNum)) →
      (∀ x ∈ nl, ∀ u, x < u → u < lines.length → 0 ≤ (lineAt lines u).durationFromStart →
        s + d * ((j : HumNum) + (nl.length : HumNum)) ≤ (lineAt lines u).durationFromStart) →
      knownMonotone (assignNullLines nl j s d lines) := by
  induction nl with
  | nil => intro j lines _ hmono _ _ _; exact hmono
  | cons l rest ih =>
    intro j lines hpw hmono hneg hlo hhi
    simp only [assignNullLines]
    obtain ⟨hl, hpw'⟩ := List.pairwise_cons.mp hpw
    have hval : ∀ t, t ≠ l →
        (lineAt (setDurationFromStart lines l (s + d * ((j : HumNum) + 1))) t).durationFromStart =
          (lineAt lines t).durationFromStart := by
      intro t ht
      rw [lineAt_setDurationFromStart]
      simp [ht]
    have hstep : s + d * (j : HumNum) ≤ s + d * ((j : HumNum) + 1) := by nlinarith
    have hlen1 : (1 : HumNum) ≤ ((l :: rest).length : HumNum) := by
      simp only [List.length_cons, Nat.cast_add, Nat.cast_one]
      have : (0 : HumNum) ≤ (rest.length : HumNum) := Nat.cast_nonneg _
      linarith
    have hceil : s + d * ((j : HumNum) + 1) ≤ s + d * ((j : HumNum) + ((l :: rest).length : HumNum)) := by
      nlinarith
    apply ih (j + 1)
    · exact hpw'
    · exact knownMonotone_setDurationFromStart lines l _ hmono
        (fun t ht h0 => le_trans (hlo l (by simp) t ht h0) hstep)
        (fun u hu hul h0 => le_trans hceil (hhi l (by simp) u hu hul h0))
    · intro x hx
      rw [hval x (by have := hl x hx; omega)]
      exact hneg x (by simp [hx])
    · intro x hx t htx h0
      push_cast
      by_cases htl : t = l
      · subst htl
        by_cases hlt : t < lines.length
        · rw [lineAt_setDurationFromStart]
          simp [hlt]
        · rw [lineAt_setDurationFromStart] at h0 ⊢
          simp only [hlt, and_false, if_false] at h0 ⊢
          exact absurd h0 (not_le.mpr (hneg t (by simp)))
      · rw [hval t htl] at h0 ⊢
        exact le_trans (hlo x (by simp [hx]) t htx h0) hstep
    · intro x hx u hxu hu h0
      rw [length_setDurationFromStart] at hu
      have hul : u ≠ l := by have := hl x hx; omega
      rw [hval u hul] at h0 ⊢
      have := hhi x (by simp [hx]) u hxu hu h0
      simp only [List.length_cons, Nat.cast_add, Nat.cast_one] at this
      push_cast
      linarith

theorem isKnownLine_nonneg {l : HumdrumLine} (h : isKnownLine l = true) :
    0 ≤ l.durationFromStart := by
  unfold isKnownLine at h
  simp only [Bool.and_eq_true, decide_eq_true_eq] at h
  exact h.2

theorem interpolation_ceiling (s e : HumNum) (n : Nat) (h : s ≤ e) :
    0 ≤ (e - s) / ((n : HumNum) + 1) ∧
    s + (e - s) / ((n : HumNum) + 1) * (((0 : Nat) : HumNum) + (n : HumNum)) ≤ e := by
  have hn : (0 : HumNum) ≤ (n : HumNum) := Nat.cast_nonneg _
  have hpos : (0 : HumNum) < (n : HumNum) + 1 := by linarith
  have hd : 0 ≤ (e - s) / ((n : HumNum) + 1) := div_nonneg (by linarith) (le_of_lt hpos)
  refine ⟨hd, ?_⟩
  have h1 : (e - s) / ((n : HumNum) + 1) * ((n : HumNum) + 1) = e - s :=
    div_mul_cancel₀ _ (ne_of_gt hpos)
  push_cast
  nlinarith

/-- The scan of `analyzeNullLineRhythms` keeps the known values non-decreasing,
when the lines known at the start are lines the scan takes as known. -/
theorem analyzeNullLineRhythmsLoop_knownMonotone (orig : List HumdrumLine)
    (hanch : ∀ t, t < orig.length → 0 ≤ (lineAt orig t).durationFromStart →
      isKnownLine (lineAt orig t) = true) :
    ∀ (fuel i : Nat) (lines : List HumdrumLine) (nl : List Nat) (prev : Option Nat),
      i + fuel = orig.length → lines.length = orig.length →
      (∀ t, i ≤ t → lineAt lines t = lineAt orig t) →
      knownMonotone lines →
      nl.Pairwise (· < ·) →
      (∀ x ∈ nl, x < i ∧ (lineAt lines x).durationFromStart < 0) →
      (∀ p, prev = some p →
        p < i ∧ 0 ≤ (lineAt lines p).durationFromStart ∧ ∀ x ∈ nl, p < x) →
      (∀ t, t < i → (∀ p, prev = some p → p < t) →
        (lineAt lines t).durationFromStart < 0) →
      knownMonotone (analyzeNullLineRhythmsLoop fuel i lines nl prev).2 := by
  intro fuel
  induction fuel with
  | zero => intro i lines nl prev _ _ _ hmono _ _ _ _; exact hmono
  | succ n ih =>
    intro i lines nl prev hfuel hlen hI1 hmono hpw hnl hprev hI5
    have hio : i < orig.length := by omega
    by_cases hk : isKnownLine (lineAt lines i) = true
    · rw [analyzeNullLineRhythmsLoop_known n i lines nl prev hk]
      have h0i := isKnownLine_nonneg hk
      cases prev with
      | none =>
        exact ih (i + 1) lines [] (some i) (by omega) hlen
          (fun t ht => hI1 t (by omega)) hmono List.Pairwise.nil
          (fun x hx => absurd hx (by simp))
          (fun p hp => by
            have : i = p := Option.some.inj hp
            subst this
            exact ⟨by omega, h0i, fun x hx => absurd hx (by simp)⟩)
          (fun t ht hp => by have := hp i rfl; omega)
      | some p =>
        obtain ⟨hpi, h0p, hpnl⟩ := hprev p rfl
        have hse : (lineAt lines p).durationFromStart ≤ (lineAt lines i).durationFromStart :=
          hmono p i hpi (by omega) h0p h0i
        obtain ⟨hd, hceil⟩ := interpolation_ceiling _ _ nl.length hse
        have hframe : ∀ t, i ≤ t →
            lineAt (assignNullLines nl 0 (lineAt lines p).durationFromStart
              (((lineAt lines i).durationFromStart - (lineAt lines p).durationFromStart)
                / ((nl.length : HumNum) + 1)) lines) t = lineAt lines t := by
          intro t ht
          exact assignNullLines_frame nl _ _ _ _ t
            (fun hmem => by have := (hnl t hmem).1; omega)
        apply ih (i + 1) _ [] (some i) (by omega)
          (by rw [assignNullLines_length]; exact hlen)
        · intro t ht
          rw [hframe t (by omega)]
          exact hI1 t (by omega)
        · apply assignNullLines_knownMonotone _ _ hd nl 0 lines hpw hmono
            (fun x hx => (hnl x hx).2)
          · intro x hx t htx h0t
            have hxi := (hnl x hx).1
            rcases Nat.lt_trichotomy t p with h | h | h
            · have := hmono t p h (by omega) h0t h0p
              simp only [Nat.cast_zero, mul_zero, add_zero]
              exact this
            · subst h; simp
            · exact absurd h0t (not_le.mpr (hI5 t (by omega)
                (fun q hq => by have : p = q := Option.some.inj hq; omega)))
          · intro x hx u hxu hu h0u
            have hxi := (hnl x hx).1
            have hpx := hpnl x hx
            refine le_trans hceil ?_
            rcases Nat.lt_trichotomy u i with h | h | h
            · exact absurd h0u (not_le.mpr (hI5 u h
                (fun q hq => by have : p = q := Option.some.inj hq; omega)))
            · subst h; exact le_refl _
            · exact hmono i u h hu h0i h0u
        · exact List.Pairwise.nil
        · intro x hx; exact absurd hx (by simp)
        · intro q hq
          have : i = q := Option.some.inj hq
          subst this
          refine ⟨by omega, ?_, fun x hx => absurd hx (by simp)⟩
          rw [hframe i (le_refl _)]
          exact h0i
        · intro t ht hq
          have := hq i rfl
          omega
    · have hk' : isKnownLine (lineAt lines i) = false := by simpa using hk
      by_cases hb : isUnexpectedNegative (lineAt lines i) = true
      · have : analyzeNullLineRhythmsLoop (n + 1) i lines nl prev = (false, lines) := by
          unfold isUnexpectedNegative at hb
          simp only [Bool.and_eq_true, Bool.not_eq_true', decide_eq_true_eq] at hb
          obtain ⟨⟨⟨hs, hn⟩, hneg⟩, hd⟩ := hb
          cases prev <;> simp [analyzeNullLineRhythmsLoop, hs, hn, hneg, hd]
        rw [this]
        exact hmono
      · have hb' : isUnexpectedNegative (lineAt lines i) = false := by simpa using hb
        rw [analyzeNullLineRhythmsLoop_skip n i lines nl prev hk' hb']
        have hnegi : (lineAt lines i).durationFromStart < 0 := by
          by_contra hcon
          have h1 := hanch i hio (by rw [← hI1 i (le_refl _)]; exact not_lt.mp hcon)
          rw [← hI1 i (le_refl _), hk'] at h1
          exact Bool.noConfusion h1
        apply ih (i + 1) lines _ prev (by omega) hlen (fun t ht => hI1 t (by omega)) hmono
        · split_ifs
          · rw [List.pairwise_append]
            exact ⟨hpw, List.pairwise_singleton _ _, fun x hx y hy => by
              have := (hnl x hx).1
              simp at hy
              omega⟩
          · exact hpw
        · intro x hx
          split_ifs at hx
          · rcases List.mem_append.mp hx with hx | hx
            · exact ⟨by have := (hnl x hx).1; omega, (hnl x hx).2⟩
            · have : x = i := by simpa using hx
              subst this
              exact ⟨by omega, hnegi⟩
          · exact ⟨by have := (hnl x hx).1; omega, (hnl x hx).2⟩
        · intro p hp
          obtain ⟨h1, h2, h3⟩ := hprev p hp
          refine ⟨by omega, h2, fun x hx => ?_⟩
          split_ifs at hx
          · rcases List.mem_append.mp hx with hx | hx
            · exact h3 x hx
            · have : x = i := by simpa using hx
              omega
          · exact h3 x hx
        · intro t ht hp
          by_cases hti : t = i
          · subst hti; exact hnegi
          · exact hI5 t (by omega) hp

/-- Null-line interpolation keeps the known values non-decreasing. -/
theorem analyzeNullLineRhythms_knownMonotone (lines : List HumdrumLine)
    (hmono : knownMonotone lines)
    (hanch : ∀ t, t < lines.length → 0 ≤ (lineAt lines t).durationFromStart →
      isKnownLine (lineAt lines t) = true) :
    knownMonotone (analyzeNullLineRhythms lines).2 := by
  unfold analyzeNullLineRhythms
  exact analyzeNullLineRhythmsLoop_knownMonotone lines hanch lines.length 0 lines [] none
    (by omega) rfl (fun t _ => rfl) hmono List.Pairwise.nil
    (fun x hx => absurd hx (by simp))
    (fun p hp => Option.noConfusion hp)
    (fun t ht => absurd ht (by omega))

theorem assignLineDurationsLoop_durationFromStart (fuel : Nat) :
    ∀ (i : Nat) (lines ls : List HumdrumLine), assignLineDurationsLoop fuel i lines = some ls →
      ls.length = lines.length ∧
      ∀ t, (lineAt ls t).durationFromStart = (lineAt lines t).durationFromStart := by
  induction fuel with
  | zero =>
    intro i lines ls h
    simp only [assignLineDurationsLoop, Option.some.injEq] at h
    subst h
    exact ⟨rfl, fun t => rfl⟩
  | succ n ih =>
    intro i lines ls h
    simp only [assignLineDurationsLoop] at h
    cases h1 : lines[i]? with
    | none => simp [h1] at h
    | some li =>
      cases h2 : lines[i + 1]? with
      | none => simp [h1, h2] at h
      | some lj =>
        simp only [h1, h2] at h
        obtain ⟨hlen, hd⟩ := ih _ _ _ h
        refine ⟨by rw [hlen, length_setDuration], fun t => ?_⟩
        rw [hd t, lineAt_setDuration]
        split_ifs with hc
        · rw [hc.1]
        · rfl

/-- Function `assignLineDurations` changes no duration-from-start. -/
theorem assignLineDurations_durationFromStart (lines ls : List HumdrumLine)
    (h : assignLineDurations lines = some ls) :
    ls.length = lines.length ∧
    ∀ t, (lineAt ls t).durationFromStart = (lineAt lines t).durationFromStart := by
  unfold assignLineDurations at h
  generalize sizeMinusOne lines.length = m at h
  cases h1 : assignLineDurationsLoop m 0 lines with
  | none => rw [h1] at h; cases h
  | some l1 =>
    obtain ⟨hlen, hd⟩ := assignLineDurationsLoop_durationFromStart _ _ _ _ h1
    rw [h1] at h
    simp only [Option.map_some', Option.some.injEq] at h
    subst h
    split_ifs
    · refine ⟨by rw [length_setDuration, hlen], fun t => ?_⟩
      rw [lineAt_setDuration]
      split_ifs with hc
      · rw [hc.1]; exact hd _
      · exact hd t
    · exact ⟨hlen, hd⟩

theorem analyzeNullLineRhythmsLoop_length (fuel : Nat) :
    ∀ (i : Nat) (lines : List HumdrumLine) (nl : List Nat) (prev : Option Nat),
      (analyzeNullLineRhythmsLoop fuel i lines nl prev).2.length = lines.length := by
  induction fuel with
  | zero => intro i lines nl prev; rfl
  | succ n ih =>
    intro i lines nl prev
    by_cases hk : isKnownLine (lineAt lines i) = true
    · rw [analyzeNullLineRhythmsLoop_known n i lines nl prev hk, ih]
      cases prev with
      | none => rfl
      | some p => exact assignNullLines_length _ _ _ _ _
    · have hk' : isKnownLine (lineAt lines i) = false := by simpa using hk
      by_cases hb : isUnexpectedNegative (lineAt lines i) = true
      · have : analyzeNullLineRhythmsLoop (n + 1) i lines nl prev = (false, lines) := by
          unfold isUnexpectedNegative at hb
          simp only [Bool.and_eq_true, Bool.not_eq_true', decide_eq_true_eq] at hb
          obtain ⟨⟨⟨hs, hn⟩, hneg⟩, hd⟩ := hb
          cases prev <;> simp [analyzeNullLineRhythmsLoop, hs, hn, hneg, hd]
        rw [this]
      · have hb' : isUnexpectedNegative (lineAt lines i) = false := by simpa using hb
        rw [analyzeNullLineRhythmsLoop_skip n i lines nl prev hk' hb', ih]

/-- The passes of `analyzeRhythm` after the loops over the tracks give
non-decreasing values on all lines, when the values known before them are
non-decreasing and lie on lines the null-line scan takes as known. -/
theorem analyzeRhythmLines_monotone (nn : HumdrumFile → Bool) (f1 f' : HumdrumFile)
    (hrun : analyzeRhythmLines nn f1 = .done (true, f'))
    (hmono : knownMonotone f1.lines)
    (hanch : ∀ t, t < f1.lines.length → 0 ≤ (lineAt f1.lines t).durationFromStart →
      isKnownLine (lineAt f1.lines t) = true) :
    ∀ i j, i < j → j < f'.lines.length →
      (lineAt f'.lines i).durationFromStart ≤ (lineAt f'.lines j).durationFromStart := by
  unfold analyzeRhythmLines at hrun
  have hnm := analyzeNullLineRhythms_knownMonotone f1.lines hmono hanch
  have hnl : (analyzeNullLineRhythms f1.lines).2.length = f1.lines.length := by
    unfold analyzeNullLineRhythms
    exact analyzeNullLineRhythmsLoop_length _ _ _ _ _
  generalize analyzeNullLineRhythms f1.lines = r at hrun hnm hnl
  obtain ⟨b, l1⟩ := r
  cases b with
  | false => cases hrun
  | true =>
    simp only at hrun hnm hnl
    obtain ⟨hfl, hfm⟩ := fillInNegativeStartTimes_monotone l1 hnm
    cases h2 : assignLineDurations (fillInNegativeStartTimes l1) with
    | none => rw [h2] at hrun; cases hrun
    | some l2 =>
      rw [h2] at hrun
      simp only [Run.done.injEq, Prod.mk.injEq] at hrun
      obtain ⟨_, hf'⟩ := hrun
      obtain ⟨hal, had⟩ := assignLineDurations_durationFromStart _ _ h2
      have hml : (analyzeMeter l2).1.length = l2.length := by
        unfold analyzeMeter
        simp only []
        rw [analyzeMeterBackward_length, (analyzeMeterForward_fields _ _ _ _ _ _).1]
      have hmd : ∀ t, (lineAt (analyzeMeter l2).1 t).durationFromStart =
          (lineAt l2 t).durationFromStart := by
        intro t
        obtain ⟨v, w, h⟩ := analyzeMeter_fields l2 t
        rw [h]
      intro i j hij hj
      rw [← hf'] at hj ⊢
      simp only at hj ⊢
      rw [hmd, hmd, had, had]
      exact hfm i j hij (by rw [hml, hal, hfl] at hj; exact hj)

/-- When `analyzeRhythm` returns true on a file with a track, its loops over
the tracks have returned true. -/
theorem analyzeRhythm_tracks_returned (fuel : Nat) (nn : HumdrumFile → Bool)
    (f f' : HumdrumFile) (first : Nat) (others : List Nat)
    (htracks : f.trackstarts = first :: others)
    (hrun : analyzeRhythm fuel nn f = .done (true, f')) :
    ∃ f1, analyzeRhythmTracks fuel (tokenAt f first).owner f = .done (true, f1) ∧
      analyzeRhythmLines nn f1 = .done (true, f') := by
  unfold analyzeRhythm at hrun
  rw [htracks] at hrun
  simp only at hrun
  cases h1 : analyzeRhythmTracks fuel (tokenAt f first).owner f with
  | outOfFuel => rw [h1] at hrun; cases hrun
  | fault => rw [h1] at hrun; cases hrun
  | done r =>
    obtain ⟨b, f1⟩ := r
    rw [h1] at hrun
    cases b with
    | false => cases hrun
    | true =>
      simp only at hrun
      exact ⟨f1, rfl, hrun⟩

/-- C4 (amended): let `analyzeRhythm` return true on a file with at least one
track, and let `f1` be the file after its loops over the tracks.  If the
duration-from-start values known in `f1` (those assigned by propagation) are
non-decreasing over line index and lie on lines with spines that are not
all-rhythmic-null, then the resulting values are non-decreasing over all
lines. -/
theorem analyzeRhythm_monotone (fuel : Nat) (nn : HumdrumFile → Bool) (f f1 f' : HumdrumFile)
    (first : Nat) (others : List Nat)
    (htracks : f.trackstarts = first :: others)
    (hrun : analyzeRhythm fuel nn f = .done (true, f'))
    (hprop : analyzeRhythmTracks fuel (tokenAt f first).owner f = .done (true, f1))
    (hmono : knownMonotone f1.lines)
    (hknown : ∀ t, t < f1.lines.length → 0 ≤ (lineAt f1.lines t).durationFromStart →
      isKnownLine (lineAt f1.lines t) = true) :
    ∀ i j, i < j → j < f'.lines.length →
      (lineAt f'.lines i).durationFromStart ≤ (lineAt f'.lines j).durationFromStart := by
  obtain ⟨f2, h1, h2⟩ := analyzeRhythm_tracks_returned fuel nn f f' first others htracks hrun
  rw [hprop] at h1
  have hf : f1 = f2 := by
    injection h1 with h1
    injection h1
  subst hf
  exact analyzeRhythmLines_monotone nn f1 f' h2 hmono hknown

/-- On `**kern`, `4c`, `8d`, `*-` the propagated values are non-decreasing and
so are the resulting values 0, 0, 1, 3/2. -/
theorem analyzeRhythm_monotone_witness :
    c6File.trackstarts = 0 :: [] ∧
    analyzeRhythm 10 (fun _ => true) c6File = .done (true, c6After) ∧
    knownMonotone c6Propagated.lines ∧
    c6After.lines.map (fun l => l.durationFromStart) = [0, 0, 1, 3 / 2] ∧
    ∀ i j, i < j → j < c6After.lines.length →
      (lineAt c6After.lines i).durationFromStart ≤ (lineAt c6After.lines j).durationFromStart :=
  ⟨by decide!, by decide!, by decide!, by decide!,
    analyzeRhythm_monotone 10 (fun _ => true) c6File c6Propagated c6After 0 []
      (by decide!) (by decide!) (by decide!) (by decide!) (by decide!)⟩

/-- C15 fails on `c15Lines`: two data lines precede the only barline (line 2),
and after `analyzeMeter` the barline list holds line 0 twice, so that
`getBarlineCount` is 3 and not 2. -/
theorem analyzeMeter_pickup_entries :
    (lineAt c15Lines 0).isData = true ∧ (lineAt c15Lines 1).isData = true ∧
    (lineAt c15Lines 2).isBarline = true ∧
    (analyzeMeter c15Lines).2 = [0, 0, 2] ∧
    getBarlineCount c15After = 3 := by
  decide!

/-- C16 fails on `c16File`: the barline list of the file is the one
`analyzeMeter` computes, `getBarlineDuration(0)` is 8, the score duration minus
the start of barline 0, while `getBarlineDurationFromStart(1)` minus
`getBarlineDurationFromStart(0)` is 4. -/
theorem getBarlineDuration_second_to_last :
    (analyzeMeter c16File.lines).2 = c16File.barlines ∧
    getBarlineCount c16File = 2 ∧
    getBarlineDuration c16File 0 = 8 ∧
    getBarlineDurationFromStart c16File (0 + 1) - getBarlineDurationFromStart c16File 0 = 4 ∧
    getBarlineDuration c16File 0 ≠
      getBarlineDurationFromStart c16File (0 + 1) - getBarlineDurationFromStart c16File 0 := by
  decide!

/-- C17: with `n = getBarlineCount()`, `getBarline(index)` is the barline
number `index` for `0 ≤ index < n`, the same as `getBarline(n + index)` for
`-n ≤ index < 0`, and null for `index ≥ n` and for `index < -n`. -/
theorem getBarline_spec (f : HumdrumFile) (index : Int) :
    (0 ≤ index → index < getBarlineCount f →
      ∃ b, f.barlines[index.toNat]? = some b ∧ getBarline f index = some b) ∧
    (-getBarlineCount f ≤ index → index < 0 →
      getBarline f index = getBarline f (getBarlineCount f + index)) ∧
    (getBarlineCount f ≤ index ∨ index < -getBarlineCount f → getBarline f index = none) := by
  unfold getBarlineCount
  refine ⟨?_, ?_, ?_⟩
  · intro h0 hn
    have hlt : index.toNat < f.barlines.length := by omega
    refine ⟨f.barlines[index.toNat], List.getElem?_eq_getElem hlt, ?_⟩
    unfold getBarline
    simp only [not_lt.mpr h0, if_false, ge_iff_le, not_le.mpr hn]
    exact List.getElem?_eq_getElem hlt
  · intro hlo hneg
    unfold getBarline
    have h1 : ¬ ((f.barlines.length : Int) + index < 0) := by omega
    have h2 : index + (f.barlines.length : Int) = (f.barlines.length : Int) + index := by ring
    simp only [hneg, if_true, h1, if_false, h2]
  · intro h
    unfold getBarline
    rcases h with h | h
    · have h0 : ¬ index < 0 := by omega
      simp only [h0, if_false, ge_iff_le, h, if_true]
    · have h0 : index < 0 := by omega
      have h1 : index + (f.barlines.length : Int) < 0 := by omega
      simp only [h0, if_true, h1]

theorem getBarline_spec_witness :
    (-getBarlineCount c16File ≤ -1 ∧ (-1 : Int) < 0 ∧
      getBarline c16File (-1) = getBarline c16File (getBarlineCount c16File + -1)) ∧
    ((0 : Int) ≤ 1 ∧ 1 < getBarlineCount c16File ∧
      ∃ b, c16File.barlines[(1 : Int).toNat]? = some b ∧ getBarline c16File 1 = some b) ∧
    getBarline c16File 2 = none ∧ getBarline c16File (-3) = none :=
  ⟨⟨by decide!, by decide, (getBarline_spec c16File (-1)).2.1 (by decide!) (by decide)⟩,
    ⟨by decide, by decide!, (getBarline_spec c16File 1).1 (by decide) (by decide!)⟩,
    (getBarline_spec c16File 2).2.2 (Or.inl (by decide!)),
    (getBarline_spec c16File (-3)).2.2 (Or.inr (by decide!))⟩

/-- C18: `analyzeStructure` returns true exactly when the five phases, run one
after the other on the state the one before has left, all return true; when a
phase returns false, `analyzeStructure` returns false in the state that phase
has left, and the phases called are those up to it. -/
theorem analyzeStructure_true_iff_all_phases {σ : Type} (ph : AnalysisPhases σ) (s : σ) :
    (∀ s5, (analyzeStructure ph s).1 = .done (true, s5) ↔
      ∃ s1 s2 s3 s4, ph.analyzeGlobalParameters s = .done (true, s1) ∧
        ph.analyzeLocalParameters s1 = .done (true, s2) ∧
        ph.analyzeTokenDurations s2 = .done (true, s3) ∧
        ph.analyzeRhythm s3 = .done (true, s4) ∧
        ph.analyzeDurationsOfNonRhythmicSpines s4 = .done (true, s5)) ∧
    (∀ s1, ph.analyzeGlobalParameters s = .done (false, s1) →
      analyzeStructure ph s = (.done (false, s1), [.globalParameters])) ∧
    (∀ s1 s2, ph.analyzeGlobalParameters s = .done (true, s1) →
      ph.analyzeLocalParameters s1 = .done (false, s2) →
      analyzeStructure ph s = (.done (false, s2), [.globalParameters, .localParameters])) ∧
    (∀ s1 s2 s3, ph.analyzeGlobalParameters s = .done (true, s1) →
      ph.analyzeLocalParameters s1 = .done (true, s2) →
      ph.analyzeTokenDurations s2 = .done (false, s3) →
      analyzeStructure ph s =
        (.done (false, s3), [.globalParameters, .localParameters, .tokenDurations])) ∧
    (∀ s1 s2 s3 s4, ph.analyzeGlobalParameters s = .done (true, s1) →
      ph.analyzeLocalParameters s1 = .done (true, s2) →
      ph.analyzeTokenDurations s2 = .done (true, s3) →
      ph.analyzeRhythm s3 = .done (false, s4) →
      analyzeStructure ph s =
        (.done (false, s4),
          [.globalParameters, .localParameters, .tokenDurations, .rhythm])) ∧
    (∀ s1 s2 s3 s4 s5, ph.analyzeGlobalParameters s = .done (true, s1) →
      ph.analyzeLocalParameters s1 = .done (true, s2) →
      ph.analyzeTokenDurations s2 = .done (true, s3) →
      ph.analyzeRhythm s3 = .done (true, s4) →
      ph.analyzeDurationsOfNonRhythmicSpines s4 = .done (false, s5) →
      analyzeStructure ph s =
        (.done (false, s5),
          [.globalParameters, .localParameters, .tokenDurations, .rhythm,
            .nonRhythmicDurations])) := by
  refine ⟨?_, ?_, ?_, ?_, ?_, ?_⟩
  · intro s5
    constructor
    · intro h
      unfold analyzeStructure at h
      split at h
      · rename_i s1 h1
        split at h
        · rename_i s2 h2
          split at h
          · rename_i s3 h3
            split at h
            · rename_i s4 h4
              exact ⟨s1, s2, s3, s4, h1, h2, h3, h4, h⟩
            · rename_i other hne
              exact absurd h (hne s5)
          · rename_i other hne
            exact absurd h (hne s5)
        · rename_i other hne
          exact absurd h (hne s5)
      · rename_i other hne
        exact absurd h (hne s5)
    · rintro ⟨s1, s2, s3, s4, h1, h2, h3, h4, h5⟩
      simp only [analyzeStructure, h1, h2, h3, h4, h5]
  · intro s1 h1
    simp only [analyzeStructure, h1]
  · intro s1 s2 h1 h2
    simp only [analyzeStructure, h1, h2]
  · intro s1 s2 s3 h1 h2 h3
    simp only [analyzeStructure, h1, h2, h3]
  · intro s1 s2 s3 s4 h1 h2 h3 h4
    simp only [analyzeStructure, h1, h2, h3, h4]
  · intro s1 s2 s3 s4 s5 h1 h2 h3 h4 h5
    simp only [analyzeStructure, h1, h2, h3, h4, h5]

theorem analyzeStructure_true_iff_all_phases_witness :
    ((∃ s1 s2 s3 s4, succeedingPhases.analyzeGlobalParameters 0 = .done (true, s1) ∧
        succeedingPhases.analyzeLocalParameters s1 = .done (true, s2) ∧
        succeedingPhases.analyzeTokenDurations s2 = .done (true, s3) ∧
        succeedingPhases.analyzeRhythm s3 = .done (true, s4) ∧
        succeedingPhases.analyzeDurationsOfNonRhythmicSpines s4 = .done (true, 5)) ∧
      (analyzeStructure succeedingPhases 0).1 = .done (true, 5)) ∧
    (countingPhases.analyzeGlobalParameters 0 = .done (true, 1) ∧
      countingPhases.analyzeLocalParameters 1 = .done (true, 2) ∧
      countingPhases.analyzeTokenDurations 2 = .done (true, 3) ∧
      countingPhases.analyzeRhythm 3 = .done (false, 4) ∧
      analyzeStructure countingPhases 0 =
        (.done (false, 4),
          [.globalParameters, .localParameters, .tokenDurations, .rhythm])) :=
  ⟨⟨⟨1, 2, 3, 4, rfl, rfl, rfl, rfl, rfl⟩,
      ((analyzeStructure_true_iff_all_phases succeedingPhases 0).1 5).2
        ⟨1, 2, 3, 4, rfl, rfl, rfl, rfl, rfl⟩⟩,
    ⟨rfl, rfl, rfl, rfl,
      (analyzeStructure_true_iff_all_phases countingPhases 0).2.2.2.2.1 1 2 3 4
        rfl rfl rfl rfl⟩⟩

/-- C19: when the parse of `HumdrumFileBase` reports failure, `read` and
`readString` return false, call no phase of the analysis and leave the state as
the parse has left it; when the parse succeeds they return what
`analyzeStructure` returns on the state after the parse. -/
theorem read_spec {ι σ : Type} (parse : ι → Bool × σ) (ph : AnalysisPhases σ) (infile : ι) :
    ((parse infile).1 = false →
      read parse ph infile = (.done (false, (parse infile).2), []) ∧
      readString parse ph infile = (.done (false, (parse infile).2), [])) ∧
    ((parse infile).1 = true →
      read parse ph infile = analyzeStructure ph (parse infile).2 ∧
      readString parse ph infile = analyzeStructure ph (parse infile).2) := by
  constructor
  · intro h
    simp [read, readString, h]
  · intro h
    simp [read, readString, h]

theorem read_spec_witness :
    ((flagParse false).1 = false ∧
      read flagParse countingPhases false = (.done (false, 0), []) ∧
      readString flagParse countingPhases false = (.done (false, 0), [])) ∧
    ((flagParse true).1 = true ∧
      read flagParse countingPhases true = analyzeStructure countingPhases 0 ∧
      readString flagParse countingPhases true = analyzeStructure countingPhases 0) :=
  ⟨⟨rfl, (read_spec flagParse countingPhases false).1 rfl⟩,
    ⟨rfl, (read_spec flagParse countingPhases true).2 rfl⟩⟩

/-- C20 fails on the file `c6File`: the analysis returns true, and the phases it
has called are, in this order, the two parameter passes, the token durations,
the rhythm pass and the non-rhythmic durations, so that the parameter passes
are the first and not the final ones. -/
theorem c20_counterexample :
    (analyzeStructure plainPhases c6File).1.returnedTrue = true ∧
    (analyzeStructure plainPhases c6File).2 =
      [.globalParameters, .localParameters, .tokenDurations, .rhythm,
        .nonRhythmicDurations] ∧
    (analyzeStructure plainPhases c6File).2.indexOf Phase.globalParameters <
      (analyzeStructure plainPhases c6File).2.indexOf Phase.rhythm ∧
    (analyzeStructure plainPhases c6File).2.indexOf Phase.localParameters <
      (analyzeStructure plainPhases c6File).2.indexOf Phase.nonRhythmicDurations := by
  decide!

/-- C20, amended: the phases `analyzeStructure` calls are an initial part of
the sequence global parameters, local parameters, token durations, rhythm,
non-rhythmic durations; the rhythm pass is called only after both parameter
passes (and the token durations) have returned true. -/
theorem analyzeStructure_phase_order {σ : Type} (ph : AnalysisPhases σ) (s : σ) :
    (analyzeStructure ph s).2 <+:
      [.globalParameters, .localParameters, .tokenDurations, .rhythm,
        .nonRhythmicDurations] ∧
    (analyzeStructure ph s).2.head? = some .globalParameters ∧
    (Phase.rhythm ∈ (analyzeStructure ph s).2 →
      ∃ s1 s2 s3, ph.analyzeGlobalParameters s = .done (true, s1) ∧
        ph.analyzeLocalParameters s1 = .done (true, s2) ∧
        ph.analyzeTokenDurations s2 = .done (true, s3)) := by
  unfold analyzeStructure
  split
  · rename_i s1 h1
    split
    · rename_i s2 h2
      split
      · rename_i s3 h3
        split
        · exact ⟨List.prefix_refl _, rfl, fun _ => ⟨s1, s2, s3, h1, h2, h3⟩⟩
        · exact ⟨⟨[.nonRhythmicDurations], rfl⟩, rfl, fun _ => ⟨s1, s2, s3, h1, h2, h3⟩⟩
      · exact ⟨⟨[.rhythm, .nonRhythmicDurations], rfl⟩, rfl, fun h => by simp at h⟩
    · exact ⟨⟨[.tokenDurations, .rhythm, .nonRhythmicDurations], rfl⟩, rfl,
        fun h => by simp at h⟩
  · exact ⟨⟨[.localParameters, .tokenDurations, .rhythm, .nonRhythmicDurations], rfl⟩, rfl,
      fun h => by simp at h⟩

theorem analyzeStructure_phase_order_witness :
    Phase.rhythm ∈ (analyzeStructure countingPhases 0).2 ∧
    (analyzeStructure countingPhases 0).2 <+:
      [.globalParameters, .localParameters, .tokenDurations, .rhythm,
        .nonRhythmicDurations] ∧
    ∃ s1 s2 s3, countingPhases.analyzeGlobalParameters 0 = .done (true, s1) ∧
      countingPhases.analyzeLocalParameters s1 = .done (true, s2) ∧
      countingPhases.analyzeTokenDurations s2 = .done (true, s3) :=
  ⟨by decide, (analyzeStructure_phase_order countingPhases 0).1,
    (analyzeStructure_phase_order countingPhases 0).2.2 (by decide)⟩

/-- C11 fails on `c11File`: line 2 holds a grace note (token 2, duration 0)
beside a quarter note (token 7, duration 1), the check `getTokenDurations` of
that line returns false, and yet `analyzeRhythm` and `analyzeStructure` return
true, with the times 0, 0, 1, 1, 2 assigned to the five lines. -/
theorem analyzeRhythm_accepts_grace_mixture :
    (tokenAt c11File 2).owner = 2 ∧ (tokenAt c11File 2).duration = 0 ∧
    (tokenAt c11File 7).owner = 2 ∧ 0 < (tokenAt c11File 7).duration ∧
    getTokenDurations c11File 2 = (false, [0, 1]) ∧
    (analyzeRhythm 20 (fun _ => true) c11File).returnedTrue = true ∧
    c11After.lines.map (fun l => l.durationFromStart) = [0, 0, 1, 1, 2] ∧
    (analyzeStructure plainPhases c11File).1.returnedTrue = true := by
  decide!

/-- C14 fails on `c14File`: `analyzeLocalParameters` returns true, having bound
the layout comment of line 1 to the null token of line 2 and the layout comment
of line 4 to the spine terminator of line 5; the note of line 3 gets none. -/
theorem processLocalParametersForTrack_binds_null_and_manipulator :
    (analyzeLocalParameters 10 c14File).returnedTrue = true ∧
    (tokenAt c14After 2).parameters = [1] ∧ (tokenAt c14After 2).isNull = true ∧
    (tokenAt c14After 5).parameters = [4] ∧ (tokenAt c14After 5).isManipulator = true ∧
    (tokenAt c14After 3).parameters = [] ∧
    (tokenAt c14After 3).isNull = false ∧ (tokenAt c14After 3).isManipulator = false := by
  decide!

theorem setLineParameters_length (ls : List HumdrumLine) (t s : Nat) :
    (setLineParameters ls t s).length = ls.length := by
  simp [setLineParameters]

theorem lineAt_setLineParameters (ls : List HumdrumLine) (t s k : Nat) :
    lineAt (setLineParameters ls t s) k =
      if k = t ∧ t < ls.length then
        { lineAt ls t with parameters := (lineAt ls t).parameters ++ [s] }
      else lineAt ls k := by
  simp [setLineParameters, lineAt_set]

theorem nearestTarget_step {L : List HumdrumLine} {i : Nat} {sp : Option Nat}
    (hnot : isParameterTarget (lineAt L i) = false) (h : nearestTarget L (i + 1) sp) :
    nearestTarget L i sp := by
  cases sp with
  | none =>
    intro k hk hlt
    rcases Nat.eq_or_lt_of_le hk with e | e
    · rw [← e]; exact hnot
    · exact h k e hlt
  | some t =>
    obtain ⟨h1, h2, h3, h4⟩ := h
    refine ⟨by omega, h2, h3, ?_⟩
    intro k hk hlt
    rcases Nat.eq_or_lt_of_le hk with e | e
    · rw [← e]; exact hnot
    · exact h4 k e hlt

theorem attachesTo_iff_of_nearest {L : List HumdrumLine} {i t : Nat}
    (hlay : isGlobalLayout (lineAt L i) = true) (h : nearestTarget L (i + 1) (some t)) (j : Nat) :
    attachesTo L i j ↔ j = t := by
  obtain ⟨h1, h2, h3, h4⟩ := h
  constructor
  · rintro ⟨_, hij, hj, hjt, hmin⟩
    rcases Nat.lt_trichotomy j t with c | c | c
    · have := h4 j hij c
      rw [hjt] at this; cases this
    · exact c
    · have := hmin t h1 c
      rw [h3] at this; cases this
  · rintro rfl
    exact ⟨hlay, h1, h2, h3, fun k hk hkj => h4 k hk hkj⟩

theorem not_attachesTo_of_none {L : List HumdrumLine} {i : Nat}
    (h : nearestTarget L (i + 1) none) (j : Nat) : ¬ attachesTo L i j := by
  rintro ⟨_, hij, hj, hjt, _⟩
  have := h j hij hj
  rw [hjt] at this; cases this

theorem analyzeGlobalParametersLoop_spec (L : List HumdrumLine) :
    ∀ (i : Nat) (sp : Option Nat) (ls : List HumdrumLine), i ≤ L.length →
      ls.length = L.length →
      (∀ k, ∃ p, lineAt ls k = { lineAt L k with parameters := p }) →
      nearestTarget L i sp →
      (analyzeGlobalParametersLoop i sp ls).length = L.length ∧
      (∀ k, ∃ p, lineAt (analyzeGlobalParametersLoop i sp ls) k =
        { lineAt L k with parameters := p }) ∧
      ∀ a j, a ∈ (lineAt (analyzeGlobalParametersLoop i sp ls) j).parameters ↔
        a ∈ (lineAt ls j).parameters ∨ (a < i ∧ attachesTo L a j) := by
  intro i
  induction i with
  | zero =>
    intro sp ls _ hlen hfl _
    simp only [analyzeGlobalParametersLoop]
    exact ⟨hlen, hfl, fun a j => by simp⟩
  | succ i ih =>
    intro sp ls hi hlen hfl hsp
    obtain ⟨p, hp⟩ := hfl i
    have hS : (lineAt ls i).hasSpines = (lineAt L i).hasSpines := by rw [hp]
    have hN : (lineAt ls i).isAllNull = (lineAt L i).isAllNull := by rw [hp]
    have hM : (lineAt ls i).isManipulator = (lineAt L i).isManipulator := by rw [hp]
    have hC : (lineAt ls i).isCommentLocal = (lineAt L i).isCommentLocal := by rw [hp]
    have hG : (lineAt ls i).isCommentGlobal = (lineAt L i).isCommentGlobal := by rw [hp]
    have hT : (lineAt ls i).text = (lineAt L i).text := by rw [hp]
    have hi' : i ≤ L.length := by omega
    -- a step that attaches nothing
    have plain : ∀ sp1, nearestTarget L i sp1 → (∀ j, ¬ attachesTo L i j) →
        analyzeGlobalParametersLoop (i + 1) sp ls = analyzeGlobalParametersLoop i sp1 ls →
        (analyzeGlobalParametersLoop (i + 1) sp ls).length = L.length ∧
        (∀ k, ∃ p, lineAt (analyzeGlobalParametersLoop (i + 1) sp ls) k =
          { lineAt L k with parameters := p }) ∧
        ∀ a j, a ∈ (lineAt (analyzeGlobalParametersLoop (i + 1) sp ls) j).parameters ↔
          a ∈ (lineAt ls j).parameters ∨ (a < i + 1 ∧ attachesTo L a j) := by
      intro sp1 hsp1 hno hstep
      rw [hstep]
      obtain ⟨r1, r2, r3⟩ := ih sp1 ls hi' hlen hfl hsp1
      refine ⟨r1, r2, fun a j => ?_⟩
      rw [r3 a j]
      constructor
      · rintro (h | ⟨h1, h2⟩)
        · exact Or.inl h
        · exact Or.inr ⟨by omega, h2⟩
      · rintro (h | ⟨h1, h2⟩)
        · exact Or.inl h
        · rcases Nat.eq_or_lt_of_le (Nat.le_of_lt_succ h1) with e | e
          · subst e; exact absurd h2 (hno j)
          · exact Or.inr ⟨e, h2⟩
    have nolayout : isGlobalLayout (lineAt L i) = false → ∀ j, ¬ attachesTo L i j := by
      intro hl j hatt
      rw [hatt.1] at hl; cases hl
    by_cases c1 : (lineAt L i).hasSpines = true
    · have hnl : isGlobalLayout (lineAt L i) = false := by simp [isGlobalLayout, c1]
      by_cases c2 : (lineAt L i).isAllNull = true
      · refine plain sp (nearestTarget_step (by simp [isParameterTarget, c2]) hsp)
          (nolayout hnl) ?_
        simp [analyzeGlobalParametersLoop, hS, hN, c1, c2]
      · by_cases c3 : (lineAt L i).isManipulator = true
        · refine plain sp (nearestTarget_step (by simp [isParameterTarget, c3]) hsp)
            (nolayout hnl) ?_
          simp [analyzeGlobalParametersLoop, hS, hN, hM, c1, c2, c3]
        · by_cases c4 : (lineAt L i).isCommentLocal = true
          · refine plain sp (nearestTarget_step (by simp [isParameterTarget, c4]) hsp)
              (nolayout hnl) ?_
            simp [analyzeGlobalParametersLoop, hS, hN, hM, hC, c1, c2, c3, c4]
          · refine plain (some i) ⟨Nat.le_refl i, by omega, ?_, fun k h1 h2 => by omega⟩
              (nolayout hnl) ?_
            · simp [isParameterTarget, c1, c2, c3, c4]
            · simp [analyzeGlobalParametersLoop, hS, hN, hM, hC, c1, c2, c3, c4]
    · have hnt : isParameterTarget (lineAt L i) = false := by simp [isParameterTarget, c1]
      cases sp with
      | none =>
        refine plain none (nearestTarget_step hnt hsp) (not_attachesTo_of_none hsp) ?_
        simp [analyzeGlobalParametersLoop, hS, c1]
      | some t =>
        by_cases c2 : (lineAt L i).isCommentGlobal = true
        · by_cases c3 : globalLayoutPrefix.isPrefixOf (lineAt L i).text = true
          · have hlay : isGlobalLayout (lineAt L i) = true := by
              simp [isGlobalLayout, c1, c2, c3]
            have hstep : analyzeGlobalParametersLoop (i + 1) (some t) ls =
                analyzeGlobalParametersLoop i (some t) (setLineParameters ls t i) := by
              simp [analyzeGlobalParametersLoop, hS, hG, hT, c1, c2, c3]
            have htlen : t < ls.length := by rw [hlen]; exact hsp.2.1
            have hfl2 : ∀ k, ∃ p, lineAt (setLineParameters ls t i) k =
                { lineAt L k with parameters := p } := by
              intro k
              rw [lineAt_setLineParameters]
              by_cases hk : k = t ∧ t < ls.length
              · rw [if_pos hk]
                obtain ⟨q, hq⟩ := hfl t
                rw [hk.1, hq]
                exact ⟨_, rfl⟩
              · rw [if_neg hk]
                exact hfl k
            obtain ⟨r1, r2, r3⟩ := ih (some t) (setLineParameters ls t i) hi'
              (by rw [setLineParameters_length, hlen]) hfl2 (nearestTarget_step hnt hsp)
            rw [hstep]
            refine ⟨r1, r2, fun a j => ?_⟩
            rw [r3 a j, lineAt_setLineParameters]
            by_cases hj : j = t
            · subst hj
              rw [if_pos ⟨rfl, htlen⟩]
              simp only [List.mem_append, List.mem_singleton]
              constructor
              · rintro ((h | h) | ⟨h1, h2⟩)
                · exact Or.inl h
                · subst h
                  exact Or.inr ⟨Nat.lt_succ_self _, (attachesTo_iff_of_nearest hlay hsp j).2 rfl⟩
                · exact Or.inr ⟨by omega, h2⟩
              · rintro (h | ⟨h1, h2⟩)
                · exact Or.inl (Or.inl h)
                · rcases Nat.eq_or_lt_of_le (Nat.le_of_lt_succ h1) with e | e
                  · exact Or.inl (Or.inr e)
                  · exact Or.inr ⟨e, h2⟩
            · rw [if_neg (fun h => hj h.1)]
              constructor
              · rintro (h | ⟨h1, h2⟩)
                · exact Or.inl h
                · exact Or.inr ⟨by omega, h2⟩
              · rintro (h | ⟨h1, h2⟩)
                · exact Or.inl h
                · rcases Nat.eq_or_lt_of_le (Nat.le_of_lt_succ h1) with e | e
                  · subst e
                    exact absurd ((attachesTo_iff_of_nearest hlay hsp j).1 h2) hj
                  · exact Or.inr ⟨e, h2⟩
          · refine plain (some t) (nearestTarget_step hnt hsp)
              (nolayout (by simp [isGlobalLayout, c3])) ?_
            simp [analyzeGlobalParametersLoop, hS, hG, hT, c1, c2, c3]
        · refine plain (some t) (nearestTarget_step hnt hsp)
            (nolayout (by simp [isGlobalLayout, c2])) ?_
          simp [analyzeGlobalParametersLoop, hS, hG, c1, c2]

/-- C13: `analyzeGlobalParameters` returns true and changes nothing but the
attached parameters of lines; afterwards line `i` is attached to line `j`
exactly when it was attached before the call or line `i` is a global layout
comment (no spines, global comment, text beginning with `!!LO:`) and `j` is the
smallest index greater than `i` of a line that carries spines, is not all-null,
is not a manipulator line and is not a local-comment line; a line for which
there is no such `j` is attached to nothing by the call. -/
theorem analyzeGlobalParameters_attaches (lines : List HumdrumLine) :
    (analyzeGlobalParameters lines).1 = true ∧
    (analyzeGlobalParameters lines).2.length = lines.length ∧
    (∀ k, ∃ p, lineAt (analyzeGlobalParameters lines).2 k =
      { lineAt lines k with parameters := p }) ∧
    (∀ i j, i ∈ (lineAt (analyzeGlobalParameters lines).2 j).parameters ↔
      i ∈ (lineAt lines j).parameters ∨ attachesTo lines i j) ∧
    (∀ i, (∀ j, ¬ attachesTo lines i j) →
      ∀ j, i ∈ (lineAt (analyzeGlobalParameters lines).2 j).parameters →
        i ∈ (lineAt lines j).parameters) := by
  obtain ⟨r1, r2, r3⟩ := analyzeGlobalParametersLoop_spec lines lines.length none lines
    (Nat.le_refl _) rfl (fun k => ⟨(lineAt lines k).parameters, rfl⟩)
    (fun k h1 h2 => absurd h2 (Nat.not_lt.mpr h1))
  have hiff : ∀ i j, i ∈ (lineAt (analyzeGlobalParameters lines).2 j).parameters ↔
      i ∈ (lineAt lines j).parameters ∨ attachesTo lines i j := by
    intro i j
    show i ∈ (lineAt (analyzeGlobalParametersLoop lines.length none lines) j).parameters ↔ _
    rw [r3 i j]
    constructor
    · rintro (h | ⟨_, h⟩)
      · exact Or.inl h
      · exact Or.inr h
    · rintro (h | h)
      · exact Or.inl h
      · exact Or.inr ⟨by have := h.2.1; have := h.2.2.1; omega, h⟩
  refine ⟨rfl, r1, r2, hiff, ?_⟩
  intro i hno j hmem
  rcases (hiff i j).1 hmem with h | h
  · exact h
  · exact absurd h (hno j)

theorem analyzeGlobalParameters_attaches_witness :
    (attachesTo c13Lines 0 4 ∧
      0 ∈ (lineAt (analyzeGlobalParameters c13Lines).2 4).parameters) ∧
    ((∀ j, ¬ attachesTo c13Lines 5 j) ∧
      ∀ j, 5 ∈ (lineAt (analyzeGlobalParameters c13Lines).2 j).parameters →
        5 ∈ (lineAt c13Lines j).parameters) :=
  ⟨⟨by decide!, ((analyzeGlobalParameters_attaches c13Lines).2.2.2.1 0 4).2
      (Or.inr (by decide!))⟩,
    ⟨fun j h => absurd (Nat.lt_of_lt_of_le h.2.1 (Nat.le_of_lt_succ h.2.2.1)) (Nat.lt_irrefl 5),
      (analyzeGlobalParameters_attaches c13Lines).2.2.2.2 5
        (fun j h =>
          absurd (Nat.lt_of_lt_of_le h.2.1 (Nat.le_of_lt_succ h.2.2.1)) (Nat.lt_irrefl 5))⟩⟩

/-- On `c13Lines` both layout comments before the barline are attached to it,
the nearer one first; the last comment is attached to nothing. -/
theorem analyzeGlobalParameters_c13Lines :
    (analyzeGlobalParameters c13Lines).2.map (fun l => l.parameters) =
      [[], [], [], [], [3, 0], []] := by
  decide!

theorem tokenAt_setTokenDuration (f : HumdrumFile) (t x : Nat) (d : HumNum) :
    tokenAt (setTokenDuration f t d) x =
      if x = t ∧ t < f.tokens.length then { tokenAt f t with duration := d }
      else tokenAt f x := by
  unfold setTokenDuration tokenAt
  simp only []
  by_cases h : x = t
  · subst h
    by_cases h2 : x < f.tokens.length
    · simp [h2, List.getD_eq_getElem?_getD]
    · have h3 : f.tokens.length ≤ x := Nat.le_of_not_lt h2
      simp [h2, List.getD_eq_getElem?_getD, List.getElem?_eq_none h3, List.getElem?_set]
  · have h' : t ≠ x := fun e => h e.symm
    simp [h, h', List.getD_eq_getElem?_getD, List.getElem?_set_ne]

theorem tokenAt_setTokenDuration_fields (f : HumdrumFile) (t x : Nat) (d : HumNum) :
    ∃ e, tokenAt (setTokenDuration f t d) x = { tokenAt f x with duration := e } := by
  rw [tokenAt_setTokenDuration]
  split_ifs with h
  · exact ⟨d, by rw [h.1]⟩
  · exact ⟨(tokenAt f x).duration, rfl⟩

theorem lt_length_of_previousTokens {f : HumdrumFile} {t : Nat}
    (h : (tokenAt f t).previousTokens ≠ []) : t < f.tokens.length := by
  by_contra hlt
  have h3 : f.tokens.length ≤ t := Nat.le_of_not_lt hlt
  apply h
  unfold tokenAt
  simp [List.getD_eq_getElem?_getD, List.getElem?_eq_none h3]
  rfl

theorem isBackwardChain_congr {f g : HumdrumFile}
    (h : ∀ t, (tokenAt g t).previousTokens = (tokenAt f t).previousTokens) :
    ∀ W, isBackwardChain g W = isBackwardChain f W := by
  intro W
  induction W with
  | nil => rfl
  | cons w rest ih =>
    cases rest with
    | nil => simp only [isBackwardChain, h]
    | cons v rest2 => simp only [isBackwardChain, h, ih]

theorem isNonNullData_congr {f g : HumdrumFile} {t : Nat} {d : HumNum}
    (h : tokenAt g t = { tokenAt f t with duration := d }) :
    isNonNullData g t = isNonNullData f t := by
  unfold isNonNullData
  rw [h]

theorem tokenDurationFromStart_congr {f g : HumdrumFile} {t : Nat} {d : HumNum}
    (hl : g.lines = f.lines) (h : tokenAt g t = { tokenAt f t with duration := d }) :
    tokenDurationFromStart g t = tokenDurationFromStart f t := by
  unfold tokenDurationFromStart
  rw [h, hl]

theorem assignDurationsToNonRhythmicBranches_nil (fuel : Nat) (f : HumdrumFile) (cur : Nat)
    (h : 0 < fuel) : assignDurationsToNonRhythmicBranches fuel f [] cur = .done (true, f) := by
  cases fuel with
  | zero => omega
  | succ n => simp only [assignDurationsToNonRhythmicBranches]

theorem assignDurationsToNonRhythmicTrack_single (fuel : Nat) (f : HumdrumFile)
    (w v cur : Nat) (hprev : (tokenAt f w).previousTokens = [v]) (h : 0 < fuel) :
    assignDurationsToNonRhythmicTrack (fuel + 1) f w cur =
      if isNonNullData f w then
        assignDurationsToNonRhythmicTrack fuel
          (setTokenDuration f w (tokenDurationFromStart f cur - tokenDurationFromStart f w))
          v w
      else assignDurationsToNonRhythmicTrack fuel f v cur := by
  rw [assignDurationsToNonRhythmicTrack]
  simp only [hprev, assignDurationsToNonRhythmicBranches_nil fuel f cur h]
  rfl


theorem nextNonNullData_zero (f : HumdrumFile) (W : List Nat) (cur : Nat) :
    nextNonNullData f W 0 cur = cur := by
  simp [nextNonNullData]

theorem nextNonNullData_cons (f : HumdrumFile) (w : Nat) (L : List Nat) (k cur : Nat) :
    nextNonNullData f (w :: L) (k + 1) cur =
      nextNonNullData f L k (if isNonNullData f w then w else cur) := by
  unfold nextNonNullData
  simp only [List.take_succ_cons, List.reverse_cons, List.find?_append]
  by_cases hw : isNonNullData f w = true
  · cases h : List.find? (isNonNullData f) (List.take k L).reverse <;> simp [hw]
  · cases h : List.find? (isNonNullData f) (List.take k L).reverse <;> simp [hw]

theorem nextNonNullData_congr {f g : HumdrumFile}
    (h : ∀ t, isNonNullData g t = isNonNullData f t) (W : List Nat) (k cur : Nat) :
    nextNonNullData g W k cur = nextNonNullData f W k cur := by
  have e : isNonNullData g = isNonNullData f := funext h
  unfold nextNonNullData
  rw [e]

theorem isBackwardChain_unique (f : HumdrumFile) :
    ∀ (A B : List Nat) (w : Nat), isBackwardChain f (w :: A) = true →
      isBackwardChain f (w :: B) = true → A = B := by
  intro A
  induction A with
  | nil =>
    intro B w hA hB
    cases B with
    | nil => rfl
    | cons b B2 =>
      simp only [isBackwardChain, Bool.and_eq_true, decide_eq_true_eq] at hA hB
      rw [hA] at hB
      cases hB.1
  | cons a A2 ih =>
    intro B w hA hB
    cases B with
    | nil =>
      simp only [isBackwardChain, Bool.and_eq_true, decide_eq_true_eq] at hA hB
      rw [hB] at hA
      cases hA.1
    | cons b B2 =>
      simp only [isBackwardChain, Bool.and_eq_true, decide_eq_true_eq] at hA hB
      have hab : a = b := by
        have := hA.1.symm.trans hB.1
        simpa using this
      subst hab
      rw [ih B2 a hA.2 hB.2]

theorem isBackwardChain_suffix (f : HumdrumFile) (w : Nat) (Y : List Nat) :
    ∀ X : List Nat, isBackwardChain f (X ++ w :: Y) = true →
      isBackwardChain f (w :: Y) = true := by
  intro X
  induction X with
  | nil => intro h; exact h
  | cons x X2 ih =>
    intro h
    apply ih
    cases X2 with
    | nil =>
      simp only [List.cons_append, List.nil_append, isBackwardChain, Bool.and_eq_true] at h
      exact h.2
    | cons y X3 =>
      simp only [List.cons_append, isBackwardChain, Bool.and_eq_true] at h
      exact h.2

theorem isBackwardChain_nodup (f : HumdrumFile) :
    ∀ W : List Nat, isBackwardChain f W = true → W.Nodup := by
  intro W
  induction W with
  | nil => intro _; exact List.nodup_nil
  | cons w rest ih =>
    intro h
    rw [List.nodup_cons]
    constructor
    · intro hmem
      obtain ⟨X, Y, hXY⟩ := List.append_of_mem hmem
      have h1 : isBackwardChain f (w :: Y) = true := by
        apply isBackwardChain_suffix f w Y (w :: X)
        rw [List.cons_append, ← hXY]
        exact h
      have h2 := isBackwardChain_unique f rest Y w h h1
      have h3 : rest.length = Y.length := by rw [h2]
      rw [hXY] at h3
      simp at h3
      omega
    · cases rest with
      | nil => exact List.nodup_nil
      | cons v rest2 =>
        apply ih
        simp only [isBackwardChain, Bool.and_eq_true] at h
        exact h.2

theorem assignDurationsToNonRhythmicTrack_walk :
    ∀ (W : List Nat) (f : HumdrumFile) (cur fuel : Nat),
      isBackwardChain f W = true → W.Nodup → W.length < fuel →
      ∃ g, assignDurationsToNonRhythmicTrack fuel f (W.headD 0) cur = .done (true, g) ∧
        g.lines = f.lines ∧
        (∀ t, ∃ d, tokenAt g t = { tokenAt f t with duration := d }) ∧
        (∀ t, (t ∉ W.dropLast ∨ isNonNullData f t = false) → tokenAt g t = tokenAt f t) ∧
        (∀ k t, k + 1 < W.length → W[k]? = some t → isNonNullData f t = true →
          (tokenAt g t).duration =
            tokenDurationFromStart f (nextNonNullData f W k cur) -
              tokenDurationFromStart f t) := by
  intro W
  induction W with
  | nil =>
    intro f cur fuel h
    simp [isBackwardChain] at h
  | cons w rest ih =>
    intro f cur fuel hchain hnd hfuel
    cases rest with
    | nil =>
      have hprev : (tokenAt f w).previousTokens = [] := by
        simpa [isBackwardChain] using hchain
      obtain ⟨n, rfl⟩ : ∃ n, fuel = n + 1 := ⟨fuel - 1, by simp at hfuel; omega⟩
      refine ⟨f, ?_, rfl, fun t => ⟨_, rfl⟩, fun _ _ => rfl, ?_⟩
      · simp only [List.headD_cons]
        rw [assignDurationsToNonRhythmicTrack]
        simp only [hprev]
      · intro k t hk
        simp at hk
    | cons v rest2 =>
      simp only [isBackwardChain, Bool.and_eq_true, decide_eq_true_eq] at hchain
      obtain ⟨hprev, hrest⟩ := hchain
      have hlen : (w :: v :: rest2).length = rest2.length + 2 := rfl
      rw [hlen] at hfuel
      obtain ⟨n, rfl⟩ : ∃ n, fuel = n + 1 := ⟨fuel - 1, by omega⟩
      have hn : (v :: rest2).length < n := by
        have : (v :: rest2).length = rest2.length + 1 := rfl
        omega
      have hwlt : w < f.tokens.length :=
        lt_length_of_previousTokens (by rw [hprev]; exact List.cons_ne_nil _ _)
      have hnd2 : (v :: rest2).Nodup := (List.nodup_cons.1 hnd).2
      have hwnot : w ∉ (v :: rest2) := (List.nodup_cons.1 hnd).1
      have hwnot2 : w ∉ (v :: rest2).dropLast := fun c => hwnot (List.mem_of_mem_dropLast c)
      have hdrop : (w :: v :: rest2).dropLast = w :: (v :: rest2).dropLast := rfl
      simp only [List.headD_cons]
      rw [assignDurationsToNonRhythmicTrack_single n f w v cur hprev (by omega)]
      by_cases hw : isNonNullData f w = true
      · rw [if_pos hw]
        have hfl1 := fun x => tokenAt_setTokenDuration_fields f w x
          (tokenDurationFromStart f cur - tokenDurationFromStart f w)
        have hat1 := tokenAt_setTokenDuration f w w
          (tokenDurationFromStart f cur - tokenDurationFromStart f w)
        have hne1 : ∀ x, x ≠ w → tokenAt (setTokenDuration f w
            (tokenDurationFromStart f cur - tokenDurationFromStart f w)) x = tokenAt f x := by
          intro x hx
          rw [tokenAt_setTokenDuration, if_neg (fun c => hx c.1)]
        have hlines1 : (setTokenDuration f w
            (tokenDurationFromStart f cur - tokenDurationFromStart f w)).lines = f.lines := rfl
        rw [if_pos ⟨rfl, hwlt⟩] at hat1
        generalize setTokenDuration f w
          (tokenDurationFromStart f cur - tokenDurationFromStart f w) = f1
          at hfl1 hat1 hne1 hlines1 ⊢
        have hnn1 : ∀ x, isNonNullData f1 x = isNonNullData f x := by
          intro x
          obtain ⟨d, hd⟩ := hfl1 x
          exact isNonNullData_congr hd
        have hdfs1 : ∀ x, tokenDurationFromStart f1 x = tokenDurationFromStart f x := by
          intro x
          obtain ⟨d, hd⟩ := hfl1 x
          exact tokenDurationFromStart_congr hlines1 hd
        have hchain1 : isBackwardChain f1 (v :: rest2) = true := by
          rw [isBackwardChain_congr (f := f)]
          · exact hrest
          · intro x
            obtain ⟨d, hd⟩ := hfl1 x
            rw [hd]
        obtain ⟨g, hg, hgl, hgf, hframe, hdur⟩ := ih f1 w n hchain1 hnd2 hn
        refine ⟨g, hg, hgl.trans hlines1, ?_, ?_, ?_⟩
        · intro x
          obtain ⟨d, hd⟩ := hgf x
          obtain ⟨e, he⟩ := hfl1 x
          exact ⟨d, by rw [hd, he]⟩
        · intro x hx
          have hxw : x ≠ w := by
            rcases hx with h | h
            · intro e
              apply h
              rw [hdrop, e]
              exact List.mem_cons_self _ _
            · intro e
              rw [e, hw] at h
              cases h
          rw [← hne1 x hxw]
          apply hframe
          rcases hx with h | h
          · left
            intro c
            apply h
            rw [hdrop]
            exact List.mem_cons_of_mem _ c
          · right
            rw [hnn1]
            exact h
        · intro k x hk hkx hx
          cases k with
          | zero =>
            have hxw : x = w := by simpa using hkx.symm
            subst hxw
            rw [nextNonNullData_zero, hframe x (Or.inl hwnot2), hat1]
          | succ k =>
            have hkx2 : (v :: rest2)[k]? = some x := by simpa using hkx
            have hk2 : k + 1 < (v :: rest2).length := by
              have : (v :: rest2).length = rest2.length + 1 := rfl
              omega
            rw [hdur k x hk2 hkx2 (by rw [hnn1]; exact hx), nextNonNullData_cons, if_pos hw,
              hdfs1, hdfs1, nextNonNullData_congr hnn1]
      · rw [if_neg hw]
        have hwf : isNonNullData f w = false := by simpa using hw
        obtain ⟨g, hg, hgl, hgf, hframe, hdur⟩ := ih f cur n hrest hnd2 hn
        refine ⟨g, hg, hgl, hgf, ?_, ?_⟩
        · intro x hx
          apply hframe
          rcases hx with h | h
          · left
            intro c
            apply h
            rw [hdrop]
            exact List.mem_cons_of_mem _ c
          · right
            exact h
        · intro k x hk hkx hx
          cases k with
          | zero =>
            have hxw : x = w := by simpa using hkx.symm
            subst hxw
            rw [hwf] at hx
            cases hx
          | succ k =>
            have hkx2 : (v :: rest2)[k]? = some x := by simpa using hkx
            have hk2 : k + 1 < (v :: rest2).length := by
              have : (v :: rest2).length = rest2.length + 1 := rfl
              omega
            rw [hdur k x hk2 hkx2 hx, nextNonNullData_cons, if_neg hw]

/-- C12: on a non-branching track, listed in `W` from its end token back to its
start token (an exclusive interpretation, so not a data token), the call
`assignDurationsToNonRhythmicTrack(endtoken, endtoken)` returns true; it gives
every non-null data token of the track the duration from its own start time
to the start time of the next non-null data token of the track, the end token
standing in where there is none, and it leaves every other token, and every
field other than the duration, as it was. -/
theorem assignDurationsToNonRhythmicTrack_durations (f : HumdrumFile) (W : List Nat)
    (endtoken fuel : Nat) (hchain : isBackwardChain f W = true)
    (hend : W.head? = some endtoken)
    (hstart : ∀ t, W.getLast? = some t → isNonNullData f t = false)
    (hfuel : W.length < fuel) :
    ∃ g, assignDurationsToNonRhythmicTrack fuel f endtoken endtoken = .done (true, g) ∧
      g.lines = f.lines ∧
      (∀ t, ∃ d, tokenAt g t = { tokenAt f t with duration := d }) ∧
      (∀ k t, W[k]? = some t → isNonNullData f t = true →
        (tokenAt g t).duration =
          tokenDurationFromStart f (nextNonNullData f W k endtoken) -
            tokenDurationFromStart f t) ∧
      (∀ t, isNonNullData f t = false → tokenAt g t = tokenAt f t) ∧
      (∀ t, t ∉ W → tokenAt g t = tokenAt f t) := by
  obtain ⟨g, hg, hgl, hgf, hframe, hdur⟩ := assignDurationsToNonRhythmicTrack_walk W f
    endtoken fuel hchain (isBackwardChain_nodup f W hchain) hfuel
  have hhead : W.headD 0 = endtoken := by
    cases W with
    | nil => cases hend
    | cons w rest =>
      simp only [List.head?_cons, Option.some.injEq] at hend
      simp only [List.headD_cons, hend]
  rw [hhead] at hg
  refine ⟨g, hg, hgl, hgf, ?_, fun t h => hframe t (Or.inr h),
    fun t h => hframe t (Or.inl (fun c => h (List.mem_of_mem_dropLast c)))⟩
  intro k t hkt ht
  have hk : k < W.length := by
    by_contra hc
    rw [List.getElem?_eq_none (Nat.le_of_not_lt hc)] at hkt
    cases hkt
  have hk2 : k + 1 < W.length := by
    by_contra hc
    have hke : k = W.length - 1 := by omega
    have hlast : W.getLast? = some t := by
      rw [List.getLast?_eq_getElem?, ← hke]
      exact hkt
    rw [hstart t hlast] at ht
    cases ht
  exact hdur k t hk2 hkt ht

theorem assignDurationsToNonRhythmicTrack_durations_witness :
    isBackwardChain c12File [4, 3, 2, 1, 0] = true ∧
    ∃ g, assignDurationsToNonRhythmicTrack 10 c12File 4 4 = .done (true, g) ∧
      g.lines = c12File.lines ∧
      (∀ t, ∃ d, tokenAt g t = { tokenAt c12File t with duration := d }) ∧
      (∀ k t, [4, 3, 2, 1, 0][k]? = some t → isNonNullData c12File t = true →
        (tokenAt g t).duration =
          tokenDurationFromStart c12File (nextNonNullData c12File [4, 3, 2, 1, 0] k 4) -
            tokenDurationFromStart c12File t) ∧
      (∀ t, isNonNullData c12File t = false → tokenAt g t = tokenAt c12File t) ∧
      (∀ t, t ∉ [4, 3, 2, 1, 0] → tokenAt g t = tokenAt c12File t) :=
  ⟨by decide!,
    assignDurationsToNonRhythmicTrack_durations c12File [4, 3, 2, 1, 0] 4 10 (by decide!) rfl
      (fun t h => by cases h; decide!) (by decide)⟩

/-- On `c12File` the pass over the spines without rhythm returns true; `a`
(time 0) lasts until `b` (time 3), 3 units, and `b` until the end token
(time 4), 1 unit; the null token and the interpretations keep the duration 0. -/
theorem analyzeDurationsOfNonRhythmicSpines_c12File :
    (analyzeDurationsOfNonRhythmicSpines 10 c12File).returnedTrue = true ∧
    c12After.tokens.map (fun t => t.duration) = [0, 3, 0, 1, 0] ∧
    nextNonNullData c12File [4, 3, 2, 1, 0] 3 4 = 3 ∧
    nextNonNullData c12File [4, 3, 2, 1, 0] 1 4 = 4 := by
  decide!

theorem cleanDursLoop_eq (durs : List HumNum) :
    ∀ zero positive : Bool, cleanDursLoop durs zero positive =
      (zero || durs.any (fun d => decide (d = 0)), positive || durs.any (fun d => decide (0 < d))) := by
  induction durs with
  | nil => intro z p; simp [cleanDursLoop]
  | cons d rest ih =>
    intro z p
    simp only [cleanDursLoop, List.any_cons]
    by_cases h1 : 0 < d
    · have h2 : d ≠ 0 := ne_of_gt h1
      simp [h1, h2, ih]
    · by_cases h2 : d = 0
      · simp [h2, ih]
      · simp [h1, h2, ih]

theorem cleanDurs_false_iff (durs : List HumNum) :
    cleanDurs durs = false ↔ (∃ d ∈ durs, d = 0) ∧ (∃ d ∈ durs, 0 < d) := by
  unfold cleanDurs
  rw [cleanDursLoop_eq]
  simp

/-- C27: `getTokenDurations(durs, line)` returns false exactly when some token
of the line has duration zero and some token of the line has a positive
duration; the outcome is the same with the tokens of negative duration left
out; and `durs` is always the list of the durations of the tokens of the line
in field order. -/
theorem getTokenDurations_false_iff (f : HumdrumFile) (line : Nat) :
    ((getTokenDurations f line).1 = false ↔
      (∃ t ∈ (lineAt f.lines line).tokens, (tokenAt f t).duration = 0) ∧
        (∃ t ∈ (lineAt f.lines line).tokens, 0 < (tokenAt f t).duration)) ∧
    (getTokenDurations f line).2 =
      (lineAt f.lines line).tokens.map (fun t => (tokenAt f t).duration) ∧
    cleanDurs ((lineAt f.lines line).tokens.map (fun t => (tokenAt f t).duration)) =
      cleanDurs (((lineAt f.lines line).tokens.map (fun t => (tokenAt f t).duration)).filter
        (fun d => decide (0 ≤ d))) := by
  refine ⟨?_, ?_, ?_⟩
  · have h : (getTokenDurations f line).1 =
        cleanDurs ((lineAt f.lines line).tokens.map (fun t => (tokenAt f t).duration)) := by
      unfold getTokenDurations
      simp only []
      split_ifs with hc
      · simp only [Bool.not_eq_true'] at hc
        exact hc.symm
      · simp only [Bool.not_eq_true', Bool.not_eq_false] at hc
        exact hc.symm
    rw [h, cleanDurs_false_iff]
    simp
  · unfold getTokenDurations
    simp only []
    split_ifs <;> rfl
  · unfold cleanDurs
    rw [cleanDursLoop_eq, cleanDursLoop_eq]
    have e1 : ∀ l : List HumNum, (l.filter (fun d => decide (0 ≤ d))).any (fun d => decide (d = 0)) =
        l.any (fun d => decide (d = 0)) := by
      intro l
      induction l with
      | nil => rfl
      | cons d rest ih =>
        by_cases h : 0 ≤ d
        · simp [List.filter_cons, h, ih]
        · have : d ≠ 0 := fun e => h (by rw [e])
          simp [List.filter_cons, h, ih, this]
    have e2 : ∀ l : List HumNum, (l.filter (fun d => decide (0 ≤ d))).any (fun d => decide (0 < d)) =
        l.any (fun d => decide (0 < d)) := by
      intro l
      induction l with
      | nil => rfl
      | cons d rest ih =>
        by_cases h : 0 ≤ d
        · simp [List.filter_cons, h, ih]
        · have : ¬ 0 < d := fun e => h (le_of_lt e)
          simp [List.filter_cons, h, ih, this]
    rw [e1, e2]

theorem decrementDurStatesLoop_spec (f : HumdrumFile) (line : Nat) (linedur : HumNum) :
    ∀ (n i : Nat) (durs : List HumNum), i + n = durs.length →
      durs.length ≤ (lineAt f.lines line).tokens.length →
      ((∀ k, i ≤ k → k < durs.length → fieldHasRhythm f line k = true →
          0 ≤ durs.getD k 0 - linedur) →
        ∃ out, decrementDurStatesLoop f line linedur n i durs = .done (true, out) ∧
          out.length = durs.length ∧
          ∀ k, k < durs.length → out.getD k 0 =
            if i ≤ k ∧ fieldHasRhythm f line k = true then durs.getD k 0 - linedur
            else durs.getD k 0) ∧
      ((∃ k, i ≤ k ∧ k < durs.length ∧ fieldHasRhythm f line k = true ∧
          durs.getD k 0 - linedur < 0) →
        ∃ out, decrementDurStatesLoop f line linedur n i durs = .done (false, out)) := by
  intro n
  induction n with
  | zero =>
    intro i durs hin hlen
    constructor
    · intro _
      refine ⟨durs, rfl, rfl, fun k hk => ?_⟩
      have : ¬ i ≤ k := by omega
      simp [this]
    · rintro ⟨k, h1, h2, _⟩
      omega
  | succ n ih =>
    intro i durs hin hlen
    have hi : i < (lineAt f.lines line).tokens.length := by omega
    have hidurs : i < durs.length := by omega
    have htok : (lineAt f.lines line).tokens[i]? = some ((lineAt f.lines line).tokens[i]) :=
      List.getElem?_eq_getElem hi
    have hfr : fieldHasRhythm f line i = (tokenAt f ((lineAt f.lines line).tokens[i])).hasRhythm := by
      unfold fieldHasRhythm
      rw [htok]
    have hget : ∀ (v : HumNum) (k : Nat), (durs.set i v).getD k 0 = if k = i then v else durs.getD k 0 := by
      intro v k
      by_cases hk : k = i
      · subst hk
        simp [List.getD_eq_getElem?_getD, hidurs]
      · have hk' : i ≠ k := fun e => hk e.symm
        simp [List.getD_eq_getElem?_getD, List.getElem?_set_ne hk', hk]
    simp only [decrementDurStatesLoop, htok]
    by_cases hr : (tokenAt f ((lineAt f.lines line).tokens[i])).hasRhythm = true
    · simp only [hr, Bool.not_true, Bool.false_eq_true, if_false]
      by_cases hneg : durs.getD i 0 - linedur < 0
      · rw [if_pos hneg]
        constructor
        · intro hall
          have := hall i (le_refl _) hidurs (by rw [hfr]; exact hr)
          exact absurd hneg (not_lt.mpr this)
        · intro _
          exact ⟨_, rfl⟩
      · rw [if_neg hneg]
        obtain ⟨ih1, ih2⟩ := ih (i + 1) (durs.set i (durs.getD i 0 - linedur))
          (by rw [List.length_set]; omega) (by rw [List.length_set]; exact hlen)
        constructor
        · intro hall
          obtain ⟨out, ho1, ho2, ho3⟩ := ih1 (by
            intro k hk1 hk2 hk3
            rw [List.length_set] at hk2
            rw [hget, if_neg (by omega)]
            exact hall k (by omega) hk2 hk3)
          refine ⟨out, ho1, by rw [ho2, List.length_set], fun k hk => ?_⟩
          rw [ho3 k (by rw [List.length_set]; exact hk), hget]
          by_cases hki : k = i
          · subst hki
            have h1 : ¬ (k + 1 ≤ k ∧ fieldHasRhythm f line k = true) := fun c => by omega
            rw [if_neg h1, if_pos rfl, if_pos ⟨le_refl _, by rw [hfr]; exact hr⟩]
          · rw [if_neg hki]
            by_cases hc : fieldHasRhythm f line k = true
            · by_cases hik : i ≤ k
              · rw [if_pos ⟨by omega, hc⟩, if_pos ⟨hik, hc⟩]
              · rw [if_neg (fun c => by omega), if_neg (fun c => hik c.1)]
            · rw [if_neg (fun c => hc c.2), if_neg (fun c => hc c.2)]
        · rintro ⟨k, hk1, hk2, hk3, hk4⟩
          apply ih2
          have hki : k ≠ i := by
            intro e
            subst e
            exact hneg hk4
          refine ⟨k, by omega, by rw [List.length_set]; exact hk2, hk3, ?_⟩
          rw [hget, if_neg hki]
          exact hk4
    · have hr' : (tokenAt f ((lineAt f.lines line).tokens[i])).hasRhythm = false := by
        simpa using hr
      simp only [hr', Bool.not_false, if_true]
      obtain ⟨ih1, ih2⟩ := ih (i + 1) durs (by omega) hlen
      constructor
      · intro hall
        obtain ⟨out, ho1, ho2, ho3⟩ := ih1 (fun k hk1 hk2 hk3 => hall k (by omega) hk2 hk3)
        refine ⟨out, ho1, ho2, fun k hk => ?_⟩
        rw [ho3 k hk]
        by_cases hki : k = i
        · subst hki
          rw [if_neg (fun c => by omega), if_neg (fun c => by rw [hfr, hr'] at c; cases c.2)]
        · by_cases hc : fieldHasRhythm f line k = true
          · by_cases hik : i ≤ k
            · rw [if_pos ⟨by omega, hc⟩, if_pos ⟨hik, hc⟩]
            · rw [if_neg (fun c => by omega), if_neg (fun c => hik c.1)]
          · rw [if_neg (fun c => hc c.2), if_neg (fun c => hc c.2)]
      · rintro ⟨k, hk1, hk2, hk3, hk4⟩
        apply ih2
        have hki : k ≠ i := by
          intro e
          subst e
          rw [hfr, hr'] at hk3
          cases hk3
        exact ⟨k, by omega, hk2, hk3, hk4⟩


/-- C28: for a vector `durs` with no more entries than the line has fields,
`decrementDurStates(durs, linedur, line)` returns; with `linedur` zero it
returns true and leaves `durs` as it is; with `linedur` not zero it returns
true exactly when `durs[i] - linedur` is not negative for every field `i`
whose token has rhythm, and then every such entry has been decreased by
`linedur` and the entries of the fields without rhythm are unchanged. -/
theorem decrementDurStates_spec (f : HumdrumFile) (durs : List HumNum) (linedur : HumNum)
    (line : Nat) (hlen : durs.length ≤ (lineAt f.lines line).tokens.length) :
    (linedur = 0 → decrementDurStates f durs linedur line = .done (true, durs)) ∧
    (∃ b out, decrementDurStates f durs linedur line = .done (b, out)) ∧
    (linedur ≠ 0 →
      ((∃ out, decrementDurStates f durs linedur line = .done (true, out)) ↔
        ∀ k, k < durs.length → fieldHasRhythm f line k = true →
          0 ≤ durs.getD k 0 - linedur) ∧
      ∀ out, decrementDurStates f durs linedur line = .done (true, out) →
        out.length = durs.length ∧
        ∀ k, k < durs.length → out.getD k 0 =
          if fieldHasRhythm f line k = true then durs.getD k 0 - linedur
          else durs.getD k 0) := by
  obtain ⟨h1, h2⟩ := decrementDurStatesLoop_spec f line linedur durs.length 0 durs
    (Nat.zero_add _) hlen
  have hall_or : (∀ k, k < durs.length → fieldHasRhythm f line k = true →
        0 ≤ durs.getD k 0 - linedur) ∨
      ∃ k, 0 ≤ k ∧ k < durs.length ∧ fieldHasRhythm f line k = true ∧
        durs.getD k 0 - linedur < 0 := by
    by_cases hc : ∀ k, k < durs.length → fieldHasRhythm f line k = true →
        0 ≤ durs.getD k 0 - linedur
    · exact Or.inl hc
    · right
      push_neg at hc
      obtain ⟨k, hk1, hk2, hk3⟩ := hc
      exact ⟨k, Nat.zero_le _, hk1, hk2, hk3⟩
  refine ⟨?_, ?_, ?_⟩
  · intro h0
    simp [decrementDurStates, h0]
  · by_cases h0 : linedur = 0
    · exact ⟨true, durs, by simp [decrementDurStates, h0]⟩
    · simp only [decrementDurStates, if_neg h0]
      rcases hall_or with hall | hex
      · obtain ⟨out, ho, _⟩ := h1 (fun k _ hk2 hk3 => hall k hk2 hk3)
        exact ⟨true, out, ho⟩
      · obtain ⟨out, ho⟩ := h2 hex
        exact ⟨false, out, ho⟩
  · intro h0
    simp only [decrementDurStates, if_neg h0]
    constructor
    · constructor
      · rintro ⟨out, ho⟩
        rcases hall_or with hall | hex
        · exact hall
        · obtain ⟨out2, ho2⟩ := h2 hex
          rw [ho] at ho2
          cases ho2
      · intro hall
        obtain ⟨out, ho, _⟩ := h1 (fun k _ hk2 hk3 => hall k hk2 hk3)
        exact ⟨out, ho⟩
    · intro out ho
      rcases hall_or with hall | hex
      · obtain ⟨out2, ho2, ho3, ho4⟩ := h1 (fun k _ hk2 hk3 => hall k hk2 hk3)
        rw [ho] at ho2
        cases ho2
        refine ⟨ho3, fun k hk => ?_⟩
        rw [ho4 k hk]
        simp
      · obtain ⟨out2, ho2⟩ := h2 hex
        rw [ho] at ho2
        cases ho2

theorem decrementDurStates_spec_witness :
    [(2 : HumNum), 5].length ≤ (lineAt c28File.lines 0).tokens.length ∧
    (1 : HumNum) ≠ 0 ∧
    decrementDurStates c28File [2, 5] 1 0 = .done (true, [1, 5]) ∧
    ([(1 : HumNum), 5].length = [(2 : HumNum), 5].length ∧
      ∀ k, k < [(2 : HumNum), 5].length → [(1 : HumNum), 5].getD k 0 =
        if fieldHasRhythm c28File 0 k = true then [(2 : HumNum), 5].getD k 0 - 1
        else [(2 : HumNum), 5].getD k 0) :=
  ⟨by decide!, by decide!, by decide!,
    ((decrementDurStates_spec c28File [2, 5] 1 0 (by decide!)).2.2 (by decide!)).2 [1, 5]
      (by decide!)⟩

/-- On `c28File` a running duration of `1/2` in the rhythmic field underflows
when a line duration of 1 is subtracted: the call returns false. -/
theorem decrementDurStates_underflow :
    decrementDurStates c28File [1 / 2, 5] 1 0 = .done (false, [-1 / 2, 5]) ∧
    decrementDurStates c28File [1 / 2, 5] 0 0 = .done (true, [1 / 2, 5]) := by
  decide!

theorem isNullDataLine_congr {l m : HumdrumLine} {w : HumNum}
    (h : l = { m with durationFromStart := w }) : isNullDataLine l = isNullDataLine m := by
  rw [h]
  rfl

/-- The scan writes null data lines only. -/
theorem analyzeNullLineRhythmsLoop_writes_null_only (L : List HumdrumLine) (fuel : Nat) :
    ∀ (i : Nat) (lines : List HumdrumLine) (nl : List Nat) (prev : Option Nat),
      (∀ x ∈ nl, isNullDataLine (lineAt L x) = true) →
      (∀ t, ∃ w, lineAt lines t = { lineAt L t with durationFromStart := w }) →
      ∀ t, isNullDataLine (lineAt L t) = false →
        lineAt (analyzeNullLineRhythmsLoop fuel i lines nl prev).2 t = lineAt lines t := by
  induction fuel with
  | zero => intro i lines nl prev _ _ t _; rfl
  | succ n ih =>
    intro i lines nl prev hnl hfl t ht
    have htn : t ∉ nl := fun hmem => by
      rw [hnl t hmem] at ht
      cases ht
    by_cases hk : isKnownLine (lineAt lines i) = true
    · rw [analyzeNullLineRhythmsLoop_known n i lines nl prev hk]
      cases prev with
      | none => exact ih (i + 1) lines [] (some i) (by simp) hfl t ht
      | some p =>
        simp only []
        rw [ih (i + 1) _ [] (some i) (by simp) (fun x => by
          obtain ⟨w, hw⟩ := assignNullLines_fields nl 0 (lineAt lines p).durationFromStart
            (((lineAt lines i).durationFromStart - (lineAt lines p).durationFromStart)
              / ((nl.length : HumNum) + 1)) lines x
          obtain ⟨w2, hw2⟩ := hfl x
          exact ⟨w, by rw [hw, hw2]⟩) t ht]
        exact assignNullLines_frame nl _ _ _ _ t htn
    · have hk' : isKnownLine (lineAt lines i) = false := by simpa using hk
      by_cases hb : isUnexpectedNegative (lineAt lines i) = true
      · have : analyzeNullLineRhythmsLoop (n + 1) i lines nl prev = (false, lines) := by
          unfold isUnexpectedNegative at hb
          simp only [Bool.and_eq_true, Bool.not_eq_true', decide_eq_true_eq] at hb
          obtain ⟨⟨⟨hs, hn⟩, hneg⟩, hd⟩ := hb
          cases prev <;> simp [analyzeNullLineRhythmsLoop, hs, hn, hneg, hd]
        rw [this]
      · have hb' : isUnexpectedNegative (lineAt lines i) = false := by simpa using hb
        rw [analyzeNullLineRhythmsLoop_skip n i lines nl prev hk' hb']
        apply ih (i + 1) lines _ prev _ hfl t ht
        intro x hx
        split_ifs at hx with hc
        · rcases List.mem_append.mp hx with hx | hx
          · exact hnl x hx
          · have hxi : x = i := by simpa using hx
            subst hxi
            obtain ⟨w, hw⟩ := hfl x
            rw [← isNullDataLine_congr hw]
            exact hc
        · exact hnl x hx

/-- C29: `analyzeNullLineRhythms` returns true when no data line that is not
all-rhythmic-null is without value, whatever the gaps between known lines
hold; it writes all-rhythmic-null data lines only, so that between two known
lines `a` and `b` without such a line between them every line is left as it
is; the step of the interpolation is the gap divided by the number of
collected null lines plus one, which is at least 1, and with no null line in
the gap the step is the gap itself. -/
theorem analyzeNullLineRhythms_empty_gap (lines : List HumdrumLine) :
    ((∀ t, t < lines.length → isUnexpectedNegative (lineAt lines t) = false) →
      (analyzeNullLineRhythms lines).1 = true) ∧
    (∀ t, isNullDataLine (lineAt lines t) = false →
      lineAt (analyzeNullLineRhythms lines).2 t = lineAt lines t) ∧
    (∀ a b, isKnownLine (lineAt lines a) = true → isKnownLine (lineAt lines b) = true →
      nullLinesBetween lines a b = [] →
      (∀ t, a ≤ t → t ≤ b →
        lineAt (analyzeNullLineRhythms lines).2 t = lineAt lines t) ∧
      ((lineAt lines b).durationFromStart - (lineAt lines a).durationFromStart) /
          (((nullLinesBetween lines a b).length : HumNum) + 1) =
        (lineAt lines b).durationFromStart - (lineAt lines a).durationFromStart) ∧
    (∀ a b, (1 : HumNum) ≤ ((nullLinesBetween lines a b).length : HumNum) + 1) := by
  have hframe : ∀ t, isNullDataLine (lineAt lines t) = false →
      lineAt (analyzeNullLineRhythms lines).2 t = lineAt lines t := fun t ht =>
    analyzeNullLineRhythmsLoop_writes_null_only lines lines.length 0 lines [] none
      (by simp) (fun x => ⟨(lineAt lines x).durationFromStart, rfl⟩) t ht
  have hknown : ∀ a, isKnownLine (lineAt lines a) = true →
      isNullDataLine (lineAt lines a) = false := by
    intro a ha
    unfold isKnownLine at ha
    unfold isNullDataLine
    simp only [Bool.and_eq_true, Bool.not_eq_true', decide_eq_true_eq] at ha
    simp [ha.1.2]
  refine ⟨?_, hframe, ?_, ?_⟩
  · intro hok
    obtain ⟨l1, nl1, p1, h1, _⟩ := analyzeNullLineRhythmsLoop_progress lines.length 0 0 lines
      [] none (by simp) (fun t _ ht => hok t (by omega))
    have hstart : analyzeNullLineRhythms lines =
        analyzeNullLineRhythmsLoop (lines.length + 0) 0 lines [] none := rfl
    rw [hstart, h1]
    rfl
  · intro a b hka hkb hgap
    constructor
    · intro t hat htb
      apply hframe
      rcases Nat.eq_or_lt_of_le hat with e | e
      · rw [← e]; exact hknown a hka
      · rcases Nat.eq_or_lt_of_le htb with e2 | e2
        · rw [e2]; exact hknown b hkb
        · by_contra hc
          have hc' : isNullDataLine (lineAt lines t) = true := by simpa using hc
          have hmem : t ∈ nullLinesBetween lines a b := by
            unfold nullLinesBetween
            rw [List.mem_filter, List.mem_range'_1]
            exact ⟨by omega, hc'⟩
          rw [hgap] at hmem
          cases hmem
    · rw [hgap]
      simp
  · intro a b
    have : (0 : HumNum) ≤ ((nullLinesBetween lines a b).length : HumNum) := Nat.cast_nonneg _
    linarith

theorem analyzeNullLineRhythms_empty_gap_witness :
    (∀ t, t < c29Lines.length → isUnexpectedNegative (lineAt c29Lines t) = false) ∧
    (analyzeNullLineRhythms c29Lines).1 = true ∧
    isKnownLine (lineAt c29Lines 0) = true ∧ isKnownLine (lineAt c29Lines 2) = true ∧
    nullLinesBetween c29Lines 0 2 = [] ∧
    (∀ t, 0 ≤ t → t ≤ 2 →
      lineAt (analyzeNullLineRhythms c29Lines).2 t = lineAt c29Lines t) :=
  ⟨by decide!, (analyzeNullLineRhythms_empty_gap c29Lines).1 (by decide!), by decide!,
    by decide!, by decide!,
    ((analyzeNullLineRhythms_empty_gap c29Lines).2.2.1 0 2 (by decide!) (by decide!)
      (by decide!)).1⟩

/-- On `c29Lines` the call returns true and leaves every line as it is. -/
theorem analyzeNullLineRhythms_c29Lines :
    analyzeNullLineRhythms c29Lines = (true, c29Lines) := by
  decide!

/-- C30: when the walk from the start token of a floating track along first
next-token links passes tokens on lines without value and reaches a token on a
line whose known value is zero (with nothing passed: the line of the start
token itself starts at 0), `analyzeRhythmOfFloatingSpine` returns false and
leaves the file as it is: no propagation is run. -/
theorem analyzeRhythmOfFloatingSpine_zero_anchor (f : HumdrumFile) (spinestart anchor : Nat)
    (passed : List Nat) (fuel : Nat)
    (hfuel : passed.length < fuel)
    (hreach : reachesByFirstNext f spinestart passed anchor)
    (hunknown : ∀ p ∈ passed, tokenDurationFromStart f p < 0)
    (hzero : tokenDurationFromStart f anchor = 0) :
    analyzeRhythmOfFloatingSpine fuel f spinestart = .done (false, f) := by
  have hknown : 0 ≤ tokenDurationFromStart f anchor := by rw [hzero]
  unfold analyzeRhythmOfFloatingSpine
  cases passed with
  | nil =>
    have hsa : spinestart = anchor := hreach
    subst hsa
    simp [hzero]
  | cons p rest =>
    have hw := floatingWalk_reaches f anchor (p :: rest) spinestart 0 fuel hfuel hreach
      hunknown hknown
    obtain ⟨hp, hrest⟩ := hreach
    subst hp
    have hneg : ¬ 0 ≤ tokenDurationFromStart f p := not_le.mpr (hunknown p (by simp))
    have hcount : 0 < (tokenAt f p).nextTokens.length := by
      cases hn : (tokenAt f p).nextTokens with
      | nil => rw [hn] at hrest; exact absurd hrest (by simp)
      | cons u more => simp
    simp only [hneg, if_false, hcount, if_true, hw, hzero, if_true]

theorem analyzeRhythmOfFloatingSpine_zero_anchor_witness :
    (reachesByFirstNext c9File 3 [3] 5 ∧ tokenDurationFromStart c9File 3 < 0 ∧
      tokenDurationFromStart c9File 5 = 0 ∧
      analyzeRhythmOfFloatingSpine 10 c9File 3 = .done (false, c9File)) ∧
    (reachesByFirstNext c9File 5 [] 5 ∧
      analyzeRhythmOfFloatingSpine 1 c9File 5 = .done (false, c9File)) :=
  ⟨⟨by decide!, by decide!, by decide!,
      analyzeRhythmOfFloatingSpine_zero_anchor c9File 3 5 [3] 10 (by decide) (by decide!)
        (by decide!) (by decide!)⟩,
    ⟨by decide!,
      analyzeRhythmOfFloatingSpine_zero_anchor c9File 5 5 [] 1 (by decide) (by decide!)
        (by decide!) (by decide!)⟩⟩

/-- After `analyzeMeter`, a line `i` before the barline `k`, with no barline
between them, stores as duration-to-barline the durations of the lines from
`i` up to `k`, line `i` included. -/
theorem analyzeMeter_toBarline_sum (ls : List HumdrumLine) (i k : Nat) (hik : i < k)
    (hk : k < ls.length) (hbk : (lineAt ls k).isBarline = true)
    (hnb : ∀ t, i < t → t < k → (lineAt ls t).isBarline = false) :
    (lineAt (analyzeMeter ls).1 i).durationToBarline =
      ∑ t in Finset.Ico i k, (lineAt ls t).duration := by
  unfold analyzeMeter
  simp only []
  obtain ⟨hlen, hf⟩ := analyzeMeterForward_fields ls.length 0 0 false ls []
  generalize (analyzeMeterForward ls.length 0 0 false ls []).1 = fw at hlen hf
  have hfd : ∀ t, (lineAt fw t).duration = (lineAt ls t).duration := by
    intro t; obtain ⟨w, hw⟩ := hf t; rw [hw]
  have hfb : ∀ t, (lineAt fw t).isBarline = (lineAt ls t).isBarline := by
    intro t; obtain ⟨w, hw⟩ := hf t; rw [hw]
  obtain ⟨l1, h1, h2, h3⟩ := analyzeMeterBackward_reset fw.length 0 fw k
    (by omega) (le_refl _) (by rw [hfb]; exact hbk)
  have hd1 : ∀ t, (lineAt l1 t).duration = (lineAt ls t).duration := by
    intro t; obtain ⟨w, hw⟩ := h3 t; rw [hw]; exact hfd t
  have hb1 : ∀ t, (lineAt l1 t).isBarline = (lineAt ls t).isBarline := by
    intro t; obtain ⟨w, hw⟩ := h3 t; rw [hw]; exact hfb t
  rw [h1, analyzeMeterBackward_toBarline k 0 l1 i hik (by omega)
    (fun t ht1 ht2 => by rw [hb1]; exact hnb t ht1 ht2), zero_add]
  simp only [hd1]

theorem sum_Ico_consecutive_differences (g : Nat → HumNum) (j : Nat) :
    ∀ k, j ≤ k → ∑ t in Finset.Ico j k, (g (t + 1) - g t) = g k - g j := by
  intro k hjk
  induction k with
  | zero =>
    have : j = 0 := by omega
    subst this
    simp
  | succ k ih =>
    rcases Nat.eq_or_lt_of_le hjk with e | e
    · subst e
      simp
    · rw [Finset.sum_Ico_succ_top (by omega), ih (by omega)]
      ring

/-- C22: after `assignLineDurations` and `analyzeMeter`, when `k` is the first
barline after line `i` (line `i` itself a barline or not), the
duration-to-barline stored on line `i` is the duration-from-start of line `k`
less the duration-from-start of line `i`; the two passes leave the
duration-from-start values as they were. -/
theorem analyzeMeter_durationToBarline_to_next_barline (lines ls : List HumdrumLine)
    (hassign : assignLineDurations lines = some ls) (i k : Nat)
    (hik : i < k) (hk : k < ls.length)
    (hbk : (lineAt ls k).isBarline = true)
    (hnb : ∀ t, i < t → t < k → (lineAt ls t).isBarline = false) :
    (lineAt (analyzeMeter ls).1 i).durationToBarline =
      (lineAt (analyzeMeter ls).1 k).durationFromStart -
        (lineAt (analyzeMeter ls).1 i).durationFromStart ∧
    (∀ t, (lineAt (analyzeMeter ls).1 t).durationFromStart =
      (lineAt lines t).durationFromStart) := by
  obtain ⟨ls1, h1, h2, h3⟩ :=
    assignLineDurations_result lines (assignLineDurations_some_pos hassign)
  have hls : ls1 = ls := Option.some.inj (h1.symm.trans hassign)
  subst hls
  have hdfs : ∀ t, (lineAt (analyzeMeter ls1).1 t).durationFromStart =
      (lineAt lines t).durationFromStart := by
    intro t
    obtain ⟨v, w, h⟩ := analyzeMeter_fields ls1 t
    rw [h, h3 t]
  refine ⟨?_, hdfs⟩
  rw [analyzeMeter_toBarline_sum ls1 i k hik hk hbk hnb, hdfs, hdfs,
    ← sum_Ico_consecutive_differences (fun t => (lineAt lines t).durationFromStart) i k
      (by omega)]
  apply Finset.sum_congr rfl
  intro t ht
  rw [Finset.mem_Ico] at ht
  rw [h3 t]
  have : t + 1 < lines.length := by omega
  simp [this]

theorem analyzeMeter_durationToBarline_to_next_barline_witness :
    assignLineDurations c3Lines = some c3Assigned ∧
    (lineAt c3Assigned 0).isBarline = true ∧ (lineAt c3Assigned 2).isBarline = true ∧
    (lineAt (analyzeMeter c3Assigned).1 0).durationToBarline =
      (lineAt (analyzeMeter c3Assigned).1 2).durationFromStart -
        (lineAt (analyzeMeter c3Assigned).1 0).durationFromStart ∧
    (lineAt c3Assigned 1).isBarline = false ∧
    (lineAt (analyzeMeter c3Assigned).1 1).durationToBarline =
      (lineAt (analyzeMeter c3Assigned).1 2).durationFromStart -
        (lineAt (analyzeMeter c3Assigned).1 1).durationFromStart :=
  ⟨by decide!, by decide!, by decide!,
    (analyzeMeter_durationToBarline_to_next_barline c3Lines c3Assigned (by decide!) 0 2
      (by decide) (by decide!) (by decide!)
      (fun t h1 h2 => by
        have ht : t = 1 := by omega
        subst ht
        decide!)).1,
    by decide!,
    (analyzeMeter_durationToBarline_to_next_barline c3Lines c3Assigned (by decide!) 1 2
      (by decide) (by decide!) (by decide!) (fun t h1 h2 => by omega)).1⟩

theorem skipNonDigits_eq (s : List Char) :
    ∀ n index, index + n = s.length →
      skipNonDigits s n index =
        index + ((s.drop index).takeWhile (fun c => !c.isDigit)).length := by
  intro n
  induction n with
  | zero =>
    intro index h
    have : s.drop index = [] := List.drop_eq_nil_of_le (by omega)
    simp [skipNonDigits, this]
  | succ n ih =>
    intro index h
    have hlt : index < s.length := by omega
    have hd : s.drop index = s[index] :: s.drop (index + 1) := List.drop_eq_getElem_cons hlt
    have hg : s.getD index ' ' = s[index] := by
      simp [List.getD_eq_getElem?_getD, hlt]
    simp only [skipNonDigits, hg, hd, List.takeWhile_cons]
    by_cases hdig : s[index].isDigit = true
    · simp [hdig]
    · have hdig2 : s[index].isDigit = false := by simpa using hdig
      simp only [hlt, hdig2, and_self, if_true, Bool.not_false, List.length_cons]
      rw [ih (index + 1) (by omega)]
      omega

/-- The scan of `getOctave` and `getOctaveString` on a note field: the value
of its first decimal digit, and 0 or the empty string where it has none. -/
theorem octaveOfField_spec (recordInfo : List Char) :
    (octaveOfField recordInfo =
      match recordInfo.dropWhile (fun c => !c.isDigit) with
      | [] => 0
      | d :: _ => (d.toNat : Int) - 48) ∧
    (octaveStringOfField recordInfo =
      match recordInfo.dropWhile (fun c => !c.isDigit) with
      | [] => []
      | d :: _ => [d]) := by
  have hidx := skipNonDigits_eq recordInfo recordInfo.length 0 (by omega)
  rw [Nat.zero_add, List.drop_zero] at hidx
  have hsplit := List.takeWhile_append_dropWhile (fun c => !c.isDigit) recordInfo
  unfold octaveOfField octaveStringOfField
  simp only [hidx]
  generalize List.takeWhile (fun c => !c.isDigit) recordInfo = tw at hsplit
  generalize List.dropWhile (fun c => !c.isDigit) recordInfo = dw at hsplit
  subst hsplit
  cases dw with
  | nil => simp
  | cons d rest =>
    have h1 : ¬ (tw.length ≥ (tw ++ d :: rest).length) := by simp
    have h2 : (tw ++ d :: rest).getD tw.length ' ' = d := by
      rw [List.getD_eq_getElem?_getD, List.getElem?_append_right (le_refl _), Nat.sub_self]
      simp
    simp only [h1, if_false, h2]
    constructor
    · rfl
    · trivial

/-- A record that is not a note record: `getNoteField` returns the empty
string, `getOctave` returns 0 and `getOctaveString` the empty string. -/
theorem getOctave_other (s : List Char) :
    getOctave { recordString := s, type := .other } =
      .value (0, { recordString := s, type := .other }) ∧
    getOctaveString { recordString := s, type := .other } =
      .value ([], { recordString := s, type := .other }) := by
  constructor <;> rfl

theorem addAt_nil (i : Nat) (c : Char) : addAt [] i c = none := by
  simp [addAt]

theorem extractLoop_nil (n : Nat) (i start : Int) (r : MuseRecordBasic)
    (out : List Char × MuseRecordBasic) :
    extractLoop (n + 1) i start r [] ≠ .value out := by
  intro h
  simp only [extractLoop] at h
  split at h
  · rw [addAt_nil] at h
    cases h
  · cases h
  · cases h

theorem extract_not_value (r : MuseRecordBasic) (start : Int) (n : Nat)
    (out : List Char × MuseRecordBasic) : extract r start (start + (n : Int)) ≠ .value out := by
  unfold extract
  have h : (start + (n : Int) - start + 1).toNat = n + 1 := by
    have : start + (n : Int) - start + 1 = ((n + 1 : Nat) : Int) := by push_cast; ring
    rw [this, Int.toNat_ofNat]
  rw [h]
  exact extractLoop_nil n 0 start r out

/-- C23 fails on the record `C4`: `extract(1, 4)` does not return the four
characters of columns 1 to 4; it modifies `output[0]` of the empty string
`output`.  For every record and all `start <= end` the call returns no
string: the local `output` is never grown. -/
theorem extract_never_returns :
    extract c23Record 1 4 = .undefined ∧
    (∀ (r : MuseRecordBasic) (start : Int) (n : Nat) (out : List Char × MuseRecordBasic),
      extract r start (start + (n : Int)) ≠ .value out) := by
  exact ⟨by decide!, extract_not_value⟩

/-- C24 fails on the record `C4`: the octave is 4, but `getOctave` and
`getOctaveString` do not return it, since `getNoteField` gets no string from
`extract`; the same holds for every record of one of the four note types. -/
theorem getOctave_never_returns :
    octaveOfField ['C', '4', ' ', ' '] = 4 ∧
    getOctave c23Record = .undefined ∧ getOctaveString c23Record = .undefined ∧
    (∀ (s : List Char) (out : Int × MuseRecordBasic),
      getOctave { recordString := s, type := .note_regular } ≠ .value out ∧
      getOctave { recordString := s, type := .note_chord } ≠ .value out ∧
      getOctave { recordString := s, type := .note_cue } ≠ .value out ∧
      getOctave { recordString := s, type := .note_grace } ≠ .value out) := by
  have key : ∀ (r : MuseRecordBasic) (start : Int) (n : Nat) (out : Int × MuseRecordBasic),
      (match extract r start (start + (n : Int)) with
        | .value (recordInfo, r1) => Outcome.value (octaveOfField recordInfo, r1)
        | .undefined => .undefined
        | .exited code => .exited code) ≠ .value out := by
    intro r start n out h
    split at h
    · rename_i recordInfo r1 heq
      exact extract_not_value r start n (recordInfo, r1) heq
    · cases h
    · cases h
  refine ⟨by decide!, by decide!, by decide!, ?_⟩
  intro s out
  exact ⟨key _ 1 3 out, key _ 2 3 out, key _ 2 3 out, key _ 2 3 out⟩

/-- C26 fails on `c26File`: barline 3 (`=2:`) lies after the directive
`*bar:dash=2`, and `removeBarStylings` leaves its text and the whole file as
they are.  The loop executes `return` at the first token that is not a
barline and at a barline met while `activeQ` is false; `activeQ` is set at
interpretation tokens only, so in every file no token of which is an
interpretation and a barline at once the call changes nothing. -/
theorem removeBarStylings_changes_nothing :
    exampleRegex.search (tokenAt c26File 1).text .dash = true ∧
    exampleRegex.replaceDestructive (tokenAt c26File 3).text ':' = ['=', '2'] ∧
    removeBarStylings exampleRegex 10 c26File 0 = .done c26File ∧
    processFile exampleRegex 10 true [0] c26File = .done c26File ∧
    (∀ (re : HumRegex) (fuel : Nat) (f : HumdrumFile) (spine : Nat),
      (∀ t, ((tokenAt f t).isInterpretation && (tokenAt f t).isBarline) = false) →
      removeBarStylings re (fuel + 1) f spine = .done f) := by
  refine ⟨by decide!, by decide!, by decide!, by decide!, ?_⟩
  intro re fuel f spine hno
  unfold removeBarStylings
  cases (tokenAt f spine).nextTokens.head? with
  | none => rfl
  | some current =>
    simp only [removeBarStylingsLoop]
    by_cases hb : (tokenAt f current).isBarline = true
    · have hi : (tokenAt f current).isInterpretation = false := by
        have := hno current
        rw [hb] at this
        simpa using this
      simp [hb, removeFlagsAt, hi]
    · simp [hb]

theorem TextOnly.refl (f : HumdrumFile) : TextOnly f f :=
  ⟨rfl, rfl, fun t => ⟨(tokenAt f t).text, rfl⟩⟩

theorem TextOnly.trans {f g h : HumdrumFile} (h1 : TextOnly f g) (h2 : TextOnly g h) :
    TextOnly f h := by
  refine ⟨h2.1.trans h1.1, h2.2.1.trans h1.2.1, fun t => ?_⟩
  obtain ⟨x, hx⟩ := h2.2.2 t
  obtain ⟨y, hy⟩ := h1.2.2 t
  exact ⟨x, by rw [hx, hy]⟩

theorem tokenAt_setText (f : HumdrumFile) (t x : Nat) (text : List Char) :
    tokenAt (setText f t text) x =
      if x = t ∧ t < f.tokens.length then { tokenAt f t with text := text }
      else tokenAt f x := by
  unfold setText tokenAt
  simp only []
  by_cases h : x = t
  · subst h
    by_cases h2 : x < f.tokens.length
    · simp [h2, List.getD_eq_getElem?_getD]
    · have h3 : f.tokens.length ≤ x := Nat.le_of_not_lt h2
      simp [h2, List.getD_eq_getElem?_getD, List.getElem?_eq_none h3, List.getElem?_set]
  · have h' : t ≠ x := fun e => h e.symm
    simp [h, h', List.getD_eq_getElem?_getD, List.getElem?_set_ne]

theorem TextOnly_setText (f : HumdrumFile) (t : Nat) (text : List Char) :
    TextOnly f (setText f t text) := by
  refine ⟨rfl, by simp [setText], fun x => ?_⟩
  rw [tokenAt_setText]
  split_ifs with h
  · exact ⟨text, by rw [h.1]⟩
  · exact ⟨(tokenAt f x).text, rfl⟩

theorem rowsWellFormed_spec {f : HumdrumFile} (h : rowsWellFormed f = true) (t u : Nat)
    (htu : (tokenAt f t).nextFieldToken = some u) :
    (tokenAt f u).owner = (tokenAt f t).owner ∧ t < u ∧ u < f.tokens.length := by
  have ht : t < f.tokens.length := by
    by_contra hc
    have h3 : f.tokens.length ≤ t := Nat.le_of_not_lt hc
    have : tokenAt f t = default := by
      unfold tokenAt
      simp [List.getD_eq_getElem?_getD, List.getElem?_eq_none h3]
    rw [this] at htu
    cases htu
  unfold rowsWellFormed at h
  rw [List.all_eq_true] at h
  have := h t (List.mem_range.mpr ht)
  rw [htu] at this
  simp only [Bool.and_eq_true, decide_eq_true_eq] at this
  exact ⟨this.1.1, this.1.2, this.2⟩

theorem rowsWellFormed_congr {f g : HumdrumFile} (h : TextOnly f g) :
    rowsWellFormed g = rowsWellFormed f := by
  unfold rowsWellFormed
  rw [h.2.1]
  congr 1
  funext t
  have e : ∀ x, (tokenAt g x).nextFieldToken = (tokenAt f x).nextFieldToken ∧
      (tokenAt g x).owner = (tokenAt f x).owner := by
    intro x
    obtain ⟨y, hy⟩ := h.2.2 x
    rw [hy]
    exact ⟨rfl, rfl⟩
  rw [(e t).1, (e t).2]
  cases (tokenAt f t).nextFieldToken with
  | none => rfl
  | some u => simp only [(e u).2]


/-- The inner loop of `applyBarStylings` from a token of the file on: it
returns, changes texts on the line of the token only, and styles the token
itself when it is of the track. -/
theorem styleRow_spec (track : Nat) (c : Char) :
    ∀ (fuel : Nat) (f : HumdrumFile) (r : Nat), rowsWellFormed f = true →
      r < f.tokens.length → f.tokens.length - r < fuel →
      ∃ g, styleRow fuel f track c (some r) = .done g ∧ TextOnly f g ∧
        (∀ t, (tokenAt f t).owner ≠ (tokenAt f r).owner → tokenAt g t = tokenAt f t) ∧
        (∀ t, t < r → tokenAt g t = tokenAt f t) ∧
        (track = (tokenAt f r).track → (tokenAt g r).text = styledText c (tokenAt f r).text) := by
  intro fuel
  induction fuel with
  | zero => intro f r _ _ h; omega
  | succ n ih =>
    intro f r hrows hr hfuel
    simp only [styleRow]
    by_cases htr : track = (tokenAt f r).track
    · rw [if_neg (not_not.mpr htr)]
      -- the file after the token itself
      have hstep : ∃ f1, TextOnly f f1 ∧
          (if c ∈ (tokenAt f r).text then
              styleRow n f track c (tokenAt f r).nextFieldToken
            else
              styleRow n (setText f r ((tokenAt f r).text ++ [c])) track c
                (tokenAt (setText f r ((tokenAt f r).text ++ [c])) r).nextFieldToken) =
            styleRow n f1 track c (tokenAt f r).nextFieldToken ∧
          (∀ t, t ≠ r → tokenAt f1 t = tokenAt f t) ∧
          (tokenAt f1 r).text = styledText c (tokenAt f r).text := by
        by_cases hc : c ∈ (tokenAt f r).text
        · exact ⟨f, TextOnly.refl f, by rw [if_pos hc], fun _ _ => rfl, by simp [styledText, hc]⟩
        · refine ⟨setText f r ((tokenAt f r).text ++ [c]), TextOnly_setText _ _ _, ?_, ?_, ?_⟩
          · rw [if_neg hc]
            congr 1
            rw [tokenAt_setText, if_pos ⟨rfl, hr⟩]
          · intro t ht
            rw [tokenAt_setText, if_neg (fun h => ht h.1)]
          · rw [tokenAt_setText, if_pos ⟨rfl, hr⟩]
            simp [styledText, hc]
      obtain ⟨f1, hto, heq, hne, htext⟩ := hstep
      rw [heq]
      cases hnext : (tokenAt f r).nextFieldToken with
      | none =>
        have : styleRow n f1 track c none = .done f1 := by
          cases n <;> rfl
        rw [this]
        refine ⟨f1, rfl, hto, fun t ht => ?_, fun t ht => hne t (by omega), fun _ => htext⟩
        apply hne
        intro e
        rw [e] at ht
        exact ht rfl
      | some u =>
        obtain ⟨hou, hru, hul⟩ := rowsWellFormed_spec hrows r u hnext
        have hrows1 : rowsWellFormed f1 = true := by rw [rowsWellFormed_congr hto]; exact hrows
        obtain ⟨g, hg, hto2, hfr, hlt, _⟩ := ih f1 u hrows1 (by rw [hto.2.1]; exact hul)
          (by rw [hto.2.1]; omega)
        have hown : ∀ t, (tokenAt f1 t).owner = (tokenAt f t).owner := by
          intro t
          obtain ⟨x, hx⟩ := hto.2.2 t
          rw [hx]
        refine ⟨g, hg, hto.trans hto2, ?_, ?_, fun _ => ?_⟩
        · intro t ht
          have hne_r : t ≠ r := by
            intro e
            rw [e] at ht
            exact ht rfl
          rw [hfr t (by rw [hown, hown, hou]; exact ht), hne t hne_r]
        · intro t ht
          rw [hlt t (by omega), hne t (by omega)]
        · rw [hlt r hru, htext]
    · rw [if_pos htr]
      exact ⟨f, rfl, TextOnly.refl f, fun _ _ => rfl, fun _ _ => rfl, fun h => absurd h htr⟩


theorem lt_length_of_isBarline {f : HumdrumFile} {t : Nat}
    (h : (tokenAt f t).isBarline = true) : t < f.tokens.length := by
  by_contra hlt
  have h3 : f.tokens.length ≤ t := Nat.le_of_not_lt hlt
  have : tokenAt f t = default := by
    unfold tokenAt
    simp [List.getD_eq_getElem?_getD, List.getElem?_eq_none h3]
  rw [this] at h
  cases h

theorem expectedText_congr {f g : HumdrumFile} {s : Nat} (h : tokenAt g s = tokenAt f s)
    (st : BarState) : expectedText g st s = expectedText f st s := by
  unfold expectedText
  rw [h]

/-- The styling of one barline met while `activeQ` is true. -/
theorem styleBarline_spec (fuel : Nat) (f : HumdrumFile) (s : Nat) (st : BarState)
    (hrows : rowsWellFormed f = true) (hfuel : f.tokens.length - s < fuel)
    (hbar : isPlainBarline f s = true) (hact : st.activeQ = true) :
    ∃ g, styleBarline fuel f s st = .done g ∧ TextOnly f g ∧
      (∀ t, (tokenAt f t).owner ≠ (tokenAt f s).owner → tokenAt g t = tokenAt f t) ∧
      (tokenAt g s).text = expectedText f st s := by
  unfold isPlainBarline at hbar
  simp only [Bool.and_eq_true, Bool.not_eq_true'] at hbar
  obtain ⟨hi, hb⟩ := hbar
  have hs : s < f.tokens.length := lt_length_of_isBarline hb
  have row : ∀ c, ∃ g, styleRow fuel f (tokenAt f s).track c (some s) = .done g ∧ TextOnly f g ∧
      (∀ t, (tokenAt f t).owner ≠ (tokenAt f s).owner → tokenAt g t = tokenAt f t) ∧
      (tokenAt g s).text = styledText c (tokenAt f s).text := by
    intro c
    obtain ⟨g, h1, h2, h3, _, h5⟩ := styleRow_spec (tokenAt f s).track c fuel f s hrows hs hfuel
    exact ⟨g, h1, h2, h3, h5 rfl⟩
  have same : ∃ g, Run.done f = Run.done g ∧ TextOnly f g ∧
      (∀ t, (tokenAt f t).owner ≠ (tokenAt f s).owner → tokenAt g t = tokenAt f t) ∧
      (tokenAt g s).text = (tokenAt f s).text :=
    ⟨f, rfl, TextOnly.refl f, fun _ _ => rfl, rfl⟩
  unfold styleBarline expectedText
  simp only [hi, hb, hact, Bool.false_eq_true, if_false, Bool.not_true]
  by_cases h1 : st.dashQ = true ∧ st.dash > 0
  · simp only [h1, and_self, if_true]
    by_cases h2 : st.counter % st.dash ≠ 0
    · simp only [h2, if_true, ne_eq, not_false_eq_true]
      exact row ':'
    · simp only [h2, if_false]
      exact same
  · simp only [if_neg h1]
    by_cases h3 : st.dotQ = true ∧ st.dot > 0
    · simp only [h3, and_self, if_true]
      by_cases h2 : st.counter % st.dot ≠ 0
      · simp only [h2, if_true, ne_eq, not_false_eq_true]
        exact row '.'
      · simp only [h2, if_false]
        exact same
    · simp only [if_neg h3]
      by_cases h4 : st.invisQ = true ∧ st.invis > 0
      · simp only [h4, and_self, if_true]
        by_cases h2 : st.counter % st.invis ≠ 0
        · simp only [h2, if_true, ne_eq, not_false_eq_true]
          exact row '-'
        · simp only [h2, if_false]
          exact same
      · simp only [if_neg h4]
        exact same


theorem applyBarStylingsLoop_none (re : HumRegex) (fuel : Nat) (f : HumdrumFile)
    (st : BarState) : applyBarStylingsLoop re fuel f none st = .done f := by
  cases fuel <;> rfl

theorem stateBefore_zero (re : HumRegex) (f : HumdrumFile) (st : BarState) (S : List Nat) :
    stateBefore re f st S 0 = st := by
  simp [stateBefore]

theorem stateBefore_cons (re : HumRegex) (f : HumdrumFile) (st : BarState) (s : Nat)
    (rest : List Nat) (i : Nat) :
    stateBefore re f st (s :: rest) (i + 1) = stateBefore re f (stepState re f st s) rest i := by
  simp [stateBefore]

/-- The loop of `applyBarStylings` along a walk `S` of tokens on lines of their
own: it returns, and every token of the walk has the text its own round of the
loop gives it. -/
theorem applyBarStylingsLoop_spec (re : HumRegex) (f0 : HumdrumFile)
    (hrows : rowsWellFormed f0 = true) :
    ∀ (S : List Nat) (f : HumdrumFile) (st : BarState) (cur : Option Nat) (fuel : Nat),
      TextOnly f0 f → isSpineWalk f0 cur S = true →
      (S.map fun s => (tokenAt f0 s).owner).Nodup →
      (∀ t, (tokenAt f0 t).owner ∈ S.map (fun s => (tokenAt f0 s).owner) →
        tokenAt f t = tokenAt f0 t) →
      S.length + f0.tokens.length < fuel →
      ∃ g, applyBarStylingsLoop re fuel f cur st = .done g ∧ TextOnly f0 g ∧
        (∀ t, (tokenAt f0 t).owner ∉ S.map (fun s => (tokenAt f0 s).owner) →
          tokenAt g t = tokenAt f t) ∧
        (∀ i s, S[i]? = some s →
          (tokenAt g s).text = expectedText f0 (stateBefore re f0 st S i) s) := by
  intro S
  induction S with
  | nil =>
    intro f st cur fuel hto hwalk _ _ _
    have hc : cur = none := by
      simpa [isSpineWalk] using hwalk
    subst hc
    rw [applyBarStylingsLoop_none]
    exact ⟨f, rfl, hto, fun _ _ => rfl, fun i s h => by simp at h⟩
  | cons s rest ih =>
    intro f st cur fuel hto hwalk hnd hun hfuel
    simp only [isSpineWalk, Bool.and_eq_true, decide_eq_true_eq] at hwalk
    obtain ⟨hcur, hrest⟩ := hwalk
    subst hcur
    simp only [List.map_cons, List.nodup_cons] at hnd
    obtain ⟨hsnot, hnd2⟩ := hnd
    obtain ⟨n, rfl⟩ : ∃ n, fuel = n + 1 := ⟨fuel - 1, by simp at hfuel; omega⟩
    have hlen : (s :: rest).length = rest.length + 1 := rfl
    rw [hlen] at hfuel
    have hs : tokenAt f s = tokenAt f0 s := hun s (by simp)
    have hown : ∀ t, (tokenAt f t).owner = (tokenAt f0 t).owner := by
      intro t
      obtain ⟨x, hx⟩ := hto.2.2 t
      rw [hx]
    have finish : ∀ (f1 : HumdrumFile), TextOnly f f1 →
        (∀ t, (tokenAt f0 t).owner ≠ (tokenAt f0 s).owner → tokenAt f1 t = tokenAt f t) →
        (tokenAt f1 s).text = expectedText f0 st s →
        applyBarStylingsLoop re (n + 1) f (some s) st =
          applyBarStylingsLoop re n f1 (tokenAt f0 s).nextTokens.head?
            (stepState re f0 st s) →
        ∃ g, applyBarStylingsLoop re (n + 1) f (some s) st = .done g ∧ TextOnly f0 g ∧
          (∀ t, (tokenAt f0 t).owner ∉ (s :: rest).map (fun s => (tokenAt f0 s).owner) →
            tokenAt g t = tokenAt f t) ∧
          (∀ i s1, (s :: rest)[i]? = some s1 →
            (tokenAt g s1).text = expectedText f0 (stateBefore re f0 st (s :: rest) i) s1) := by
      intro f1 hto1 hframe htext heq
      obtain ⟨g, hg, htog, hgframe, hgtext⟩ := ih f1 (stepState re f0 st s)
        (tokenAt f0 s).nextTokens.head? n (hto.trans hto1) hrest hnd2
        (fun t ht => by
          have hne : (tokenAt f0 t).owner ≠ (tokenAt f0 s).owner := by
            intro e
            rw [e] at ht
            exact hsnot ht
          rw [hframe t hne]
          exact hun t (by simp [ht]))
        (by omega)
      refine ⟨g, by rw [heq, hg], htog, ?_, ?_⟩
      · intro t ht
        simp only [List.map_cons, List.mem_cons, not_or] at ht
        rw [hgframe t ht.2, hframe t ht.1]
      · intro i s1 hi
        cases i with
        | zero =>
          have hs1 : s1 = s := by simpa using hi.symm
          subst hs1
          rw [stateBefore_zero, hgframe s1 hsnot, htext]
        | succ i =>
          have hi2 : rest[i]? = some s1 := by simpa using hi
          rw [stateBefore_cons]
          exact hgtext i s1 hi2
    by_cases hint : (tokenAt f0 s).isInterpretation = true
    · apply finish f (TextOnly.refl f) (fun _ _ => rfl)
      · rw [hs]
        simp [expectedText, hint]
      · simp only [applyBarStylingsLoop, hs, hint, if_true, stepState]
    · have hint2 : (tokenAt f0 s).isInterpretation = false := by simpa using hint
      by_cases hbar : (tokenAt f0 s).isBarline = true
      · by_cases hact : st.activeQ = true
        · have hrowsf : rowsWellFormed f = true := by rw [rowsWellFormed_congr hto]; exact hrows
          have hpb : isPlainBarline f s = true := by
            unfold isPlainBarline
            rw [hs, hint2, hbar]
            rfl
          obtain ⟨g1, hg1, hto1, hfr1, htx1⟩ := styleBarline_spec n f s st hrowsf
            (by rw [hto.2.1]; omega) hpb hact
          apply finish g1 hto1
          · intro t ht
            apply hfr1
            rw [hown, hown]
            exact ht
          · rw [htx1]
            exact expectedText_congr hs st
          · have hnext : (tokenAt g1 s).nextTokens = (tokenAt f0 s).nextTokens := by
              obtain ⟨x, hx⟩ := hto1.2.2 s
              rw [hx, hs]
            simp only [applyBarStylingsLoop, hs, hint2, hbar, hact, hg1, hnext, stepState,
              Bool.false_eq_true, if_false, Bool.not_true]
        · have hact2 : st.activeQ = false := by simpa using hact
          apply finish f (TextOnly.refl f) (fun _ _ => rfl)
          · rw [hs]
            simp [expectedText, hint2, hbar, hact2]
          · simp only [applyBarStylingsLoop, hs, hint2, hbar, hact2, stepState,
              Bool.false_eq_true, if_false, Bool.not_true, Bool.not_false, if_true]
      · have hbar2 : (tokenAt f0 s).isBarline = false := by simpa using hbar
        apply finish f (TextOnly.refl f) (fun _ _ => rfl)
        · rw [hs]
          simp [expectedText, hint2, hbar2]
        · simp only [applyBarStylingsLoop, hs, hint2, hbar2, stepState,
            Bool.false_eq_true, if_false, Bool.not_false, if_true]


theorem holdsStyle_applyDirective (re : HumRegex) (text : List Char) (st : BarState)
    (c : Char) (n : Int) (h : styleDirective re text = some (c, n)) :
    holdsStyle c n 0 (applyDirective re text st) := by
  unfold styleDirective at h
  unfold applyDirective holdsStyle
  cases hbar : re.search text .bar <;> cases hstop : re.search text .stop <;>
    cases hdash : re.search text .dash <;> cases hdot : re.search text .dot <;>
    cases hinv : re.search text .invis <;> simp_all <;> exact h.1.symm

theorem holdsStyle_stepState (re : HumRegex) (f : HumdrumFile) (st : BarState) (t : Nat)
    (c : Char) (n k : Int) (h : holdsStyle c n k st) (hk : keepsStyle re f t = true) :
    holdsStyle c n (k + if isPlainBarline f t = true then 1 else 0) (stepState re f st t) := by
  obtain ⟨hact, hcount, hst⟩ := h
  unfold keepsStyle at hk
  unfold stepState isPlainBarline applyDirective holdsStyle
  cases hint : (tokenAt f t).isInterpretation <;> cases hb : (tokenAt f t).isBarline <;>
    cases hbar : re.search (tokenAt f t).text .bar <;>
    cases hstop : re.search (tokenAt f t).text .stop <;>
    cases hdash : re.search (tokenAt f t).text .dash <;>
    cases hdot : re.search (tokenAt f t).text .dot <;>
    cases hinv : re.search (tokenAt f t).text .invis <;> simp_all

theorem holdsStyle_foldl (re : HumRegex) (f : HumdrumFile) (c : Char) (n : Int) :
    ∀ (mid : List Nat) (st : BarState) (k : Int), holdsStyle c n k st →
      (∀ t ∈ mid, keepsStyle re f t = true) →
      holdsStyle c n (k + ((mid.filter (isPlainBarline f)).length : Int))
        (mid.foldl (stepState re f) st) := by
  intro mid
  induction mid with
  | nil => intro st k h _; simpa using h
  | cons t rest ih =>
    intro st k h hk
    simp only [List.foldl_cons]
    have h1 := holdsStyle_stepState re f st t c n k h (hk t (by simp))
    have h2 := ih _ _ h1 (fun u hu => hk u (by simp [hu]))
    cases hp : isPlainBarline f t with
    | true =>
      rw [hp] at h2
      rw [List.filter_cons_of_pos hp, List.length_cons]
      have e : k + ((((rest.filter (isPlainBarline f)).length + 1 : Nat)) : Int) =
          (k + if true = true then 1 else 0) +
            ((rest.filter (isPlainBarline f)).length : Int) := by
        push_cast
        simp only [if_true]
        ring
      rw [e]
      exact h2
    | false =>
      rw [hp] at h2
      rw [List.filter_cons_of_neg (by rw [hp]; simp)]
      have e : k + ((rest.filter (isPlainBarline f)).length : Int) =
          (k + if false = true then 1 else 0) +
            ((rest.filter (isPlainBarline f)).length : Int) := by
        simp
      rw [e]
      exact h2

theorem expectedText_of_holdsStyle (f : HumdrumFile) (st : BarState) (b : Nat) (c : Char)
    (n k : Int) (h : holdsStyle c n k st) (hn : 0 < n) (hb : isPlainBarline f b = true) :
    expectedText f st b =
      if k % n = 0 then (tokenAt f b).text else styledText c (tokenAt f b).text := by
  obtain ⟨hact, hcount, hst⟩ := h
  unfold isPlainBarline at hb
  simp only [Bool.and_eq_true, Bool.not_eq_true'] at hb
  unfold expectedText
  have e1 : ¬ ((tokenAt f b).isInterpretation = true) := by simp [hb.1]
  have e2 : ¬ ((!(tokenAt f b).isBarline) = true) := by simp [hb.2]
  have e3 : ¬ ((!st.activeQ) = true) := by simp [hact]
  rw [if_neg e1, if_neg e2, if_neg e3]
  rcases hst with ⟨hc, h1, h2⟩ | ⟨hc, h1, h2, h3⟩ | ⟨hc, h1, h2, h3, h4⟩
  · subst hc
    rw [if_pos ⟨h1, by rw [h2]; exact hn⟩, hcount, h2]
    by_cases hz : k % n = 0
    · rw [if_neg (not_not.mpr hz), if_pos hz]
    · rw [if_pos hz, if_neg hz]
  · subst hc
    rw [if_neg (fun x => by rw [h1] at x; exact Bool.false_ne_true x.1),
      if_pos ⟨h2, by rw [h3]; exact hn⟩, hcount, h3]
    by_cases hz : k % n = 0
    · rw [if_neg (not_not.mpr hz), if_pos hz]
    · rw [if_pos hz, if_neg hz]
  · subst hc
    rw [if_neg (fun x => by rw [h1] at x; exact Bool.false_ne_true x.1),
      if_neg (fun x => by rw [h2] at x; exact Bool.false_ne_true x.1),
      if_pos ⟨h3, by rw [h4]; exact hn⟩, hcount, h4]
    by_cases hz : k % n = 0
    · rw [if_neg (not_not.mpr hz), if_pos hz]
    · rw [if_pos hz, if_neg hz]


/-- C25: let the walk of `applyBarStylings` down a spine pass the tokens `pre`,
then a style directive `d` (`*bar:dash=N`, `*bar:dot=N` or `*bar:invis=N`, with
the character `c` being `:`, `.` or `-`) with `N > 0`, then the tokens `mid`,
none of them a `*bar:` directive with `stop` or a style, then the barline `b`,
every token of the walk on a line of its own.  Then the call returns, it
changes texts only, and with `k` the number of barlines in `mid` the barline
`b` keeps its text when `k mod N = 0` and otherwise gets one `c` appended,
unless its text has a `c` already. -/
theorem applyBarStylings_hypermeter (re : HumRegex) (f : HumdrumFile) (spine : Nat)
    (pre mid post : List Nat) (d b : Nat) (c : Char) (n : Int) (fuel : Nat)
    (hrows : rowsWellFormed f = true)
    (hwalk : isSpineWalk f (tokenAt f spine).nextTokens.head?
      (pre ++ d :: (mid ++ b :: post)) = true)
    (hlines : ((pre ++ d :: (mid ++ b :: post)).map fun s => (tokenAt f s).owner).Nodup)
    (hd : (tokenAt f d).isInterpretation = true)
    (hstyle : styleDirective re (tokenAt f d).text = some (c, n))
    (hn : 0 < n)
    (hmid : ∀ t ∈ mid, keepsStyle re f t = true)
    (hb : isPlainBarline f b = true)
    (hfuel : (pre ++ d :: (mid ++ b :: post)).length + f.tokens.length < fuel) :
    ∃ g, applyBarStylings re fuel f spine = .done g ∧ TextOnly f g ∧
      (tokenAt g b).text =
        if ((mid.filter (isPlainBarline f)).length : Int) % n = 0 then (tokenAt f b).text
        else styledText c (tokenAt f b).text := by
  obtain ⟨g, hg, hto, _, htext⟩ := applyBarStylingsLoop_spec re f hrows
    (pre ++ d :: (mid ++ b :: post)) f BarState.start (tokenAt f spine).nextTokens.head? fuel
    (TextOnly.refl f) hwalk hlines (fun _ _ => rfl) hfuel
  refine ⟨g, hg, hto, ?_⟩
  have hS : pre ++ d :: (mid ++ b :: post) = (pre ++ d :: mid) ++ b :: post := by simp
  have hidx : (pre ++ d :: (mid ++ b :: post))[(pre ++ d :: mid).length]? = some b := by
    rw [hS, List.getElem?_append_right (le_refl _), Nat.sub_self]
    simp
  have htake : (pre ++ d :: (mid ++ b :: post)).take (pre ++ d :: mid).length =
      pre ++ d :: mid := by
    rw [hS, List.take_left']
    rfl
  rw [htext _ b hidx]
  have hstate : stateBefore re f BarState.start (pre ++ d :: (mid ++ b :: post))
      (pre ++ d :: mid).length =
      mid.foldl (stepState re f)
        (applyDirective re (tokenAt f d).text (pre.foldl (stepState re f) BarState.start)) := by
    unfold stateBefore
    rw [htake, List.foldl_append, List.foldl_cons]
    congr 1
    unfold stepState
    rw [if_pos hd]
  rw [hstate]
  have h1 := holdsStyle_applyDirective re (tokenAt f d).text
    (pre.foldl (stepState re f) BarState.start) c n hstyle
  have h2 := holdsStyle_foldl re f c n mid _ 0 h1 hmid
  rw [zero_add] at h2
  exact expectedText_of_holdsStyle f _ b c n _ h2 hn hb

theorem applyBarStylings_hypermeter_witness :
    rowsWellFormed c25File = true ∧
    isSpineWalk c25File (tokenAt c25File 0).nextTokens.head?
      ([] ++ 1 :: ([2, 3] ++ 5 :: [7, 9, 10])) = true ∧
    styleDirective exampleRegex (tokenAt c25File 1).text = some (':', 2) ∧
    isPlainBarline c25File 5 = true ∧
    ∃ g, applyBarStylings exampleRegex 30 c25File 0 = .done g ∧ TextOnly c25File g ∧
      (tokenAt g 5).text =
        if (([2, 3].filter (isPlainBarline c25File)).length : Int) % 2 = 0 then
          (tokenAt c25File 5).text
        else styledText ':' (tokenAt c25File 5).text :=
  ⟨by decide!, by decide!, by decide!, by decide!,
    applyBarStylings_hypermeter exampleRegex c25File 0 [] [2, 3] [7, 9, 10] 1 5 ':' 2 30
      (by decide!) (by decide!) (by decide!) (by decide!) (by decide!) (by decide)
      (by decide!) (by decide!) (by decide!)⟩

/-- On `c25File` the call returns; of the three barlines after `*bar:dash=2`
the first and the third keep their texts and the second, in both of its
fields, gets a colon; all other tokens keep their texts. -/
theorem applyBarStylings_c25File :
    applyBarStylings exampleRegex 30 c25File 0 = .done c25After ∧
    c25After.tokens.map (fun t => t.text) =
      [['*', '*', 'k', 'e', 'r', 'n'],
        ['*', 'b', 'a', 'r', ':', 'd', 'a', 's', 'h', '=', '2'], ['*', '^'],
        ['=', '1'], ['=', '1'], ['=', '2', ':'], ['=', '2', ':'], ['*', 'v'], ['*', 'v'],
        ['=', '3'], ['*', '-']] := by
  decide!

/-- The backward loop of `fillInNegativeStartTimes`: what it leaves on the
lines below `i`, in terms of the lines it is entered with. -/
theorem fillBackward_values :
    ∀ (i : Nat) (lastdur : HumNum) (lines : List HumdrumLine), i ≤ lines.length →
      (fillBackward i lastdur lines).2.length = lines.length ∧
      (∀ t, i ≤ t → lineAt (fillBackward i lastdur lines).2 t = lineAt lines t) ∧
      (∀ t, ∃ w, lineAt (fillBackward i lastdur lines).2 t =
        { lineAt lines t with durationFromStart := w }) ∧
      (∀ t, t < i → 0 ≤ (lineAt lines t).durationFromStart →
        (lineAt (fillBackward i lastdur lines).2 t).durationFromStart =
          (lineAt lines t).durationFromStart) ∧
      (∀ t u, t < u → u < i → (lineAt lines t).durationFromStart < 0 →
        0 ≤ (lineAt lines u).durationFromStart →
        (∀ m, t < m → m < u → (lineAt lines m).durationFromStart < 0) →
        (lineAt (fillBackward i lastdur lines).2 t).durationFromStart =
          (lineAt lines u).durationFromStart) ∧
      (∀ t, t < i → (lineAt lines t).durationFromStart < 0 →
        (∀ m, t < m → m < i → (lineAt lines m).durationFromStart < 0) →
        (lineAt (fillBackward i lastdur lines).2 t).durationFromStart =
          if 0 ≤ lastdur then lastdur else (lineAt lines t).durationFromStart) ∧
      ((0 ≤ lastdur ∨ ∃ u, u < i ∧ 0 ≤ (lineAt lines u).durationFromStart) →
        0 ≤ (fillBackward i lastdur lines).1) := by
  intro i
  induction i with
  | zero =>
    intro lastdur lines _
    refine ⟨rfl, fun _ _ => rfl, fun t => ⟨_, rfl⟩, fun t h => by omega,
      fun t u _ h => by omega, fun t h => by omega, ?_⟩
    rintro (h | ⟨u, hu, _⟩)
    · exact h
    · omega
  | succ i ih =>
    intro lastdur lines hi
    have hil : i < lines.length := by omega
    simp only [fillBackward]
    have hval := fillBackward_step_value lines i lastdur hil
    have hlen1 := fillBackward_step_length lines i lastdur
    have hfl1 : ∀ t, ∃ w, lineAt (if (lineAt lines i).durationFromStart < 0 ∧ 0 ≤ lastdur then
        setDurationFromStart lines i lastdur else lines) t =
        { lineAt lines t with durationFromStart := w } := by
      intro t
      split_ifs
      · exact setDurationFromStart_fields lines i t lastdur
      · exact ⟨_, rfl⟩
    have hne1 : ∀ t, t ≠ i → lineAt (if (lineAt lines i).durationFromStart < 0 ∧ 0 ≤ lastdur then
        setDurationFromStart lines i lastdur else lines) t = lineAt lines t := by
      intro t ht
      split_ifs
      · rw [lineAt_setDurationFromStart, if_neg (fun c => ht c.1)]
      · rfl
    generalize (if (lineAt lines i).durationFromStart < 0 ∧ 0 ≤ lastdur then
        setDurationFromStart lines i lastdur else lines) = lines1 at hval hlen1 hfl1 hne1
    have hvi : (lineAt lines1 i).durationFromStart =
        if (lineAt lines i).durationFromStart < 0 ∧ 0 ≤ lastdur then lastdur
        else (lineAt lines i).durationFromStart := by
      rw [hval i, if_pos rfl]
    obtain ⟨r1, r2, r3, r4, r5, r6, r7⟩ := ih
      (if 0 ≤ (lineAt lines i).durationFromStart then (lineAt lines i).durationFromStart
        else lastdur) lines1 (by omega)
    refine ⟨by rw [r1, hlen1], ?_, ?_, ?_, ?_, ?_, ?_⟩
    · intro t ht
      rw [r2 t (by omega), hne1 t (by omega)]
    · intro t
      obtain ⟨w, hw⟩ := r3 t
      obtain ⟨w2, hw2⟩ := hfl1 t
      exact ⟨w, by rw [hw, hw2]⟩
    · intro t ht h0
      by_cases hti : t = i
      · subst hti
        rw [r2 t (le_refl _), hvi, if_neg (fun c => absurd h0 (not_le.mpr c.1))]
      · rw [r4 t (by omega) (by rw [hne1 t hti]; exact h0), hne1 t hti]
    · intro t u htu hu hneg h0 hmid
      have hti : t ≠ i := by omega
      by_cases hui : u = i
      · subst hui
        rw [r6 t htu (by rw [hne1 t hti]; exact hneg)
          (fun m h1 h2 => by rw [hne1 m (by omega)]; exact hmid m h1 h2), if_pos h0, if_pos h0]
      · rw [r5 t u htu (by omega) (by rw [hne1 t hti]; exact hneg)
          (by rw [hne1 u hui]; exact h0)
          (fun m h1 h2 => by rw [hne1 m (by omega)]; exact hmid m h1 h2), hne1 u hui]
    · intro t ht hneg hmid
      by_cases hti : t = i
      · subst hti
        rw [r2 t (le_refl _), hvi]
        by_cases hl : 0 ≤ lastdur
        · rw [if_pos ⟨hneg, hl⟩, if_pos hl]
        · rw [if_neg (fun c => hl c.2), if_neg hl]
      · have hineg : (lineAt lines i).durationFromStart < 0 := hmid i (by omega) (by omega)
        rw [r6 t (by omega) (by rw [hne1 t hti]; exact hneg)
          (fun m h1 h2 => by rw [hne1 m (by omega)]; exact hmid m h1 (by omega)),
          if_neg (not_le.mpr hineg), hne1 t hti]
    · intro h
      apply r7
      by_cases h0 : 0 ≤ (lineAt lines i).durationFromStart
      · left
        rw [if_pos h0]
        exact h0
      · rw [if_neg h0]
        rcases h with h | ⟨u, hu, hu0⟩
        · exact Or.inl h
        · right
          have hui : u ≠ i := by
            intro e
            subst e
            exact h0 hu0
          exact ⟨u, by omega, by rw [hne1 u hui]; exact hu0⟩


/-- The forward loop of `fillInNegativeStartTimes`: what it leaves on the lines
from `i` on, in terms of the lines it is entered with. -/
theorem fillForward_values :
    ∀ (fuel i : Nat) (lastdur : HumNum) (lines : List HumdrumLine),
      i + fuel = lines.length →
      (fillForward fuel i lastdur lines).length = lines.length ∧
      (∀ t, ∃ w, lineAt (fillForward fuel i lastdur lines) t =
        { lineAt lines t with durationFromStart := w }) ∧
      (∀ t, t < i → lineAt (fillForward fuel i lastdur lines) t = lineAt lines t) ∧
      (∀ t, i ≤ t → t < lines.length → 0 ≤ (lineAt lines t).durationFromStart →
        (lineAt (fillForward fuel i lastdur lines) t).durationFromStart =
          (lineAt lines t).durationFromStart) ∧
      (∀ p t, i ≤ p → p < t → t < lines.length → (lineAt lines t).durationFromStart < 0 →
        0 ≤ (lineAt lines p).durationFromStart →
        (∀ m, p < m → m < t → (lineAt lines m).durationFromStart < 0) →
        (lineAt (fillForward fuel i lastdur lines) t).durationFromStart =
          (lineAt lines p).durationFromStart) ∧
      (∀ t, i ≤ t → t < lines.length → (lineAt lines t).durationFromStart < 0 →
        (∀ m, i ≤ m → m < t → (lineAt lines m).durationFromStart < 0) →
        (lineAt (fillForward fuel i lastdur lines) t).durationFromStart = lastdur) ∧
      (0 ≤ lastdur → ∀ t, i ≤ t → t < lines.length →
        0 ≤ (lineAt (fillForward fuel i lastdur lines) t).durationFromStart) := by
  intro fuel
  induction fuel with
  | zero =>
    intro i lastdur lines h
    refine ⟨rfl, fun t => ⟨_, rfl⟩, fun _ _ => rfl, fun t h1 h2 => by omega,
      fun p t h1 h2 h3 => by omega, fun t h1 h2 => by omega, fun _ t h1 h2 => by omega⟩
  | succ n ih =>
    intro i lastdur lines h
    have hil : i < lines.length := by omega
    simp only [fillForward]
    by_cases h0 : 0 ≤ (lineAt lines i).durationFromStart
    · rw [if_pos h0]
      obtain ⟨r1, r2, r3, r4, r5, r6, r7⟩ := ih (i + 1) (lineAt lines i).durationFromStart lines
        (by omega)
      refine ⟨r1, r2, fun t ht => r3 t (by omega), ?_, ?_, ?_, ?_⟩
      · intro t hit htl ht0
        by_cases hti : t = i
        · subst hti
          rw [r3 t (by omega)]
        · exact r4 t (by omega) htl ht0
      · intro p t hip hpt htl hneg hp0 hmid
        by_cases hpi : p = i
        · subst hpi
          exact r6 t (by omega) htl hneg (fun m h1 h2 => hmid m (by omega) h2)
        · exact r5 p t (by omega) hpt htl hneg hp0 hmid
      · intro t hit htl hneg hmid
        by_cases hti : t = i
        · subst hti
          exact absurd h0 (not_le.mpr hneg)
        · exact absurd h0 (not_le.mpr (hmid i (le_refl _) (by omega)))
      · intro _ t hit htl
        by_cases hti : t = i
        · subst hti
          rw [r3 t (by omega)]
          exact h0
        · exact r7 h0 t (by omega) htl
    · rw [if_neg h0]
      have hneg0 : (lineAt lines i).durationFromStart < 0 := not_le.mp h0
      have hne1 : ∀ t, t ≠ i →
          lineAt (setDurationFromStart lines i lastdur) t = lineAt lines t := by
        intro t ht
        rw [lineAt_setDurationFromStart, if_neg (fun c => ht c.1)]
      have hvi : (lineAt (setDurationFromStart lines i lastdur) i).durationFromStart =
          lastdur := by
        rw [lineAt_setDurationFromStart, if_pos ⟨rfl, hil⟩]
      have hlen1 := length_setDurationFromStart lines i lastdur
      obtain ⟨r1, r2, r3, r4, r5, r6, r7⟩ := ih (i + 1) lastdur
        (setDurationFromStart lines i lastdur) (by rw [hlen1]; omega)
      rw [hlen1] at r1 r4 r5 r6 r7
      refine ⟨r1, ?_, ?_, ?_, ?_, ?_, ?_⟩
      · intro t
        obtain ⟨w, hw⟩ := r2 t
        obtain ⟨w2, hw2⟩ := setDurationFromStart_fields lines i t lastdur
        exact ⟨w, by rw [hw, hw2]⟩
      · intro t ht
        rw [r3 t (by omega), hne1 t (by omega)]
      · intro t hit htl ht0
        have hti : t ≠ i := by
          intro e
          subst e
          exact h0 ht0
        rw [r4 t (by omega) htl (by rw [hne1 t hti]; exact ht0), hne1 t hti]
      · intro p t hip hpt htl hneg hp0 hmid
        have hpi : p ≠ i := by
          intro e
          subst e
          exact h0 hp0
        rw [r5 p t (by omega) hpt htl (by rw [hne1 t (by omega)]; exact hneg)
          (by rw [hne1 p hpi]; exact hp0)
          (fun m h1 h2 => by rw [hne1 m (by omega)]; exact hmid m h1 h2), hne1 p hpi]
      · intro t hit htl hneg hmid
        by_cases hti : t = i
        · subst hti
          rw [r3 t (by omega), hvi]
        · exact r6 t (by omega) htl (by rw [hne1 t hti]; exact hneg)
            (fun m h1 h2 => by rw [hne1 m (by omega)]; exact hmid m (by omega) h2)
      · intro hl t hit htl
        by_cases hti : t = i
        · subst hti
          rw [r3 t (by omega), hvi]
          exact hl
        · exact r7 hl t (by omega) htl


/-- C31: `fillInNegativeStartTimes` changes nothing but duration-from-start
values; a line with a non-negative value keeps it; a line with a negative value
gets the value of the nearest following line that had a non-negative value,
and where no such line follows, that of the nearest preceding one; if some
line had a non-negative value, every line has one afterwards. -/
theorem fillInNegativeStartTimes_values (lines : List HumdrumLine) :
    (fillInNegativeStartTimes lines).length = lines.length ∧
    (∀ t, ∃ w, lineAt (fillInNegativeStartTimes lines) t =
      { lineAt lines t with durationFromStart := w }) ∧
    (∀ t, t < lines.length → 0 ≤ (lineAt lines t).durationFromStart →
      (lineAt (fillInNegativeStartTimes lines) t).durationFromStart =
        (lineAt lines t).durationFromStart) ∧
    (∀ t u, t < u → u < lines.length → (lineAt lines t).durationFromStart < 0 →
      0 ≤ (lineAt lines u).durationFromStart →
      (∀ m, t < m → m < u → (lineAt lines m).durationFromStart < 0) →
      (lineAt (fillInNegativeStartTimes lines) t).durationFromStart =
        (lineAt lines u).durationFromStart) ∧
    (∀ p t, p < t → t < lines.length → (lineAt lines t).durationFromStart < 0 →
      0 ≤ (lineAt lines p).durationFromStart →
      (∀ m, p < m → m < t → (lineAt lines m).durationFromStart < 0) →
      (∀ u, t < u → u < lines.length → (lineAt lines u).durationFromStart < 0) →
      (lineAt (fillInNegativeStartTimes lines) t).durationFromStart =
        (lineAt lines p).durationFromStart) ∧
    ((∃ u, u < lines.length ∧ 0 ≤ (lineAt lines u).durationFromStart) →
      ∀ t, t < lines.length →
        0 ≤ (lineAt (fillInNegativeStartTimes lines) t).durationFromStart) := by
  obtain ⟨b1, b2, b3, b4, b5, b6, b7⟩ := fillBackward_values lines.length (-1) lines (le_refl _)
  obtain ⟨f1, f2, f3, f4, f5, f6, f7⟩ := fillForward_values
    lines.length 0 (fillBackward lines.length (-1) lines).1
    (fillBackward lines.length (-1) lines).2 (by omega)
  have hdef : fillInNegativeStartTimes lines =
      fillForward lines.length 0
        (fillBackward lines.length (-1) lines).1 (fillBackward lines.length (-1) lines).2 := by
    unfold fillInNegativeStartTimes
    simp only []
    rw [b1]
  rw [hdef]
  rw [b1] at f1 f4 f5 f6 f7
  have hkeep : ∀ t, t < lines.length → (lineAt lines t).durationFromStart < 0 →
      (∀ u, t < u → u < lines.length → (lineAt lines u).durationFromStart < 0) →
      (lineAt (fillBackward lines.length (-1) lines).2 t).durationFromStart =
        (lineAt lines t).durationFromStart := by
    intro t ht hneg hafter
    rw [b6 t ht hneg hafter, if_neg (by norm_num)]
  refine ⟨f1, ?_, ?_, ?_, ?_, ?_⟩
  · intro t
    obtain ⟨w, hw⟩ := f2 t
    obtain ⟨w2, hw2⟩ := b3 t
    exact ⟨w, by rw [hw, hw2]⟩
  · intro t ht h0
    rw [f4 t (Nat.zero_le _) ht (by rw [b4 t ht h0]; exact h0), b4 t ht h0]
  · intro t u htu hu hneg h0 hmid
    have hb := b5 t u htu hu hneg h0 hmid
    rw [f4 t (Nat.zero_le _) (by omega) (by rw [hb]; exact h0), hb]
  · intro p t hpt ht hneg hp0 hmid hafter
    rw [f5 p t (Nat.zero_le _) hpt ht (by rw [hkeep t ht hneg hafter]; exact hneg)
      (by rw [b4 p (by omega) hp0]; exact hp0)
      (fun m h1 h2 => by
        rw [hkeep m (by omega) (hmid m h1 h2) (fun u hu1 hu2 => by
          rcases Nat.lt_trichotomy u t with c | c | c
          · exact hmid u (by omega) c
          · rw [c]; exact hneg
          · exact hafter u c hu2)]
        exact hmid m h1 h2), b4 p (by omega) hp0]
  · rintro ⟨u, hu, hu0⟩ t ht
    exact f7 (b7 (Or.inr ⟨u, hu, hu0⟩)) t (Nat.zero_le _) ht

theorem fillInNegativeStartTimes_values_witness :
    ((0 : Nat) < 1 ∧ 1 < c31Lines.length ∧ (lineAt c31Lines 0).durationFromStart < 0 ∧
      0 ≤ (lineAt c31Lines 1).durationFromStart ∧
      (lineAt (fillInNegativeStartTimes c31Lines) 0).durationFromStart =
        (lineAt c31Lines 1).durationFromStart) ∧
    ((3 : Nat) < 4 ∧ 4 < c31Lines.length ∧ (lineAt c31Lines 4).durationFromStart < 0 ∧
      0 ≤ (lineAt c31Lines 3).durationFromStart ∧
      (lineAt (fillInNegativeStartTimes c31Lines) 4).durationFromStart =
        (lineAt c31Lines 3).durationFromStart) ∧
    (fillInNegativeStartTimes c31Lines).map (fun l => l.durationFromStart) = [2, 2, 5, 5, 5] :=
  ⟨⟨by decide, by decide!, by decide!, by decide!,
      (fillInNegativeStartTimes_values c31Lines).2.2.2.1 0 1 (by decide) (by decide!)
        (by decide!) (by decide!) (fun m h1 h2 => by omega)⟩,
    ⟨by decide, by decide!, by decide!, by decide!,
      (fillInNegativeStartTimes_values c31Lines).2.2.2.2.1 3 4 (by decide) (by decide!)
        (by decide!) (by decide!) (fun m h1 h2 => by omega)
        (fun u h1 h2 => by
          have hl : c31Lines.length = 5 := by decide!
          omega)⟩,
    by decide!⟩

/-- C32: the inner loop of `analyzeNullLineRhythms` on the `n` collected null
lines between known start times `s <= e`, with the step `(e - s) / (n + 1)`:
entry `k` (counted from 0) gets `s + (e - s) * (k + 1) / (n + 1)`, a value in
`[s, e]`, and the values do not decrease along the entries; with `s < e` they
lie strictly between `s` and `e` and increase strictly. -/
theorem assignNullLines_ordered (nl : List Nat) (lines : List HumdrumLine) (s e : HumNum)
    (hnd : nl.Nodup) (hlt : ∀ x ∈ nl, x < lines.length) (hse : s ≤ e) :
    (∀ (k : Nat) (hk : k < nl.length),
      (lineAt (assignNullLines nl 0 s ((e - s) / ((nl.length : HumNum) + 1)) lines)
          (nl.get ⟨k, hk⟩)).durationFromStart =
        s + (e - s) * ((k : HumNum) + 1) / ((nl.length : HumNum) + 1) ∧
      s ≤ (lineAt (assignNullLines nl 0 s ((e - s) / ((nl.length : HumNum) + 1)) lines)
          (nl.get ⟨k, hk⟩)).durationFromStart ∧
      (lineAt (assignNullLines nl 0 s ((e - s) / ((nl.length : HumNum) + 1)) lines)
          (nl.get ⟨k, hk⟩)).durationFromStart ≤ e) ∧
    (∀ (j k : Nat) (hj : j < nl.length) (hk : k < nl.length), j ≤ k →
      (lineAt (assignNullLines nl 0 s ((e - s) / ((nl.length : HumNum) + 1)) lines)
          (nl.get ⟨j, hj⟩)).durationFromStart ≤
        (lineAt (assignNullLines nl 0 s ((e - s) / ((nl.length : HumNum) + 1)) lines)
          (nl.get ⟨k, hk⟩)).durationFromStart) ∧
    (s < e →
      (∀ (k : Nat) (hk : k < nl.length),
        s < (lineAt (assignNullLines nl 0 s ((e - s) / ((nl.length : HumNum) + 1)) lines)
            (nl.get ⟨k, hk⟩)).durationFromStart ∧
        (lineAt (assignNullLines nl 0 s ((e - s) / ((nl.length : HumNum) + 1)) lines)
            (nl.get ⟨k, hk⟩)).durationFromStart < e) ∧
      (∀ (j k : Nat) (hj : j < nl.length) (hk : k < nl.length), j < k →
        (lineAt (assignNullLines nl 0 s ((e - s) / ((nl.length : HumNum) + 1)) lines)
            (nl.get ⟨j, hj⟩)).durationFromStart <
          (lineAt (assignNullLines nl 0 s ((e - s) / ((nl.length : HumNum) + 1)) lines)
            (nl.get ⟨k, hk⟩)).durationFromStart)) := by
  have hval : ∀ (k : Nat) (hk : k < nl.length),
      (lineAt (assignNullLines nl 0 s ((e - s) / ((nl.length : HumNum) + 1)) lines)
          (nl.get ⟨k, hk⟩)).durationFromStart =
        s + (e - s) / ((nl.length : HumNum) + 1) * ((k : HumNum) + 1) := by
    intro k hk
    rw [assignNullLines_value nl 0 s _ lines hnd hlt k hk]
    push_cast
    ring
  have hn : (0 : HumNum) < (nl.length : HumNum) + 1 := by
    have : (0 : HumNum) ≤ (nl.length : HumNum) := Nat.cast_nonneg _
    linarith
  have hd : 0 ≤ (e - s) / ((nl.length : HumNum) + 1) :=
    div_nonneg (sub_nonneg.mpr hse) (le_of_lt hn)
  have hdn : (e - s) / ((nl.length : HumNum) + 1) * ((nl.length : HumNum) + 1) = e - s :=
    div_mul_cancel₀ _ (ne_of_gt hn)
  have hcast : ∀ j k : Nat, j ≤ k → (j : HumNum) ≤ (k : HumNum) := fun j k h => Nat.cast_le.mpr h
  have hcastlt : ∀ j k : Nat, j < k → (j : HumNum) < (k : HumNum) :=
    fun j k h => Nat.cast_lt.mpr h
  refine ⟨?_, ?_, ?_⟩
  · intro k hk
    refine ⟨?_, ?_, ?_⟩
    · rw [hval k hk]
      ring
    · rw [hval k hk]
      have hk0 : (0 : HumNum) ≤ (k : HumNum) + 1 := by
        have : (0 : HumNum) ≤ (k : HumNum) := Nat.cast_nonneg _
        linarith
      have := mul_nonneg hd hk0
      linarith
    · rw [hval k hk]
      have hkn : (k : HumNum) + 1 ≤ (nl.length : HumNum) + 1 := by
        have := hcast k nl.length (le_of_lt hk)
        linarith
      have := mul_le_mul_of_nonneg_left hkn hd
      linarith
  · intro j k hj hk hjk
    rw [hval j hj, hval k hk]
    have hjk2 : (j : HumNum) + 1 ≤ (k : HumNum) + 1 := by
      have := hcast j k hjk
      linarith
    have := mul_le_mul_of_nonneg_left hjk2 hd
    linarith
  · intro hlt2
    have hdpos : 0 < (e - s) / ((nl.length : HumNum) + 1) := div_pos (sub_pos.mpr hlt2) hn
    constructor
    · intro k hk
      rw [hval k hk]
      constructor
      · have hk0 : (0 : HumNum) < (k : HumNum) + 1 := by
          have : (0 : HumNum) ≤ (k : HumNum) := Nat.cast_nonneg _
          linarith
        have := mul_pos hdpos hk0
        linarith
      · have hkn : (k : HumNum) + 1 < (nl.length : HumNum) + 1 := by
          have := hcastlt k nl.length hk
          linarith
        have := mul_lt_mul_of_pos_left hkn hdpos
        linarith
    · intro j k hj hk hjk
      rw [hval j hj, hval k hk]
      have hjk2 : (j : HumNum) + 1 < (k : HumNum) + 1 := by
        have := hcastlt j k hjk
        linarith
      have := mul_lt_mul_of_pos_left hjk2 hdpos
      linarith

theorem assignNullLines_ordered_witness :
    [1, 2, 3].Nodup ∧ (∀ x ∈ [1, 2, 3], x < c1Lines.length) ∧ (0 : HumNum) < 4 ∧
    (lineAt (assignNullLines [1, 2, 3] 0 0 ((4 - 0) / ((([1, 2, 3] : List Nat).length : HumNum) + 1))
        c1Lines) (([1, 2, 3] : List Nat).get ⟨0, by decide⟩)).durationFromStart <
      (lineAt (assignNullLines [1, 2, 3] 0 0 ((4 - 0) / ((([1, 2, 3] : List Nat).length : HumNum) + 1))
        c1Lines) (([1, 2, 3] : List Nat).get ⟨2, by decide⟩)).durationFromStart ∧
    (assignNullLines [1, 2, 3] 0 0 ((4 - 0) / ((([1, 2, 3] : List Nat).length : HumNum) + 1))
      c1Lines).map (fun l => l.durationFromStart) = [0, 1, 2, 3, 4] :=
  ⟨by decide, by decide!, by decide!,
    ((assignNullLines_ordered [1, 2, 3] c1Lines 0 4 (by decide) (by decide!) (by decide!)).2.2
      (by decide!)).2 0 2 (by decide) (by decide) (by decide),
    by decide!⟩

theorem sum_map_eq_sum_range (g : HumdrumLine → HumNum) :
    ∀ l : List HumdrumLine, (l.map g).sum = ∑ t in Finset.range l.length, g (lineAt l t) := by
  intro l
  induction l with
  | nil => simp
  | cons a rest ih =>
    rw [List.map_cons, List.sum_cons, List.length_cons, Finset.sum_range_succ', ih]
    have h0 : lineAt (a :: rest) 0 = a := rfl
    have hs : ∀ t, lineAt (a :: rest) (t + 1) = lineAt rest t := fun t => rfl
    simp only [h0, hs]
    ring

/-- C33: after `assignLineDurations` on a file with at least one line, the
durations of all lines add up to `getScoreDuration()` less the
duration-from-start of the first line, `getScoreDuration()` being the
duration-from-start of the last line; for a file without lines
`getScoreDuration()` is 0. -/
theorem assignLineDurations_sum (f : HumdrumFile) (ls : List HumdrumLine)
    (hassign : assignLineDurations f.lines = some ls) :
    (ls.map fun l => l.duration).sum =
      getScoreDuration { f with lines := ls } - (lineAt ls 0).durationFromStart ∧
    getScoreDuration { f with lines := ls } =
      (lineAt ls (ls.length - 1)).durationFromStart ∧
    (∀ t, (lineAt ls t).durationFromStart = (lineAt f.lines t).durationFromStart) ∧
    (∀ g : HumdrumFile, g.lines = [] → getScoreDuration g = 0) := by
  have hpos : 0 < f.lines.length := assignLineDurations_some_pos hassign
  obtain ⟨ls1, h1, h2, h3⟩ := assignLineDurations_result f.lines hpos
  have hls : ls1 = ls := Option.some.inj (h1.symm.trans hassign)
  subst hls
  have hdfs : ∀ t, (lineAt ls1 t).durationFromStart = (lineAt f.lines t).durationFromStart := by
    intro t
    rw [h3 t]
  have hscore : getScoreDuration { f with lines := ls1 } =
      (lineAt ls1 (ls1.length - 1)).durationFromStart := by
    unfold getScoreDuration
    simp only []
    rw [if_neg (by omega)]
  refine ⟨?_, hscore, hdfs, ?_⟩
  · rw [hscore, sum_map_eq_sum_range, h2, hdfs, hdfs]
    obtain ⟨m, hm⟩ : ∃ m, f.lines.length = m + 1 := ⟨f.lines.length - 1, by omega⟩
    rw [hm, Finset.sum_range_succ, Nat.add_sub_cancel]
    have hlast : (lineAt ls1 m).duration = 0 := by
      rw [h3 m]
      simp [hm]
    rw [hlast, add_zero,
      ← Finset.sum_range_sub (fun t => (lineAt f.lines t).durationFromStart) m]
    apply Finset.sum_congr rfl
    intro t ht
    rw [Finset.mem_range] at ht
    rw [h3 t]
    have : t + 1 < f.lines.length := by omega
    simp [this]
  · intro g hg
    unfold getScoreDuration
    rw [hg]
    rfl

theorem assignLineDurations_sum_witness :
    assignLineDurations c33File.lines = some c33Assigned ∧
    (c33Assigned.map fun l => l.duration) = [0, 3, 0, 0, 0] ∧
    (c33Assigned.map fun l => l.duration).sum =
      getScoreDuration { c33File with lines := c33Assigned } -
        (lineAt c33Assigned 0).durationFromStart :=
  ⟨by decide!, by decide!, (assignLineDurations_sum c33File c33Assigned (by decide!)).1⟩

/-- Durations that go from each non-null data token of a walk to the one
before it in the walk add up to the distance from the last of them to the
token the walk starts with. -/
theorem nonNullDurations_telescope (f : HumdrumFile) (dur : Nat → HumNum) :
    ∀ (W : List Nat) (cur : Nat),
      (∀ k t, W[k]? = some t → isNonNullData f t = true →
        dur t = tokenDurationFromStart f (nextNonNullData f W k cur) -
          tokenDurationFromStart f t) →
      ((W.filter (isNonNullData f)).map dur).sum =
        tokenDurationFromStart f cur -
          tokenDurationFromStart f ((W.filter (isNonNullData f)).getLast?.getD cur) := by
  intro W
  induction W with
  | nil => intro cur _; simp
  | cons w rest ih =>
    intro cur h
    have hrest : ∀ k t, rest[k]? = some t → isNonNullData f t = true →
        dur t = tokenDurationFromStart f
            (nextNonNullData f rest k (if isNonNullData f w = true then w else cur)) -
          tokenDurationFromStart f t := by
      intro k t hk ht
      rw [h (k + 1) t (by simpa using hk) ht, nextNonNullData_cons]
    have hih := ih _ hrest
    cases hw : isNonNullData f w with
    | true =>
      rw [hw] at hih
      simp only [if_true] at hih
      rw [List.filter_cons_of_pos hw, List.map_cons, List.sum_cons, hih,
        h 0 w (by simp) hw, nextNonNullData_zero]
      have hlast : (w :: rest.filter (isNonNullData f)).getLast?.getD cur =
          (rest.filter (isNonNullData f)).getLast?.getD w := by
        cases hr : rest.filter (isNonNullData f) with
        | nil => simp
        | cons a more =>
          have hsome : ((a :: more).getLast?).isSome = true := by
            rw [List.getLast?_isSome]
            exact List.cons_ne_nil _ _
          obtain ⟨x, hx⟩ := Option.isSome_iff_exists.mp hsome
          rw [List.getLast?_cons_cons, hx]
          rfl
      rw [hlast]
      ring
    | false =>
      rw [hw] at hih
      simp only [Bool.false_eq_true, if_false] at hih
      rw [List.filter_cons_of_neg (by rw [hw]; simp)]
      exact hih

/-- C34: on a non-branching track, listed in `W` from its end token back to its
start token (an exclusive interpretation, so not a data token), that has a
non-null data token, `first` being the first one of the track, the call
`assignDurationsToNonRhythmicTrack(endtoken, endtoken)` returns true and the
durations of the non-null data tokens of the track then add up to the start
time of the end token less the start time of `first`. -/
theorem assignDurationsToNonRhythmicTrack_sum (f : HumdrumFile) (W : List Nat)
    (endtoken first fuel : Nat) (hchain : isBackwardChain f W = true)
    (hend : W.head? = some endtoken)
    (hstart : ∀ t, W.getLast? = some t → isNonNullData f t = false)
    (hfirst : (W.filter (isNonNullData f)).getLast? = some first)
    (hfuel : W.length < fuel) :
    ∃ g, assignDurationsToNonRhythmicTrack fuel f endtoken endtoken = .done (true, g) ∧
      ((W.filter (isNonNullData f)).map fun t => (tokenAt g t).duration).sum =
        tokenDurationFromStart f endtoken - tokenDurationFromStart f first ∧
      (∀ t, tokenDurationFromStart g t = tokenDurationFromStart f t) := by
  obtain ⟨g, hg, hgl, hgf, hframe, hdur⟩ := assignDurationsToNonRhythmicTrack_walk W f
    endtoken fuel hchain (isBackwardChain_nodup f W hchain) hfuel
  have hhead : W.headD 0 = endtoken := by
    cases W with
    | nil => cases hend
    | cons w rest =>
      simp only [List.head?_cons, Option.some.injEq] at hend
      simp only [List.headD_cons, hend]
  rw [hhead] at hg
  refine ⟨g, hg, ?_, ?_⟩
  · have hall : ∀ k t, W[k]? = some t → isNonNullData f t = true →
        (tokenAt g t).duration =
          tokenDurationFromStart f (nextNonNullData f W k endtoken) -
            tokenDurationFromStart f t := by
      intro k t hkt ht
      have hk : k < W.length := by
        by_contra hc
        rw [List.getElem?_eq_none (Nat.le_of_not_lt hc)] at hkt
        cases hkt
      have hk2 : k + 1 < W.length := by
        by_contra hc
        have hke : k = W.length - 1 := by omega
        have hlast : W.getLast? = some t := by
          rw [List.getLast?_eq_getElem?, ← hke]
          exact hkt
        rw [hstart t hlast] at ht
        cases ht
      exact hdur k t hk2 hkt ht
    rw [nonNullDurations_telescope f (fun t => (tokenAt g t).duration) W endtoken hall, hfirst]
    rfl
  · intro t
    obtain ⟨d, hd⟩ := hgf t
    exact tokenDurationFromStart_congr hgl hd

theorem assignDurationsToNonRhythmicTrack_sum_witness :
    isBackwardChain c12File [4, 3, 2, 1, 0] = true ∧
    ([4, 3, 2, 1, 0].filter (isNonNullData c12File)).getLast? = some 1 ∧
    ∃ g, assignDurationsToNonRhythmicTrack 10 c12File 4 4 = .done (true, g) ∧
      (([4, 3, 2, 1, 0].filter (isNonNullData c12File)).map
          fun t => (tokenAt g t).duration).sum =
        tokenDurationFromStart c12File 4 - tokenDurationFromStart c12File 1 ∧
      (∀ t, tokenDurationFromStart g t = tokenDurationFromStart c12File t) :=
  ⟨by decide!, by decide!,
    assignDurationsToNonRhythmicTrack_sum c12File [4, 3, 2, 1, 0] 4 1 10 (by decide!) rfl
      (fun t h => by cases h; decide!) (by decide!) (by decide)⟩

theorem analyzeNullLineRhythmsLoop_fail (fuel i : Nat) (lines : List HumdrumLine)
    (nl : List Nat) (prev : Option Nat)
    (hb : isUnexpectedNegative (lineAt lines i) = true) :
    analyzeNullLineRhythmsLoop (fuel + 1) i lines nl prev = (false, lines) := by
  unfold isUnexpectedNegative at hb
  simp only [Bool.and_eq_true, Bool.not_eq_true', decide_eq_true_eq] at hb
  obtain ⟨⟨⟨hs, hn⟩, hneg⟩, hd⟩ := hb
  cases prev <;> simp [analyzeNullLineRhythmsLoop, hs, hn, hneg, hd]

/-- C35: `analyzeNullLineRhythms` returns false exactly when some line of the
file with spines that is a data line, is not all-rhythmic-null and has a
negative duration-from-start; the scan never writes such a line, so the value
it reads there is the one the line had before the call.  A line without spines
and a line that is not a data line are never such a line. -/
theorem analyzeNullLineRhythms_false_iff (lines : List HumdrumLine) :
    ((analyzeNullLineRhythms lines).1 = false ↔
      ∃ t, t < lines.length ∧ isUnexpectedNegative (lineAt lines t) = true) ∧
    (∀ t, isUnexpectedNegative (lineAt lines t) = true →
      lineAt (analyzeNullLineRhythms lines).2 t = lineAt lines t) ∧
    (∀ t, (lineAt lines t).hasSpines = false ∨ (lineAt lines t).isData = false →
      isUnexpectedNegative (lineAt lines t) = false) ∧
    (∀ t, isUnexpectedNegative (lineAt lines t) = true ↔
      (lineAt lines t).hasSpines = true ∧ (lineAt lines t).isData = true ∧
        (lineAt lines t).isAllRhythmicNull = false ∧
        (lineAt lines t).durationFromStart < 0) := by
  refine ⟨⟨?_, ?_⟩, ?_, ?_, ?_⟩
  · intro hfalse
    by_contra hno
    have hok : ∀ t, t < lines.length → isUnexpectedNegative (lineAt lines t) = false := by
      intro t ht
      by_contra hc
      exact hno ⟨t, ht, by simpa using hc⟩
    obtain ⟨l1, nl1, p1, h1, _⟩ := analyzeNullLineRhythmsLoop_progress lines.length 0 0 lines
      [] none (by simp) (fun t _ ht => hok t (by omega))
    have hstart : analyzeNullLineRhythms lines =
        analyzeNullLineRhythmsLoop (lines.length + 0) 0 lines [] none := rfl
    rw [hstart, h1] at hfalse
    cases hfalse
  · intro hex
    have hdec : ∃ t, t < lines.length ∧ isUnexpectedNegative (lineAt lines t) = true := hex
    classical
    have hmin : ∀ m, m < Nat.find hdec →
        ¬ (m < lines.length ∧ isUnexpectedNegative (lineAt lines m) = true) :=
      fun m hm => Nat.find_min hdec hm
    obtain ⟨hlt, hbad⟩ := Nat.find_spec hdec
    generalize Nat.find hdec = t0 at hmin hlt hbad
    obtain ⟨k, hk⟩ : ∃ k, lines.length = t0 + (k + 1) := ⟨lines.length - t0 - 1, by omega⟩
    have hstart : analyzeNullLineRhythms lines =
        analyzeNullLineRhythmsLoop (t0 + (k + 1)) 0 lines [] none := by
      unfold analyzeNullLineRhythms
      rw [hk]
    obtain ⟨l1, nl1, p1, h1, _, h3, _⟩ := analyzeNullLineRhythmsLoop_progress t0 (k + 1) 0 lines
      [] none (by simp) (fun t _ ht => by
        by_contra hc
        exact hmin t (by omega) ⟨by omega, by simpa using hc⟩)
    rw [hstart, h1, Nat.zero_add,
      analyzeNullLineRhythmsLoop_fail k t0 l1 nl1 p1 (by rw [h3 t0 (by omega)]; exact hbad)]
  · intro t ht
    apply analyzeNullLineRhythmsLoop_writes_null_only lines lines.length 0 lines [] none
      (by simp) (fun x => ⟨(lineAt lines x).durationFromStart, rfl⟩) t
    unfold isUnexpectedNegative at ht
    unfold isNullDataLine
    simp only [Bool.and_eq_true, Bool.not_eq_true', decide_eq_true_eq] at ht
    simp [ht.1.1.2]
  · intro t ht
    unfold isUnexpectedNegative
    rcases ht with h | h
    · simp [h]
    · simp [h]
  · intro t
    unfold isUnexpectedNegative
    simp only [Bool.and_eq_true, Bool.not_eq_true', decide_eq_true_eq]
    constructor
    · rintro ⟨⟨⟨h1, h2⟩, h3⟩, h4⟩
      exact ⟨h1, h4, h2, h3⟩
    · rintro ⟨h1, h4, h2, h3⟩
      exact ⟨⟨⟨h1, h2⟩, h3⟩, h4⟩

theorem analyzeNullLineRhythms_false_iff_witness :
    (3 < c35Lines.length ∧ isUnexpectedNegative (lineAt c35Lines 3) = true ∧
      (analyzeNullLineRhythms c35Lines).1 = false) ∧
    ((lineAt c35Lines 1).hasSpines = false ∧ (lineAt c35Lines 1).durationFromStart < 0 ∧
      isUnexpectedNegative (lineAt c35Lines 1) = false) ∧
    ((lineAt c35Lines 2).isData = false ∧ (lineAt c35Lines 2).durationFromStart < 0 ∧
      isUnexpectedNegative (lineAt c35Lines 2) = false) ∧
    (analyzeNullLineRhythms (c35Lines.take 3)).1 = true :=
  ⟨⟨by decide!, by decide!,
      (analyzeNullLineRhythms_false_iff c35Lines).1.2 ⟨3, by decide!, by decide!⟩⟩,
    ⟨by decide!, by decide!,
      (analyzeNullLineRhythms_false_iff c35Lines).2.2.1 1 (Or.inl (by decide!))⟩,
    ⟨by decide!, by decide!,
      (analyzeNullLineRhythms_false_iff c35Lines).2.2.1 2 (Or.inr (by decide!))⟩,
    by decide!⟩

/-- C8 fails on `c8File`: the branches of the split through tokens 2, 4 and
through tokens 3, 5 reach the merge token 6 with the running sums 1 and 2, and
`assignDurationsToTrack` from the start token returns true, as does
`analyzeRhythm`; the line of the merge token keeps the value 1 of the first
branch.  The second branch finds the merge token visited and returns true
before any comparison, whatever its running sum is.  The same disagreement
between two tracks that meet on a line (`c8Tracks`) is found by
`setLineDurationFromStart`, and propagation of the second track returns
false. -/
theorem assignDurationsToTrack_accepts_unequal_merge :
    ((tokenAt c8File 1).nextTokens = [2, 3] ∧
      (tokenAt c8File 4).nextTokens = [6] ∧ (tokenAt c8File 5).nextTokens = [6] ∧
      positiveDurationSum c8File [0, 1, 2, 4] = 1 ∧
      positiveDurationSum c8File [0, 1, 3, 5] = 2) ∧
    (assignDurationsToTrack 50 c8File 0 0 = .done (true, c8After) ∧
      (analyzeRhythm 50 (fun _ => true) c8File).returnedTrue = true ∧
      (lineAt c8After.lines (tokenAt c8After 6).owner).durationFromStart = 1) ∧
    (∀ (d : HumNum) (fuel : Nat),
      prepareDurations (fuel + 1) c8After 6 0 d = .done (true, c8After)) ∧
    (positiveDurationSum c8Tracks [0, 1] = 1 ∧ positiveDurationSum c8Tracks [4, 5] = 2 ∧
      (tokenAt c8Tracks 2).owner = (tokenAt c8Tracks 6).owner ∧
      assignDurationsToTrack 50 c8Tracks 0 0 = .done (true, c8TracksFirst) ∧
      assignDurationsToTrack 50 c8TracksFirst 4 0 = .done (false, c8TracksAfter) ∧
      analyzeRhythm 50 (fun _ => true) c8Tracks = .done (false, c8TracksAfter)) :=
  ⟨by decide!, by decide!,
    fun d fuel => (prepareDurations_revisit_accepted c8After 0 d fuel).1 6 (by decide!),
    by decide!⟩

/-- C9 fails on `c9File`, the file `c9Read` after the propagation of its first
spine: the walk from the floating start token 3 passes token 3 (line without
value) and reaches token 5 on a line with the known value 0, nothing
accumulated.  The call returns false and leaves the file as it is, and so
`analyzeRhythm` returns false on `c9Read`, while the propagation from the offset
`0 - 0` returns true and visits the tokens 3, 5 and 7 of the floating spine.
When the known value is not zero the call is that propagation, as on the start
line with value 2 of `c5File`. -/
theorem analyzeRhythmOfFloatingSpine_zero_anchor_unlinked :
    (analyzePrimaryTracks 10 0 c9Read.trackstarts c9Read = .done (true, c9File) ∧
      analyzeRhythm 10 (fun _ => true) c9Read = .done (false, c9File)) ∧
    (reachesByFirstNext c9File 3 [3] 5 ∧
      tokenDurationFromStart c9File 3 < 0 ∧ tokenDurationFromStart c9File 5 = 0 ∧
      positiveDurationSum c9File [3] = 0) ∧
    (analyzeRhythmOfFloatingSpine 10 c9File 3 = .done (false, c9File) ∧
      assignDurationsToTrack 10 c9File 3
        (tokenDurationFromStart c9File 5 - positiveDurationSum c9File [3]) =
          .done (true, c9Linked) ∧
      (∀ t ∈ [3, 5, 7], (tokenAt c9File t).state = 0 ∧ (tokenAt c9Linked t).state = 1)) ∧
    (∀ (f : HumdrumFile) (spinestart anchor : Nat) (passed : List Nat) (fuel : Nat),
      passed.length < fuel → reachesByFirstNext f spinestart passed anchor →
      (∀ p ∈ passed, tokenDurationFromStart f p < 0) →
      0 ≤ tokenDurationFromStart f anchor → tokenDurationFromStart f anchor ≠ 0 →
      analyzeRhythmOfFloatingSpine fuel f spinestart =
        assignDurationsToTrack fuel f spinestart
          (tokenDurationFromStart f anchor - positiveDurationSum f passed)) ∧
    (tokenDurationFromStart c5File 1 = 2 ∧
      analyzeRhythmOfFloatingSpine 10 c5File 1 = assignDurationsToTrack 10 c5File 1 2 ∧
      (assignDurationsToTrack 10 c5File 1 2).returnedTrue = true) :=
  ⟨by decide!, by decide!, by decide!,
    fun f spinestart anchor passed fuel h1 h2 h3 h4 h5 =>
      analyzeRhythmOfFloatingSpine_offset f spinestart anchor passed fuel h1 h2 h3 h4 h5,
    by decide!⟩

end minHumdrum
